import Mathlib

/-!
# Asteroid field: visibility, station selection and the vaporizing sweep

A shallow embedding of `2019/day10/asteroid.go`.

Modelling conventions.

* `Point` carries two integers.  The coordinates of a Go `Point` are `int` values; a Lean
  `Point` whose coordinates lie in the 64-bit range stands for it.
* Go's `int` is the 64-bit two's complement integer: `subInt`, `mulInt` and `addInt` are
  the exact operations followed by `wrapInt`, which reduces into `[-2^63, 2^63)`.
  `crossproduct` and `dotproduct` are written with them, operation by operation.
* A `float64` is a number with a significand of 53 binary digits; every operation returns
  the exact result rounded to the nearest such number, ties to the even significand.
  `roundSig` is that rounding on the natural numbers, `toF64` the conversion `float64(n)`
  of an integer.  All `float64` values met by `lineDistance` before the square root are
  integers and are represented by those integers; `math.Sqrt` is the correctly rounded
  square root, and its result, `0` or a number of at least `1`, is a multiple of `2^-52`:
  `lineDistance` returns it in units of `2^-52`, as a natural number.  No value here comes
  near the largest `float64` or below the smallest normal one, so neither infinities nor
  subnormal numbers occur.  Each operation is rounded on its own (no fused multiply-add).
* `getAngle` converts two `int` differences to `float64` and hands them to
  `math.Atan2`, which is library code.  From there on the angle is taken over the reals:
  `atan2 y x` is `Complex.arg (x + y i)`, and the subtractions and the addition that
  follow are exact.  The comparison `angleLess` used by the sort is executable and is
  proved to decide `getAngle p2 c > getAngle p1 c` (`angleLess_iff`).
* The map `Asteroids : map[Point]Object` only ever stores the value `'#'`, so it is
  modelled by the list of its keys, in the order in which a `range` loop enumerates them.
  A map has no duplicate key: theorems that depend on it take `field.Asteroids.Nodup` as
  a hypothesis.
* `sort.Slice` is library code; it is modelled by a stable insertion sort (the algorithm
  it runs on slices of fewer than twelve elements).  A slice with pairwise distinct
  angles has one sorted arrangement only (`sortAngle_unique`).
* The loop of `Vaporize` is run with fuel; `none` stands for a loop that is still running
  when the fuel is used up.  `Vaporize.passes` lists the slices appended pass by pass; the
  returned sequence is their concatenation (`loop_eq_passes`).
* `ParseAsteroids` reads a reader byte by byte; it is modelled on the list of the bytes
  delivered, for a reader that reports no error.  The scanning loop is a left fold of
  `ParseAsteroids.step` over that list; what it maintains is stated in `parse_invariant`.
  Rows, the longest row and the number of rows of a text (`inputRows`, `longestRow`,
  `rowCount`) are not computed by the code; they are defined here to compare the field's
  width and height with them.

Statements about the geometry (which asteroid hides which, in which order a pass lists
them) are made for points in the box `inBox`, coordinates between `-2^20` and `2^20`:
there no `int` operation wraps and every `float64` comparison of the source agrees with
the comparison in exact arithmetic (`occludes_iff`).  Outside the box they fail; the
fields `wideField`, `farRowField`, `farSweepField` and `farPlusField` show how.
-/

namespace Asteroid

/-- A point in space (`type Point struct { X, Y int }`). -/
structure Point where
  X : Int
  Y : Int
deriving DecidableEq, Repr

/-- A field of asteroids: `Width`, `Height`, and the keys of the `Asteroids` map in
enumeration order. -/
structure Field where
  Width : Int
  Height : Int
  Asteroids : List Point
deriving DecidableEq, Repr

/-! ### Machine arithmetic -/

/-- The value of the exact integer `x` as a 64-bit two's complement `int`. -/
def wrapInt (x : Int) : Int :=
  (x + 9223372036854775808) % 18446744073709551616 - 9223372036854775808

/-- Go's `a - b` on `int`. -/
def subInt (a b : Int) : Int := wrapInt (a - b)

/-- Go's `a * b` on `int`. -/
def mulInt (a b : Int) : Int := wrapInt (a * b)

/-- Go's `a + b` on `int`. -/
def addInt (a b : Int) : Int := wrapInt (a + b)

/-- The number of binary digits of `n`, counted with `fuel` halvings at most. -/
def bitLen.go : Nat → Nat → Nat
  | 0, _ => 0
  | fuel + 1, n => if n = 0 then 0 else bitLen.go fuel (n / 2) + 1

/-- The number of binary digits of `n` (`0` for `n = 0`). -/
def bitLen (n : Nat) : Nat := bitLen.go n n

/-- The search for the integer square root of `n`, binary digit by binary digit: `r` is
the root found so far and `k` the number of lower digits still to be decided. -/
def isqrt.go (n : Nat) : Nat → Nat → Nat
  | 0, r => r
  | k + 1, r =>
    if (r + 2 ^ k) * (r + 2 ^ k) ≤ n then isqrt.go n k (r + 2 ^ k) else isqrt.go n k r

/-- The integer square root of `n`: the largest `r` with `r * r ≤ n` (`isqrt_spec`). -/
def isqrt (n : Nat) : Nat := isqrt.go n (bitLen n) 0

/-- Rounding of the natural number `n` to a significand of 53 binary digits, to the
nearest such number, ties to the even significand: with `q` the weight of the last digit
kept, `n` lies between `k * q` and `(k + 1) * q`.  Multiplying `n` by a power of two
multiplies the result by it, so the same function rounds a number given in units of a
power of two. -/
def roundSig (n : Nat) : Nat :=
  let q := 2 ^ (bitLen n - 53)
  let k := n / q
  let r := n % q
  if 2 * r < q then k * q
  else if 2 * r = q then (if k % 2 = 0 then k * q else (k + 1) * q)
  else (k + 1) * q

/-- The conversion `float64(n)` of an integer, and with it the rounding of an exact
integer result to `float64`. -/
def toF64 (n : Int) : Int :=
  if n < 0 then -((roundSig n.natAbs : Nat) : Int) else ((roundSig n.natAbs : Nat) : Int)

/-- The function `math.Sqrt` on a `float64` that is the natural number `s`: the square
root of `s` rounded to a significand of 53 binary digits, in units of `2^-52`.  With
`n = s * 2^104` the exact root in those units is the square root of `n`; `r` is its
integer part, `q` the weight of the last digit kept, and the root lies between `k * q`
and `(k + 1) * q`, below or above the middle `(2 * k + 1) * q / 2` according to how
`4 * n` compares with `((2 * k + 1) * q)^2`. -/
def sqrtF64 (s : Nat) : Nat :=
  let n := s * 2 ^ 104
  let r := isqrt n
  let q := 2 ^ (bitLen r - 53)
  let k := r / q
  if 4 * n < ((2 * k + 1) * q) * ((2 * k + 1) * q) then k * q
  else if 4 * n = ((2 * k + 1) * q) * ((2 * k + 1) * q) then
    (if k % 2 = 0 then k * q else (k + 1) * q)
  else (k + 1) * q

/-! ### Geometry -/

/-- The function `crossproduct(p1, p2, p3)` of the source. -/
def crossproduct (p1 p2 p3 : Point) : Int :=
  subInt (mulInt (subInt p3.Y p1.Y) (subInt p2.X p1.X))
    (mulInt (subInt p3.X p1.X) (subInt p2.Y p1.Y))

/-- The function `dotproduct(p1, p2, p3)` of the source. -/
def dotproduct (p1 p2 p3 : Point) : Int :=
  addInt (mulInt (subInt p3.X p1.X) (subInt p2.X p1.X))
    (mulInt (subInt p3.Y p1.Y) (subInt p2.Y p1.Y))

/-- The function `lineDistance(p1, p2)` of the source; the `float64` it returns is given
in units of `2^-52`.  The values `x1`, `y1`, `x2`, `y2`, `x`, `y`, `x * x`, `y * y` and
their sum are `float64` values that are integers. -/
def lineDistance (p1 p2 : Point) : Nat :=
  let x1 := toF64 p1.X
  let y1 := toF64 p1.Y
  let x2 := toF64 p2.X
  let y2 := toF64 p2.Y
  let x := toF64 (x2 - x1)
  let y := toF64 (y2 - y1)
  sqrtF64 (toF64 (toF64 (x * x) + toF64 (y * y))).toNat

/-- The loop body of `IsVisible` run over the enumeration `ps` of the map: `p3` is
skipped when it is `p1` or `p2`, when `cross != 0`, or when
`dot >= 0 && float64(dot) <= lineDistance(p2, p3) * lineDistance(p2, p3)`; a remaining
`p3` with `d13 < d12` makes the result `false`.  The product of the two distances is the
exact product, in units of `2^-104`, rounded; `float64(dot)` is brought to the same
unit. -/
def IsVisible.scan (p1 p2 : Point) : List Point → Bool
  | [] => true
  | p3 :: rest =>
    if p3 = p1 ∨ p3 = p2 then IsVisible.scan p1 p2 rest
    else if crossproduct p2 p3 p1 ≠ 0 then IsVisible.scan p1 p2 rest
    else if dotproduct p2 p3 p1 ≥ 0 ∧
        toF64 (dotproduct p2 p3 p1) * 2 ^ 104 ≤
          ((roundSig (lineDistance p2 p3 * lineDistance p2 p3) : Nat) : Int) then
      IsVisible.scan p1 p2 rest
    else if lineDistance p1 p3 < lineDistance p1 p2 then false
    else IsVisible.scan p1 p2 rest

/-- The function `IsVisible(field, p1, p2)`: true if `p2` is visible from `p1`. -/
def IsVisible (field : Field) (p1 p2 : Point) : Bool :=
  IsVisible.scan p1 p2 field.Asteroids

/-- The loop of `VisibleAsteroids` over the enumeration `ps`, appending to the slice. -/
def VisibleAsteroids.scan (field : Field) (p1 : Point) : List Point → List Point
  | [] => []
  | p2 :: rest =>
    if p2 = p1 then VisibleAsteroids.scan field p1 rest
    else if IsVisible field p1 p2 then p2 :: VisibleAsteroids.scan field p1 rest
    else VisibleAsteroids.scan field p1 rest

/-- The function `VisibleAsteroids(field, p1)`: the asteroids visible from `p1`. -/
def VisibleAsteroids (field : Field) (p1 : Point) : List Point :=
  VisibleAsteroids.scan field p1 field.Asteroids

/-- The loop of `FindMonitoringStation`, carrying `(maxPoint, maxCount)`. -/
def FindMonitoringStation.scan (field : Field) : List Point → Point × Nat → Point × Nat
  | [], best => best
  | p :: rest, (maxPoint, maxCount) =>
    let count := (VisibleAsteroids field p).length
    if count > maxCount then FindMonitoringStation.scan field rest (p, count)
    else FindMonitoringStation.scan field rest (maxPoint, maxCount)

/-- The function `FindMonitoringStation(field)`: both variables start at their zero
value. -/
def FindMonitoringStation (field : Field) : Point × Nat :=
  FindMonitoringStation.scan field field.Asteroids (⟨0, 0⟩, 0)

/-! ### Angles -/

/-- The function `math.Atan2(y, x)` over the reals: the argument of `x + y i`, in
`(-π, π]`, with value `0` at the origin. -/
noncomputable def atan2 (y x : ℝ) : ℝ := Complex.arg ⟨x, y⟩

/-- The function `getAngle(p1, p2)` of the source: the two differences are taken on
`int` and converted to `float64`; the angle is taken over the reals. -/
noncomputable def getAngle (p1 p2 : Point) : ℝ :=
  let angle := atan2 ((toF64 (subInt p2.Y p1.Y) : Int) : ℝ) ((toF64 (subInt p2.X p1.X) : Int) : ℝ)
  let angle := angle - (Real.pi / 2)
  let angle := if angle < 0 then (2 * Real.pi) + angle else angle
  angle - (Real.pi / 2)

/-- The direction `(right, up)` that `getAngle p c` measures: the two arguments handed to
`math.Atan2` give the offset from `p` to `c`.  When both are `0` the source evaluates
`atan2 0 0 = 0`, the value it also takes for a point due left of `c`. -/
def angleDir (p c : Point) : Int × Int :=
  if toF64 (subInt c.X p.X) = 0 ∧ toF64 (subInt c.Y p.Y) = 0 then (-1, 0)
  else (-toF64 (subInt c.X p.X), toF64 (subInt c.Y p.Y))

/-- Which half turn `getAngle p c` falls in: `0` for the half that starts straight up
and runs over the right-hand side, `1` for the half that starts straight down. -/
def angleHalf (p c : Point) : Nat :=
  if 0 < (angleDir p c).1 ∨ ((angleDir p c).1 = 0 ∧ 0 < (angleDir p c).2) then 0 else 1

/-- The comparison `getAngle(p2, c) > getAngle(p1, c)` made by the `less` function of
`sortAngle`, decided in integer arithmetic: first by half turn, then by the sign of the
cross product of the two directions. -/
def angleLess (c p1 p2 : Point) : Bool :=
  decide (angleHalf p1 c < angleHalf p2 c ∨
    (angleHalf p1 c = angleHalf p2 c ∧
      0 < (angleDir p2 c).1 * (angleDir p1 c).2 - (angleDir p2 c).2 * (angleDir p1 c).1))

/-- Insertion of `x` in front of a slice sorted by `angleLess c`: `x` moves right past
the elements that are less than `x`. -/
def sortAngle.insert (c x : Point) : List Point → List Point
  | [] => [x]
  | y :: ys => if angleLess c y x then y :: sortAngle.insert c x ys else x :: y :: ys

/-- The function `sortAngle(asteroids, c)`: `sort.Slice` with the comparison
`getAngle(p2, c) > getAngle(p1, c)`, modelled as a stable insertion sort (the
algorithm `sort.Slice` runs on short slices).  When no two elements have the same
angle the sorted slice does not depend on the algorithm (`sortAngle_unique`). -/
def sortAngle (asteroids : List Point) (c : Point) : List Point :=
  asteroids.foldr (sortAngle.insert c) []

/-! ### The sweep -/

/-- The statement `delete(field.Asteroids, p)`. -/
def deleteKey (asteroids : List Point) (p : Point) : List Point :=
  asteroids.filter (fun q => decide (q ≠ p))

/-- One iteration of the outer loop of `Vaporize`: the sorted visible asteroids, and the
field after each of them has been deleted. -/
def Vaporize.pass (field : Field) (c : Point) : List Point × Field :=
  let next := sortAngle (VisibleAsteroids field c) c
  (next, { field with Asteroids := next.foldl deleteKey field.Asteroids })

/-- The loop `for len(field.Asteroids) > 1` of `Vaporize`, with at most `fuel`
iterations; `none` when the loop has not stopped by then. -/
def Vaporize.loop (c : Point) : Nat → Field → List Point → Option (List Point × Field)
  | 0, field, vaporized =>
    if field.Asteroids.length > 1 then none else some (vaporized, field)
  | fuel + 1, field, vaporized =>
    if field.Asteroids.length > 1 then
      Vaporize.loop c fuel (Vaporize.pass field c).2 (vaporized ++ (Vaporize.pass field c).1)
    else some (vaporized, field)

/-- The function `Vaporize(field, c)`: the returned slice and the field as the call
leaves it. -/
def Vaporize (fuel : Nat) (field : Field) (c : Point) : Option (List Point × Field) :=
  Vaporize.loop c fuel field []

/-! ### Parsing -/

/-- The byte `'.'`. -/
def objectSpace : Nat := 46

/-- The byte `'#'`. -/
def objectAsteroid : Nat := 35

/-- The local variables of `ParseAsteroids`: the cursor `p`, `maxX`, `maxY`, and the keys
of `f.Asteroids`. -/
structure ParseState where
  p : Point
  maxX : Int
  maxY : Int
  asteroids : List Point
deriving DecidableEq, Repr

/-- The assignment `f.Asteroids[p] = obj`: a key already present stays where it is. -/
def insertKey (asteroids : List Point) (p : Point) : List Point :=
  if p ∈ asteroids then asteroids else asteroids ++ [p]

/-- The body of the scanning loop of `ParseAsteroids` for one byte `obj`. -/
def ParseAsteroids.step (s : ParseState) (obj : Nat) : ParseState :=
  if obj = 10 then { s with p := ⟨0, s.p.Y + 1⟩ }
  else if obj = objectSpace then { s with p := ⟨s.p.X + 1, s.p.Y⟩ }
  else if obj = objectAsteroid then
    { p := ⟨s.p.X + 1, s.p.Y⟩
      maxX := if s.p.X > s.maxX then s.p.X else s.maxX
      maxY := if s.p.Y > s.maxY then s.p.Y else s.maxY
      asteroids := insertKey s.asteroids s.p }
  else s

/-- The function `ParseAsteroids(r)` on a reader that delivers the bytes `input` without
error. -/
def ParseAsteroids (input : List Nat) : Field :=
  let s := input.foldl ParseAsteroids.step ⟨⟨0, 0⟩, 0, 0, []⟩
  { Width := s.maxX + 1, Height := s.maxY + 1, Asteroids := s.asteroids }

/-- The bytes of an ASCII text. -/
def asciiBytes (text : String) : List Nat := text.toList.map Char.toNat

/-! ### Predicates used in the statements -/

/-- The square of the distance from `p1` to `p2`, in exact arithmetic. -/
def lineDistanceSq (p1 p2 : Point) : Int :=
  ((p2.X - p1.X) * (p2.X - p1.X)) + ((p2.Y - p1.Y) * (p2.Y - p1.Y))

/-- The formula of `crossproduct` in exact arithmetic. -/
def crossExact (p1 p2 p3 : Point) : Int :=
  ((p3.Y - p1.Y) * (p2.X - p1.X)) - ((p3.X - p1.X) * (p2.Y - p1.Y))

/-- The formula of `dotproduct` in exact arithmetic. -/
def dotExact (p1 p2 p3 : Point) : Int :=
  ((p3.X - p1.X) * (p2.X - p1.X)) + ((p3.Y - p1.Y) * (p2.Y - p1.Y))

/-- The spec's occluder: `p3` lies strictly inside the segment from `p1` to `p2`. -/
def liesStrictlyInside (p1 p2 p3 : Point) : Prop :=
  (p2.X - p1.X) * (p3.Y - p1.Y) - (p2.Y - p1.Y) * (p3.X - p1.X) = 0 ∧
  0 < (p2.X - p1.X) * (p3.X - p1.X) + (p2.Y - p1.Y) * (p3.Y - p1.Y) ∧
  (p2.X - p1.X) * (p3.X - p1.X) + (p2.Y - p1.Y) * (p3.Y - p1.Y) <
    (p2.X - p1.X) * (p2.X - p1.X) + (p2.Y - p1.Y) * (p2.Y - p1.Y)

instance (p1 p2 p3 : Point) : Decidable (liesStrictlyInside p1 p2 p3) := by
  unfold liesStrictlyInside; infer_instance

/-- The condition under which the loop body of `IsVisible` returns `false` at `p3`. -/
def occludes (p1 p2 p3 : Point) : Prop :=
  p3 ≠ p1 ∧ p3 ≠ p2 ∧ crossproduct p2 p3 p1 = 0 ∧
    ¬ (dotproduct p2 p3 p1 ≥ 0 ∧
      toF64 (dotproduct p2 p3 p1) * 2 ^ 104 ≤
        ((roundSig (lineDistance p2 p3 * lineDistance p2 p3) : Nat) : Int)) ∧
    lineDistance p1 p3 < lineDistance p1 p2

/-- The coordinates of `p` lie between `-2^20` and `2^20`. -/
def inBox (p : Point) : Prop :=
  -1048576 ≤ p.X ∧ p.X ≤ 1048576 ∧ -1048576 ≤ p.Y ∧ p.Y ≤ 1048576

instance (p : Point) : Decidable (inBox p) := by
  unfold inBox; infer_instance

/-- The spec's `Angle` of the direction from the origin `c` to `p`: `0` straight up
(negative Y), growing clockwise through right (positive X), down (positive Y) and left
(negative X), in `[0, 2π)`.  It is the angle from the upward axis to the direction
`(up, right) = (c.Y - p.Y, p.X - c.X)`, turned towards the right. -/
noncomputable def clockwiseAngle (c p : Point) : ℝ :=
  let a := atan2 ((p.X - c.X : Int) : ℝ) ((c.Y - p.Y : Int) : ℝ)
  if a < 0 then a + 2 * Real.pi else a

/-- The points `p` and `q` lie on one ray from `c`: their offsets from `c` have zero
cross product and positive dot product (so neither is `c`). -/
def sameRay (c p q : Point) : Prop :=
  (p.X - c.X) * (q.Y - c.Y) - (p.Y - c.Y) * (q.X - c.X) = 0 ∧
    0 < (p.X - c.X) * (q.X - c.X) + (p.Y - c.Y) * (q.Y - c.Y)

instance (c p q : Point) : Decidable (sameRay c p q) := by
  unfold sameRay; infer_instance

/-- The points `a`, `b`, `d` lie on one line. -/
def collinear (a b d : Point) : Prop :=
  (b.X - a.X) * (d.Y - a.Y) - (b.Y - a.Y) * (d.X - a.X) = 0

instance (a b d : Point) : Decidable (collinear a b d) := by
  unfold collinear; infer_instance

/-! ### Fields used as examples -/

/-- The worked example of the puzzle: the grid `.#..#`, `.....`, `#####`, `....#`,
`...##`, its asteroids in row-major order. -/
def exampleField : Field :=
  { Width := 5, Height := 5,
    Asteroids := [⟨1, 0⟩, ⟨4, 0⟩, ⟨0, 2⟩, ⟨1, 2⟩, ⟨2, 2⟩, ⟨3, 2⟩, ⟨4, 2⟩, ⟨4, 3⟩, ⟨3, 4⟩,
      ⟨4, 4⟩] }

/-- Two asteroids in a row: the grid `.##`. -/
def rowField : Field := { Width := 3, Height := 1, Asteroids := [⟨1, 0⟩, ⟨2, 0⟩] }

/-- A single asteroid away from the corner: the grid `..`, `.#`. -/
def loneField : Field := { Width := 2, Height := 2, Asteroids := [⟨1, 1⟩] }

/-- Three asteroids that are not on one line: the grid `##`, `#.`. -/
def triangleField : Field :=
  { Width := 2, Height := 2, Asteroids := [⟨0, 0⟩, ⟨1, 0⟩, ⟨0, 1⟩] }

/-- A station at `(1, 1)` with its four neighbours: the grid `.#.`, `###`, `.#.`. -/
def plusField : Field :=
  { Width := 3, Height := 3, Asteroids := [⟨1, 0⟩, ⟨0, 1⟩, ⟨1, 1⟩, ⟨2, 1⟩, ⟨1, 2⟩] }

/-- Three asteroids `(0, 0)`, `(2^33, 0)`, `(1, 2^31)` that are not on one line, far enough
apart for the cross product `2^64` to wrap to `0`. -/
def wideField : Field :=
  { Width := 8589934593, Height := 2147483649,
    Asteroids := [⟨0, 0⟩, ⟨8589934592, 0⟩, ⟨1, 2147483648⟩] }

/-- Two asteroids `(2^53, 0)`, `(2^53 + 1, 0)` in one row, so far from `(0, 0)` that
`float64` gives both the X coordinate `2^53`. -/
def farRowField : Field :=
  { Width := 9007199254740994, Height := 1,
    Asteroids := [⟨9007199254740992, 0⟩, ⟨9007199254740993, 0⟩] }

/-- The station `(0, 0)` with the two asteroids of `farRowField`. -/
def farSweepField : Field :=
  { Width := 9007199254740994, Height := 1,
    Asteroids := [⟨0, 0⟩, ⟨9007199254740992, 0⟩, ⟨9007199254740993, 0⟩] }

/-- The station `(0, 2^53)` with its four neighbours up, right, down, left. -/
def farPlusField : Field :=
  { Width := 2, Height := 9007199254740994,
    Asteroids := [⟨0, 9007199254740992⟩, ⟨0, 9007199254740991⟩, ⟨1, 9007199254740992⟩,
      ⟨0, 9007199254740993⟩, ⟨-1, 9007199254740992⟩] }

/-- The values taken by `next`, after sorting, in the successive iterations of the loop
of `Vaporize`: one list per pass. -/
def Vaporize.passes (c : Point) : Nat → Field → List (List Point)
  | 0, _ => []
  | fuel + 1, field =>
    if field.Asteroids.length > 1 then
      (Vaporize.pass field c).1 :: Vaporize.passes c fuel (Vaporize.pass field c).2
    else []

/-! ### The input text, as the spec describes it -/

/-- The number of newline bytes in `pre`: the row in which the next byte lies. -/
def newlinesIn (pre : List Nat) : Int := (pre.count 10 : Nat)

/-- The number of `'.'` and `'#'` bytes of `pre` after its last newline byte (or since
its start): the column in which the next byte lies. -/
def cellsSinceNewline (pre : List Nat) : Int :=
  (((pre.reverse.takeWhile fun b => decide (b ≠ 10)).countP
    fun b => decide (b = objectSpace ∨ b = objectAsteroid) : Nat) : Int)

/-- The rows of an input text: the runs of bytes between newline bytes. -/
def inputRows : List Nat → List (List Nat)
  | [] => [[]]
  | b :: rest =>
    if b = 10 then [] :: inputRows rest
    else
      match inputRows rest with
      | [] => [[b]]
      | r :: rs => (b :: r) :: rs

/-- The length of the longest row of an input text. -/
def longestRow (input : List Nat) : Nat := ((inputRows input).map List.length).foldr max 0

/-- The number of rows of an input text. -/
def rowCount (input : List Nat) : Nat := (inputRows input).length

set_option maxRecDepth 100000

/-! ## Machine arithmetic -/

theorem wrapInt_of_range (x : Int) (h1 : -9223372036854775808 ≤ x)
    (h2 : x < 9223372036854775808) : wrapInt x = x := by
  unfold wrapInt
  omega

theorem bitLen_go_zero (fuel : Nat) : bitLen.go fuel 0 = 0 := by
  cases fuel <;> simp [bitLen.go]

theorem bitLen_go_spec (fuel n : Nat) (h : n ≤ fuel) (hn : n ≠ 0) :
    2 ^ (bitLen.go fuel n - 1) ≤ n ∧ n < 2 ^ (bitLen.go fuel n) := by
  induction fuel generalizing n with
  | zero => omega
  | succ f ih =>
    rw [bitLen.go, if_neg hn]
    by_cases h2 : n / 2 = 0
    · rw [h2, bitLen_go_zero]
      have : n = 1 := by omega
      subst this
      simp
    · obtain ⟨a, b⟩ := ih (n / 2) (by omega) h2
      have hpos : 0 < bitLen.go f (n / 2) := by
        by_contra h0
        have : bitLen.go f (n / 2) = 0 := by omega
        rw [this] at b
        simp at b
        exact h2 b
      have e : bitLen.go f (n / 2) + 1 - 1 = (bitLen.go f (n / 2) - 1) + 1 := by omega
      rw [e, pow_succ, pow_succ]
      constructor <;> omega

/-- A number other than `0` has `bitLen n` binary digits. -/
theorem bitLen_spec (n : Nat) (hn : n ≠ 0) : 2 ^ (bitLen n - 1) ≤ n ∧ n < 2 ^ (bitLen n) :=
  bitLen_go_spec n n (le_refl _) hn

theorem bitLen_zero : bitLen 0 = 0 := rfl

theorem bitLen_le_of_lt (n k : Nat) (h : n < 2 ^ k) : bitLen n ≤ k := by
  by_cases hn : n = 0
  · rw [hn, bitLen_zero]
    exact Nat.zero_le _
  · by_contra hlt
    have h1 := (bitLen_spec n hn).1
    have h2 : 2 ^ k ≤ 2 ^ (bitLen n - 1) := Nat.pow_le_pow_right (by norm_num) (by omega)
    omega

theorem isqrt_go_spec (n k r : Nat) (h1 : r * r ≤ n) (h2 : n < (r + 2 ^ k) * (r + 2 ^ k)) :
    isqrt.go n k r * isqrt.go n k r ≤ n ∧
      n < (isqrt.go n k r + 1) * (isqrt.go n k r + 1) := by
  induction k generalizing r with
  | zero =>
    simp only [isqrt.go]
    simpa using ⟨h1, h2⟩
  | succ k ih =>
    rw [isqrt.go]
    split_ifs with h
    · apply ih _ h
      have : r + 2 ^ k + 2 ^ k = r + 2 ^ (k + 1) := by rw [pow_succ]; omega
      rw [this]
      exact h2
    · exact ih r h1 (not_le.mp h)

/-- The value `isqrt n` is the integer part of the square root of `n`. -/
theorem isqrt_spec (n : Nat) : isqrt n * isqrt n ≤ n ∧ n < (isqrt n + 1) * (isqrt n + 1) := by
  apply isqrt_go_spec
  · simp
  · rw [Nat.zero_add]
    by_cases hn : n = 0
    · rw [hn]
      simp
    · have h := (bitLen_spec n hn).2
      have h1 : 1 ≤ 2 ^ bitLen n := Nat.one_le_two_pow
      calc n < 2 ^ bitLen n := h
        _ = 2 ^ bitLen n * 1 := (Nat.mul_one _).symm
        _ ≤ 2 ^ bitLen n * 2 ^ bitLen n := Nat.mul_le_mul_left _ h1

theorem isqrt_eq_sqrt (n : Nat) : isqrt n = Nat.sqrt n := by
  obtain ⟨h1, h2⟩ := isqrt_spec n
  exact (Nat.eq_sqrt.mpr ⟨h1, h2⟩)

theorem roundSig_of_lt (n : Nat) (h : n < 2 ^ 53) : roundSig n = n := by
  have hb : bitLen n - 53 = 0 := by
    have := bitLen_le_of_lt n 53 h
    omega
  unfold roundSig
  simp [hb, Nat.mod_one]

/-- Rounding moves a number by at most half the weight of the last digit kept. -/
theorem roundSig_near (n e : Nat) (h : n < 2 ^ (53 + e)) :
    2 * roundSig n ≤ 2 * n + 2 ^ e ∧ 2 * n ≤ 2 * roundSig n + 2 ^ e := by
  have hb : bitLen n - 53 ≤ e := by
    have := bitLen_le_of_lt n (53 + e) h
    omega
  have hq : 2 ^ (bitLen n - 53) ≤ 2 ^ e := Nat.pow_le_pow_right (by norm_num) hb
  have hpos : 0 < 2 ^ (bitLen n - 53) := Nat.two_pow_pos _
  unfold roundSig
  simp only []
  generalize 2 ^ (bitLen n - 53) = q at hq hpos
  have hdiv : q * (n / q) + n % q = n := Nat.div_add_mod n q
  have hmod : n % q < q := Nat.mod_lt n hpos
  generalize n / q = k at hdiv
  generalize n % q = r at hdiv hmod
  have e1 : (k + 1) * q = q * k + q := by ring
  have e2 : k * q = q * k := by ring
  rw [e1, e2]
  generalize q * k = m at hdiv
  split_ifs <;> constructor <;> omega

theorem toF64_of_small (n : Int) (h1 : -9007199254740992 < n) (h2 : n < 9007199254740992) :
    toF64 n = n := by
  unfold toF64
  have h : n.natAbs < 2 ^ 53 := by omega
  rw [roundSig_of_lt _ h]
  split_ifs <;> omega

/-- For `s` below `2^50` the rounded square root, squared, is off `s` by less than a
half: in units of `2^-104`, by less than `2^103`. -/
theorem sqrtF64_near (s : Nat) (hs : s < 2 ^ 50) :
    sqrtF64 s * sqrtF64 s < s * 2 ^ 104 + 2 ^ 103 ∧
      s * 2 ^ 104 < sqrtF64 s * sqrtF64 s + 2 ^ 103 ∧ sqrtF64 s < 2 ^ 78 := by
  have hn : s * 2 ^ 104 < 2 ^ 154 := by omega
  obtain ⟨hr1, hr2⟩ := isqrt_spec (s * 2 ^ 104)
  have hr : isqrt (s * 2 ^ 104) < 2 ^ 77 := by
    by_contra hge
    have hge' : 2 ^ 77 ≤ isqrt (s * 2 ^ 104) := not_lt.mp hge
    have := Nat.mul_le_mul hge' hge'
    have e : (2 : Nat) ^ 77 * 2 ^ 77 = 2 ^ 154 := by norm_num
    omega
  have hb : bitLen (isqrt (s * 2 ^ 104)) - 53 ≤ 24 := by
    have := bitLen_le_of_lt _ 77 hr
    omega
  have hq : 2 ^ (bitLen (isqrt (s * 2 ^ 104)) - 53) ≤ 2 ^ 24 :=
    Nat.pow_le_pow_right (by norm_num) hb
  have hpos : 0 < 2 ^ (bitLen (isqrt (s * 2 ^ 104)) - 53) := Nat.two_pow_pos _
  unfold sqrtF64
  simp only []
  generalize 2 ^ (bitLen (isqrt (s * 2 ^ 104)) - 53) = q at hq hpos ⊢
  generalize isqrt (s * 2 ^ 104) = r at hr1 hr2 hr ⊢
  generalize s * 2 ^ 104 = n at hn hr1 hr2 ⊢
  have hdiv : q * (r / q) + r % q = r := Nat.div_add_mod r q
  have hmod : r % q < q := Nat.mod_lt r hpos
  generalize r / q = k at hdiv ⊢
  generalize r % q = t at hdiv hmod
  -- `d = k * q` is the candidate below the root, `d + q` the one above
  have hd : k * q ≤ r := by rw [← hdiv]; nlinarith
  have hd2 : r + 1 ≤ k * q + q := by rw [← hdiv]; nlinarith
  generalize hdd : k * q = d at hd hd2
  have e1 : (k + 1) * q = d + q := by rw [← hdd]; ring
  have e2 : (2 * k + 1) * q = 2 * d + q := by rw [← hdd]; ring
  rw [e1, e2]
  have h1 : d * d ≤ r * r := Nat.mul_le_mul hd hd
  have h2 : (r + 1) * (r + 1) ≤ (d + q) * (d + q) := Nat.mul_le_mul hd2 hd2
  have h3 : d * q ≤ 2 ^ 77 * 2 ^ 24 := Nat.mul_le_mul (by omega) hq
  have h4 : q * q ≤ 2 ^ 24 * 2 ^ 24 := Nat.mul_le_mul hq hq
  have e3 : (2 * d + q) * (2 * d + q) = 4 * (d * d) + 4 * (d * q) + q * q := by ring
  have e4 : (d + q) * (d + q) = d * d + 2 * (d * q) + q * q := by ring
  rw [e3]
  rw [e4] at h2
  have key : ∀ D, ((D = d ∧ 4 * n ≤ 4 * (d * d) + 4 * (d * q) + q * q) ∨
      (D = d + q ∧ 4 * (d * d) + 4 * (d * q) + q * q ≤ 4 * n)) →
      D * D < n + 2 ^ 103 ∧ n < D * D + 2 ^ 103 ∧ D < 2 ^ 78 := by
    rintro D (⟨rfl, h⟩ | ⟨rfl, h⟩)
    · generalize D * D = A at h1 h2 h ⊢
      generalize D * q = B at h2 h3 h
      generalize q * q = C at h2 h4 h
      generalize r * r = R at hr1 h1
      generalize (r + 1) * (r + 1) = R1 at hr2 h2
      refine ⟨?_, ?_, ?_⟩ <;> omega
    · rw [e4]
      generalize d * d = A at h1 h2 h ⊢
      generalize d * q = B at h2 h3 h ⊢
      generalize q * q = C at h2 h4 h ⊢
      generalize r * r = R at hr1 h1
      generalize (r + 1) * (r + 1) = R1 at hr2 h2
      refine ⟨?_, ?_, ?_⟩ <;> omega
  split_ifs with c1 c2 c3
  · exact key d (Or.inl ⟨rfl, le_of_lt c1⟩)
  · exact key d (Or.inl ⟨rfl, le_of_eq c2⟩)
  · exact key (d + q) (Or.inr ⟨rfl, le_of_eq c2.symm⟩)
  · exact key (d + q) (Or.inr ⟨rfl, by omega⟩)

/-- Below `2^50` the rounded square roots compare as the numbers under the root. -/
theorem sqrtF64_lt_iff (s t : Nat) (hs : s < 2 ^ 50) (ht : t < 2 ^ 50) :
    sqrtF64 s < sqrtF64 t ↔ s < t := by
  obtain ⟨a1, a2, -⟩ := sqrtF64_near s hs
  obtain ⟨b1, b2, -⟩ := sqrtF64_near t ht
  constructor
  · intro h
    by_contra hge
    have h2 := Nat.mul_self_lt_mul_self h
    rcases Nat.eq_or_lt_of_le (not_lt.mp hge) with heq | hlt
    · rw [heq] at h
      exact lt_irrefl _ h
    · omega
  · intro h
    apply Nat.mul_self_lt_mul_self_iff.mp
    omega

/-- Below `2^50`, an integer other than `s` compares with the rounded square of the
rounded root of `s` as it compares with `s`. -/
theorem le_sqrtF64_sq_iff (d : Int) (s : Nat) (hs : s < 2 ^ 50) (hne : d ≠ s) :
    d * 2 ^ 104 ≤ ((roundSig (sqrtF64 s * sqrtF64 s) : Nat) : Int) ↔ d ≤ s := by
  obtain ⟨a1, a2, a3⟩ := sqrtF64_near s hs
  have hlt : sqrtF64 s * sqrtF64 s < 2 ^ (53 + 103) := by
    have := Nat.mul_le_mul (le_of_lt a3) (le_of_lt a3)
    have e : (2 : Nat) ^ 78 * 2 ^ 78 = 2 ^ 156 := by norm_num
    have e2 : (2 : Nat) ^ (53 + 103) = 2 ^ 156 := by norm_num
    omega
  obtain ⟨b1, b2⟩ := roundSig_near _ 103 hlt
  generalize roundSig (sqrtF64 s * sqrtF64 s) = R at b1 b2
  generalize sqrtF64 s * sqrtF64 s = A at a1 a2 b1 b2
  constructor <;> intro h <;> omega

theorem mul_bound (u v : Int) (hu1 : -2097152 ≤ u) (hu2 : u ≤ 2097152)
    (hv1 : -2097152 ≤ v) (hv2 : v ≤ 2097152) :
    -4398046511104 ≤ u * v ∧ u * v ≤ 4398046511104 := by
  constructor
  · nlinarith [mul_nonneg (sub_nonneg.mpr hu2) (sub_nonneg.mpr hv1),
      mul_nonneg (sub_nonneg.mpr hu1) (sub_nonneg.mpr hv2)]
  · nlinarith [mul_nonneg (sub_nonneg.mpr hu2) (sub_nonneg.mpr hv2),
      mul_nonneg (sub_nonneg.mpr hu1) (sub_nonneg.mpr hv1)]

/-- In the box no operation of `crossproduct` wraps. -/
theorem crossproduct_of_inBox (p1 p2 p3 : Point) (h1 : inBox p1) (h2 : inBox p2)
    (h3 : inBox p3) : crossproduct p1 p2 p3 = crossExact p1 p2 p3 := by
  unfold inBox at h1 h2 h3
  have a := mul_bound (p3.Y - p1.Y) (p2.X - p1.X) (by omega) (by omega) (by omega) (by omega)
  have b := mul_bound (p3.X - p1.X) (p2.Y - p1.Y) (by omega) (by omega) (by omega) (by omega)
  unfold crossproduct crossExact subInt mulInt
  rw [wrapInt_of_range (p3.Y - p1.Y) (by omega) (by omega),
    wrapInt_of_range (p2.X - p1.X) (by omega) (by omega),
    wrapInt_of_range (p3.X - p1.X) (by omega) (by omega),
    wrapInt_of_range (p2.Y - p1.Y) (by omega) (by omega),
    wrapInt_of_range ((p3.Y - p1.Y) * (p2.X - p1.X)) (by omega) (by omega),
    wrapInt_of_range ((p3.X - p1.X) * (p2.Y - p1.Y)) (by omega) (by omega),
    wrapInt_of_range _ (by omega) (by omega)]

/-- In the box no operation of `dotproduct` wraps. -/
theorem dotproduct_of_inBox (p1 p2 p3 : Point) (h1 : inBox p1) (h2 : inBox p2)
    (h3 : inBox p3) : dotproduct p1 p2 p3 = dotExact p1 p2 p3 := by
  unfold inBox at h1 h2 h3
  have a := mul_bound (p3.X - p1.X) (p2.X - p1.X) (by omega) (by omega) (by omega) (by omega)
  have b := mul_bound (p3.Y - p1.Y) (p2.Y - p1.Y) (by omega) (by omega) (by omega) (by omega)
  unfold dotproduct dotExact subInt mulInt addInt
  rw [wrapInt_of_range (p3.X - p1.X) (by omega) (by omega),
    wrapInt_of_range (p2.X - p1.X) (by omega) (by omega),
    wrapInt_of_range (p3.Y - p1.Y) (by omega) (by omega),
    wrapInt_of_range (p2.Y - p1.Y) (by omega) (by omega),
    wrapInt_of_range ((p3.X - p1.X) * (p2.X - p1.X)) (by omega) (by omega),
    wrapInt_of_range ((p3.Y - p1.Y) * (p2.Y - p1.Y)) (by omega) (by omega),
    wrapInt_of_range _ (by omega) (by omega)]

theorem lineDistanceSq_nonneg (p1 p2 : Point) : 0 ≤ lineDistanceSq p1 p2 :=
  add_nonneg (mul_self_nonneg _) (mul_self_nonneg _)

theorem lineDistanceSq_bound (p1 p2 : Point) (h1 : inBox p1) (h2 : inBox p2) :
    lineDistanceSq p1 p2 ≤ 8796093022208 := by
  unfold inBox at h1 h2
  have a := mul_bound (p2.X - p1.X) (p2.X - p1.X) (by omega) (by omega) (by omega) (by omega)
  have b := mul_bound (p2.Y - p1.Y) (p2.Y - p1.Y) (by omega) (by omega) (by omega) (by omega)
  unfold lineDistanceSq
  omega

/-- In the box every `float64` operation of `lineDistance` before the square root is
exact: the distance is the rounded root of the exact squared distance. -/
theorem lineDistance_of_inBox (p1 p2 : Point) (h1 : inBox p1) (h2 : inBox p2) :
    lineDistance p1 p2 = sqrtF64 (lineDistanceSq p1 p2).toNat := by
  unfold inBox at h1 h2
  have a := mul_bound (p2.X - p1.X) (p2.X - p1.X) (by omega) (by omega) (by omega) (by omega)
  have b := mul_bound (p2.Y - p1.Y) (p2.Y - p1.Y) (by omega) (by omega) (by omega) (by omega)
  unfold lineDistance lineDistanceSq
  simp only []
  rw [toF64_of_small p1.X (by omega) (by omega), toF64_of_small p1.Y (by omega) (by omega),
    toF64_of_small p2.X (by omega) (by omega), toF64_of_small p2.Y (by omega) (by omega),
    toF64_of_small (p2.X - p1.X) (by omega) (by omega),
    toF64_of_small (p2.Y - p1.Y) (by omega) (by omega),
    toF64_of_small ((p2.X - p1.X) * (p2.X - p1.X)) (by omega) (by omega),
    toF64_of_small ((p2.Y - p1.Y) * (p2.Y - p1.Y)) (by omega) (by omega),
    toF64_of_small _ (by omega) (by omega)]

/-- In the box the comparison `d13 < d12` of two `float64` distances is the comparison of
the exact squared distances. -/
theorem lineDistance_lt_iff (p1 p2 p3 p4 : Point) (h1 : inBox p1) (h2 : inBox p2)
    (h3 : inBox p3) (h4 : inBox p4) :
    lineDistance p1 p2 < lineDistance p3 p4 ↔ lineDistanceSq p1 p2 < lineDistanceSq p3 p4 := by
  have a1 := lineDistanceSq_nonneg p1 p2
  have a2 := lineDistanceSq_bound p1 p2 h1 h2
  have b1 := lineDistanceSq_nonneg p3 p4
  have b2 := lineDistanceSq_bound p3 p4 h3 h4
  rw [lineDistance_of_inBox p1 p2 h1 h2, lineDistance_of_inBox p3 p4 h3 h4,
    sqrtF64_lt_iff _ _ (by omega) (by omega)]
  omega

theorem lineDistance_le_iff (p1 p2 p3 p4 : Point) (h1 : inBox p1) (h2 : inBox p2)
    (h3 : inBox p3) (h4 : inBox p4) :
    lineDistance p1 p2 ≤ lineDistance p3 p4 ↔ lineDistanceSq p1 p2 ≤ lineDistanceSq p3 p4 := by
  rw [← not_lt, ← not_lt, lineDistance_lt_iff p3 p4 p1 p2 h3 h4 h1 h2]

/-! ## Visibility -/

theorem scan_eq_true_iff (p1 p2 : Point) (ps : List Point) :
    IsVisible.scan p1 p2 ps = true ↔ ∀ p3 ∈ ps, ¬ occludes p1 p2 p3 := by
  induction ps with
  | nil => simp [IsVisible.scan]
  | cons p3 rest ih =>
    simp only [IsVisible.scan, List.mem_cons, forall_eq_or_imp]
    by_cases h1 : p3 = p1 ∨ p3 = p2
    · rw [if_pos h1, ih]
      have : ¬ occludes p1 p2 p3 := by
        rintro ⟨a, b, -⟩; rcases h1 with h | h
        · exact a h
        · exact b h
      simp [this]
    · rw [if_neg h1]
      by_cases h2 : crossproduct p2 p3 p1 ≠ 0
      · rw [if_pos h2, ih]
        have : ¬ occludes p1 p2 p3 := by
          rintro ⟨-, -, c, -⟩; exact h2 c
        simp [this]
      · rw [if_neg h2]
        by_cases h3 : dotproduct p2 p3 p1 ≥ 0 ∧
            toF64 (dotproduct p2 p3 p1) * 2 ^ 104 ≤
              ((roundSig (lineDistance p2 p3 * lineDistance p2 p3) : Nat) : Int)
        · rw [if_pos h3, ih]
          have : ¬ occludes p1 p2 p3 := by
            rintro ⟨-, -, -, d, -⟩; exact d h3
          simp [this]
        · rw [if_neg h3]
          by_cases h4 : lineDistance p1 p3 < lineDistance p1 p2
          · rw [if_pos h4]
            have : occludes p1 p2 p3 := by
              push_neg at h1 h2
              exact ⟨h1.1, h1.2, h2, h3, h4⟩
            simp [this]
          · rw [if_neg h4, ih]
            have : ¬ occludes p1 p2 p3 := by
              rintro ⟨-, -, -, -, e⟩; exact h4 e
            simp [this]

theorem between_arith (A B D : Int) (hA : 0 ≤ A) (hB : 0 ≤ B) (hD : D * D = A * B) :
    (¬ (0 ≤ A - D ∧ A - D ≤ A - 2 * D + B) ∧ B < A) ↔ (0 < D ∧ D < A) := by
  constructor
  · rintro ⟨h1, h2⟩
    have hApos : 0 < A := lt_of_le_of_lt hB h2
    by_cases h3 : D ≤ A
    · have h4 : B < D := by
        by_contra h5
        exact h1 ⟨by linarith, by linarith [not_lt.mp h5]⟩
      refine ⟨lt_of_le_of_lt hB h4, lt_of_le_of_ne h3 ?_⟩
      intro h6
      subst h6
      nlinarith [mul_pos hApos (sub_pos.mpr h2)]
    · exfalso
      have h4 : A < D := not_le.mp h3
      nlinarith [mul_pos hApos (sub_pos.mpr h2), mul_pos (sub_pos.mpr h4) hApos,
        mul_pos (sub_pos.mpr h4) (lt_trans hApos h4)]
  · rintro ⟨h1, h2⟩
    have hApos : 0 < A := lt_trans h1 h2
    have h3 : B < D := by
      by_contra h4
      have h5 : D ≤ B := not_lt.mp h4
      nlinarith [mul_pos h1 (sub_pos.mpr h2), mul_le_mul_of_nonneg_left h5 hA]
    exact ⟨fun h => by linarith [h.2], lt_trans h3 h2⟩

/-- In exact arithmetic the condition under which the loop body of `IsVisible` returns
`false` at `p3` says that `p3` lies strictly inside the segment from `p1` to `p2`. -/
theorem exact_occludes_iff (p1 p2 p3 : Point) :
    (p3 ≠ p1 ∧ p3 ≠ p2 ∧ crossExact p2 p3 p1 = 0 ∧
      ¬ (dotExact p2 p3 p1 ≥ 0 ∧ dotExact p2 p3 p1 ≤ lineDistanceSq p2 p3) ∧
      lineDistanceSq p1 p3 < lineDistanceSq p1 p2) ↔
      (p3 ≠ p1 ∧ p3 ≠ p2 ∧ liesStrictlyInside p1 p2 p3) := by
  obtain ⟨x1, y1⟩ := p1
  obtain ⟨x2, y2⟩ := p2
  obtain ⟨x3, y3⟩ := p3
  unfold liesStrictlyInside
  simp only [crossExact, dotExact, lineDistanceSq]
  have key := between_arith ((x2 - x1) * (x2 - x1) + (y2 - y1) * (y2 - y1))
    ((x3 - x1) * (x3 - x1) + (y3 - y1) * (y3 - y1))
    ((x2 - x1) * (x3 - x1) + (y2 - y1) * (y3 - y1))
    (by nlinarith [mul_self_nonneg (x2 - x1), mul_self_nonneg (y2 - y1)])
    (by nlinarith [mul_self_nonneg (x3 - x1), mul_self_nonneg (y3 - y1)])
  have e1 : (x1 - x2) * (x3 - x2) + (y1 - y2) * (y3 - y2) =
      ((x2 - x1) * (x2 - x1) + (y2 - y1) * (y2 - y1)) -
        ((x2 - x1) * (x3 - x1) + (y2 - y1) * (y3 - y1)) := by ring
  have e2 : (x3 - x2) * (x3 - x2) + (y3 - y2) * (y3 - y2) =
      ((x2 - x1) * (x2 - x1) + (y2 - y1) * (y2 - y1)) -
        2 * ((x2 - x1) * (x3 - x1) + (y2 - y1) * (y3 - y1)) +
        ((x3 - x1) * (x3 - x1) + (y3 - y1) * (y3 - y1)) := by ring
  have e3 : (y1 - y2) * (x3 - x2) - (x1 - x2) * (y3 - y2) =
      (x2 - x1) * (y3 - y1) - (y2 - y1) * (x3 - x1) := by ring
  rw [e1, e2, e3]
  have hD : (x2 - x1) * (y3 - y1) - (y2 - y1) * (x3 - x1) = 0 →
      ((x2 - x1) * (x3 - x1) + (y2 - y1) * (y3 - y1)) *
        ((x2 - x1) * (x3 - x1) + (y2 - y1) * (y3 - y1)) =
      ((x2 - x1) * (x2 - x1) + (y2 - y1) * (y2 - y1)) *
        ((x3 - x1) * (x3 - x1) + (y3 - y1) * (y3 - y1)) := by
    intro c
    linear_combination (-1) * ((x2 - x1) * (y3 - y1) - (y2 - y1) * (x3 - x1)) * c
  constructor
  · rintro ⟨a, b, c, d, e⟩
    exact ⟨a, b, c, (key (hD c)).mp ⟨d, e⟩⟩
  · rintro ⟨a, b, c, d⟩
    have := (key (hD c)).mpr d
    exact ⟨a, b, c, this.1, this.2⟩

/-- A point collinear with `p2` and `p3` whose dot product from `p2` equals the squared
distance from `p2` to `p3` is `p3`, unless `p3` is `p2`. -/
theorem dotExact_ne_lineDistanceSq (p1 p2 p3 : Point) (hc : crossExact p2 p3 p1 = 0)
    (h31 : p3 ≠ p1) (h32 : p3 ≠ p2) : dotExact p2 p3 p1 ≠ lineDistanceSq p2 p3 := by
  obtain ⟨x1, y1⟩ := p1
  obtain ⟨x2, y2⟩ := p2
  obtain ⟨x3, y3⟩ := p3
  simp only [crossExact, dotExact, lineDistanceSq] at hc ⊢
  intro hd
  have hz : ((x1 - x3) * (x1 - x3) + (y1 - y3) * (y1 - y3)) *
      ((x3 - x2) * (x3 - x2) + (y3 - y2) * (y3 - y2)) = 0 := by
    have hw : (x1 - x3) * (x3 - x2) + (y1 - y3) * (y3 - y2) = 0 := by linarith
    have hx : (y1 - y3) * (x3 - x2) - (x1 - x3) * (y3 - y2) = 0 := by linarith
    linear_combination ((x1 - x3) * (x3 - x2) + (y1 - y3) * (y3 - y2)) * hw +
      ((y1 - y3) * (x3 - x2) - (x1 - x3) * (y3 - y2)) * hx
  rcases mul_eq_zero.mp hz with h | h
  · apply h31
    have a : x1 - x3 = 0 := by
      nlinarith [mul_self_nonneg (x1 - x3), mul_self_nonneg (y1 - y3)]
    have b : y1 - y3 = 0 := by
      nlinarith [mul_self_nonneg (x1 - x3), mul_self_nonneg (y1 - y3)]
    simp only [Point.mk.injEq]
    constructor <;> omega
  · apply h32
    have a : x3 - x2 = 0 := by
      nlinarith [mul_self_nonneg (x3 - x2), mul_self_nonneg (y3 - y2)]
    have b : y3 - y2 = 0 := by
      nlinarith [mul_self_nonneg (x3 - x2), mul_self_nonneg (y3 - y2)]
    simp only [Point.mk.injEq]
    constructor <;> omega

/-- In the box the loop body of `IsVisible` returns `false` at `p3` exactly when `p3`
lies strictly inside the segment from `p1` to `p2`. -/
theorem occludes_iff (p1 p2 p3 : Point) (h1 : inBox p1) (h2 : inBox p2) (h3 : inBox p3) :
    occludes p1 p2 p3 ↔ (p3 ≠ p1 ∧ p3 ≠ p2 ∧ liesStrictlyInside p1 p2 p3) := by
  rw [← exact_occludes_iff]
  unfold occludes
  rw [crossproduct_of_inBox p2 p3 p1 h2 h3 h1, dotproduct_of_inBox p2 p3 p1 h2 h3 h1,
    lineDistance_lt_iff p1 p3 p1 p2 h1 h3 h1 h2, lineDistance_of_inBox p2 p3 h2 h3]
  have hs1 := lineDistanceSq_nonneg p2 p3
  have hs2 := lineDistanceSq_bound p2 p3 h2 h3
  have hd : -9007199254740992 < dotExact p2 p3 p1 ∧ dotExact p2 p3 p1 < 9007199254740992 := by
    unfold inBox at h1 h2 h3
    have a := mul_bound (p1.X - p2.X) (p3.X - p2.X) (by omega) (by omega) (by omega) (by omega)
    have b := mul_bound (p1.Y - p2.Y) (p3.Y - p2.Y) (by omega) (by omega) (by omega) (by omega)
    unfold dotExact
    constructor <;> omega
  rw [toF64_of_small _ hd.1 hd.2]
  constructor
  · rintro ⟨a, b, c, d, e⟩
    refine ⟨a, b, c, ?_, e⟩
    rintro ⟨d1, d2⟩
    apply d
    refine ⟨d1, (le_sqrtF64_sq_iff _ _ (by omega) ?_).mpr (by omega)⟩
    rw [Int.toNat_of_nonneg hs1]
    exact dotExact_ne_lineDistanceSq p1 p2 p3 c a b
  · rintro ⟨a, b, c, d, e⟩
    refine ⟨a, b, c, ?_, e⟩
    rintro ⟨d1, d2⟩
    apply d
    refine ⟨d1, ?_⟩
    have := (le_sqrtF64_sq_iff _ _ (by omega) ?_).mp d2
    · omega
    · rw [Int.toNat_of_nonneg hs1]
      exact dotExact_ne_lineDistanceSq p1 p2 p3 c a b

/-- In the box `IsVisible` is true exactly when no asteroid other than `p1` and `p2` lies
strictly inside the segment from `p1` to `p2`. -/
theorem IsVisible_iff0 (field : Field) (p1 p2 : Point)
    (hf : ∀ p ∈ field.Asteroids, inBox p) (h1 : inBox p1) (h2 : inBox p2) :
    IsVisible field p1 p2 = true ↔
      ¬ ∃ p3 ∈ field.Asteroids, p3 ≠ p1 ∧ p3 ≠ p2 ∧ liesStrictlyInside p1 p2 p3 := by
  unfold IsVisible
  rw [scan_eq_true_iff]
  push_neg
  constructor
  · intro h p3 hp3 a b c
    exact h p3 hp3 ((occludes_iff p1 p2 p3 h1 h2 (hf p3 hp3)).mpr ⟨a, b, c⟩)
  · intro h p3 hp3 hc
    obtain ⟨a, b, c⟩ := (occludes_iff p1 p2 p3 h1 h2 (hf p3 hp3)).mp hc
    exact h p3 hp3 a b c

/-! ## The visible set -/

theorem VisibleAsteroids_scan_eq_filter (field : Field) (p1 : Point) (ps : List Point) :
    VisibleAsteroids.scan field p1 ps =
      ps.filter (fun p2 => decide (p2 ≠ p1) && IsVisible field p1 p2) := by
  induction ps with
  | nil => rfl
  | cons p2 rest ih =>
    by_cases h1 : p2 = p1
    · simp [VisibleAsteroids.scan, h1, ih]
    · by_cases h2 : IsVisible field p1 p2 = true
      · simp [VisibleAsteroids.scan, h1, h2, ih]
      · simp [VisibleAsteroids.scan, h1, h2, ih]

theorem VisibleAsteroids_eq_filter (field : Field) (p1 : Point) :
    VisibleAsteroids field p1 =
      field.Asteroids.filter (fun p2 => decide (p2 ≠ p1) && IsVisible field p1 p2) :=
  VisibleAsteroids_scan_eq_filter field p1 field.Asteroids

theorem mem_VisibleAsteroids (field : Field) (p1 p2 : Point) :
    p2 ∈ VisibleAsteroids field p1 ↔
      p2 ∈ field.Asteroids ∧ p2 ≠ p1 ∧ IsVisible field p1 p2 = true := by
  simp [VisibleAsteroids_eq_filter]

theorem VisibleAsteroids_nodup (field : Field) (p1 : Point) (h : field.Asteroids.Nodup) :
    (VisibleAsteroids field p1).Nodup := by
  rw [VisibleAsteroids_eq_filter]
  exact h.filter _

/-- Among the asteroids other than `c`, one whose `lineDistance` from `c` is minimal is
visible: the loop returns `false` only at a `p3` with `d13 < d12`. -/
theorem IsVisible_of_nearest (field : Field) (c a : Point)
    (hmin : ∀ b ∈ field.Asteroids, b ≠ c → lineDistance c a ≤ lineDistance c b) :
    IsVisible field c a = true := by
  unfold IsVisible
  rw [scan_eq_true_iff]
  intro p3 hp3 hocc
  have := hmin p3 hp3 hocc.1
  have h5 := hocc.2.2.2.2
  omega

theorem exists_nearest (ps : List Point) (c a : Point) (ha : a ∈ ps) (hac : a ≠ c) :
    ∃ m ∈ ps, m ≠ c ∧ ∀ b ∈ ps, b ≠ c → lineDistance c m ≤ lineDistance c b := by
  induction ps generalizing a with
  | nil => cases ha
  | cons q rest ih =>
    by_cases hr : ∃ a' ∈ rest, a' ≠ c
    · obtain ⟨a', ha', hac'⟩ := hr
      obtain ⟨m, hm, hmc, hmin⟩ := ih a' ha' hac'
      by_cases hq : q ≠ c ∧ lineDistance c q < lineDistance c m
      · refine ⟨q, List.mem_cons_self _ _, hq.1, ?_⟩
        intro b hb hbc
        rcases List.mem_cons.mp hb with rfl | hb
        · exact le_refl _
        · exact le_trans (le_of_lt hq.2) (hmin b hb hbc)
      · refine ⟨m, List.mem_cons_of_mem _ hm, hmc, ?_⟩
        intro b hb hbc
        rcases List.mem_cons.mp hb with rfl | hb
        · by_contra hlt
          exact hq ⟨hbc, not_le.mp hlt⟩
        · exact hmin b hb hbc
    · push_neg at hr
      rcases List.mem_cons.mp ha with rfl | ha'
      · refine ⟨a, List.mem_cons_self _ _, hac, ?_⟩
        intro b hb hbc
        rcases List.mem_cons.mp hb with rfl | hb
        · exact le_refl _
        · exact absurd (hr b hb) hbc
      · exact absurd (hr a ha') hac

/-- In the box, an asteroid at minimal distance from `c` among those other than `c` is
visible. -/
theorem IsVisible_of_nearestSq (field : Field) (c a : Point)
    (hf : ∀ p ∈ field.Asteroids, inBox p) (hc : inBox c) (ha : inBox a)
    (hmin : ∀ b ∈ field.Asteroids, b ≠ c → lineDistanceSq c a ≤ lineDistanceSq c b) :
    IsVisible field c a = true := by
  apply IsVisible_of_nearest
  intro b hb hbc
  exact (lineDistance_le_iff c a c b hc ha hc (hf b hb)).mpr (hmin b hb hbc)

/-- A field that holds an asteroid other than `c` shows at least one asteroid to `c`. -/
theorem VisibleAsteroids_ne_nil (field : Field) (c a : Point) (ha : a ∈ field.Asteroids)
    (hac : a ≠ c) : VisibleAsteroids field c ≠ [] := by
  obtain ⟨m, hm, hmc, hmin⟩ := exists_nearest field.Asteroids c a ha hac
  have : m ∈ VisibleAsteroids field c :=
    (mem_VisibleAsteroids field c m).mpr ⟨hm, hmc, IsVisible_of_nearest field c m hmin⟩
  exact List.ne_nil_of_mem this

theorem exists_ne_of_nodup (ps : List Point) (c : Point) (h : ps.Nodup) (hlen : 1 < ps.length) :
    ∃ a ∈ ps, a ≠ c := by
  match ps, h, hlen with
  | a :: b :: rest, h, _ =>
    by_cases hac : a = c
    · refine ⟨b, by simp, ?_⟩
      intro hbc
      have : a ≠ b := by
        intro hab
        simp [hab] at h
      exact this (hac.trans hbc.symm)
    · exact ⟨a, by simp, hac⟩

/-! ## Sorting and deleting -/

theorem sortAngle_insert_perm (c x : Point) (l : List Point) :
    (sortAngle.insert c x l).Perm (x :: l) := by
  induction l with
  | nil => exact List.Perm.refl _
  | cons y ys ih =>
    unfold sortAngle.insert
    split
    · exact ((List.Perm.cons y ih).trans (List.Perm.swap x y ys))
    · exact List.Perm.refl _

theorem sortAngle_perm (l : List Point) (c : Point) : (sortAngle l c).Perm l := by
  induction l with
  | nil => exact List.Perm.refl _
  | cons x xs ih =>
    show (sortAngle.insert c x (sortAngle xs c)).Perm (x :: xs)
    exact (sortAngle_insert_perm c x _).trans (List.Perm.cons x ih)

theorem mem_sortAngle (l : List Point) (c p : Point) : p ∈ sortAngle l c ↔ p ∈ l :=
  (sortAngle_perm l c).mem_iff

theorem foldl_deleteKey (next l : List Point) :
    next.foldl deleteKey l = l.filter (fun q => decide (q ∉ next)) := by
  induction next generalizing l with
  | nil => simp
  | cons p ps ih =>
    rw [List.foldl_cons, ih, deleteKey, List.filter_filter]
    congr 1
    funext q
    simp only [List.mem_cons, not_or, Bool.decide_and, Bool.and_comm]

/-! ## One pass of the sweep -/

theorem pass_fst (field : Field) (c : Point) :
    (Vaporize.pass field c).1 = sortAngle (VisibleAsteroids field c) c := rfl

theorem pass_snd_Asteroids (field : Field) (c : Point) :
    (Vaporize.pass field c).2.Asteroids =
      field.Asteroids.filter (fun q => decide (q ∉ (Vaporize.pass field c).1)) := by
  show (sortAngle (VisibleAsteroids field c) c).foldl deleteKey field.Asteroids = _
  rw [foldl_deleteKey]
  rfl

theorem pass_snd_Width (field : Field) (c : Point) :
    (Vaporize.pass field c).2.Width = field.Width := rfl

theorem pass_snd_Height (field : Field) (c : Point) :
    (Vaporize.pass field c).2.Height = field.Height := rfl

theorem mem_pass_fst (field : Field) (c p : Point) :
    p ∈ (Vaporize.pass field c).1 ↔
      p ∈ field.Asteroids ∧ p ≠ c ∧ IsVisible field c p = true := by
  rw [pass_fst, mem_sortAngle, mem_VisibleAsteroids]

/-- The asteroids removed by a pass together with those it leaves are the asteroids it
started from. -/
theorem pass_perm (field : Field) (c : Point) :
    ((Vaporize.pass field c).1 ++ (Vaporize.pass field c).2.Asteroids).Perm field.Asteroids := by
  have h1 : (Vaporize.pass field c).1.Perm
      (field.Asteroids.filter (fun p2 => decide (p2 ≠ c) && IsVisible field c p2)) := by
    rw [pass_fst, ← VisibleAsteroids_eq_filter]
    exact sortAngle_perm _ c
  have h2 : (Vaporize.pass field c).2.Asteroids =
      field.Asteroids.filter (fun p2 => !(decide (p2 ≠ c) && IsVisible field c p2)) := by
    rw [pass_snd_Asteroids]
    apply List.filter_congr
    intro p hp
    have := mem_pass_fst field c p
    by_cases hv : p ≠ c ∧ IsVisible field c p = true
    · have hm : p ∈ (Vaporize.pass field c).1 := this.mpr ⟨hp, hv⟩
      simp [hm, hv.1, hv.2]
    · have hm : p ∉ (Vaporize.pass field c).1 := fun hm => hv (this.mp hm).2
      simp only [hm, not_false_eq_true, decide_True, ne_eq, decide_not, Bool.not_eq_true',
        Bool.true_eq, Bool.not_eq_eq_eq_not, Bool.not_true, Bool.and_eq_false_imp,
        Bool.not_eq_true', decide_eq_false_iff_not, not_not]
      intro hpc
      by_contra hvis
      exact hv ⟨hpc, by simpa using hvis⟩
  rw [h2]
  exact (List.Perm.append_right _ h1).trans (List.filter_append_perm _ _)

theorem pass_nodup (field : Field) (c : Point) (h : field.Asteroids.Nodup) :
    (Vaporize.pass field c).2.Asteroids.Nodup := by
  rw [pass_snd_Asteroids]
  exact h.filter _

/-- A pass that starts with more than one asteroid removes at least one. -/
theorem pass_length_lt (field : Field) (c : Point) (h : field.Asteroids.Nodup)
    (hlen : 1 < field.Asteroids.length) :
    (Vaporize.pass field c).2.Asteroids.length < field.Asteroids.length := by
  obtain ⟨a, ha, hac⟩ := exists_ne_of_nodup field.Asteroids c h hlen
  have hne : (Vaporize.pass field c).1 ≠ [] := by
    intro h0
    have := VisibleAsteroids_ne_nil field c a ha hac
    apply this
    have hp := sortAngle_perm (VisibleAsteroids field c) c
    rw [← pass_fst, h0] at hp
    exact List.Perm.nil_eq hp |>.symm
  have hl := (pass_perm field c).length_eq
  rw [List.length_append] at hl
  have : 0 < (Vaporize.pass field c).1.length := List.length_pos.mpr hne
  omega

/-! ## The loop of `Vaporize` -/

theorem loop_stop (c : Point) (fuel : Nat) (field : Field) (vaporized : List Point)
    (h : field.Asteroids.length ≤ 1) :
    Vaporize.loop c fuel field vaporized = some (vaporized, field) := by
  have h' : ¬ field.Asteroids.length > 1 := by omega
  cases fuel <;> simp [Vaporize.loop, h']

theorem loop_step (c : Point) (fuel : Nat) (field : Field) (vaporized : List Point)
    (h : 1 < field.Asteroids.length) :
    Vaporize.loop c (fuel + 1) field vaporized =
      Vaporize.loop c fuel (Vaporize.pass field c).2 (vaporized ++ (Vaporize.pass field c).1) := by
  simp [Vaporize.loop, h]

/-- More fuel does not change a result already reached. -/
theorem loop_fuel_succ (c : Point) (fuel : Nat) (field : Field) (vaporized : List Point)
    (r : List Point × Field) (h : Vaporize.loop c fuel field vaporized = some r) :
    Vaporize.loop c (fuel + 1) field vaporized = some r := by
  induction fuel generalizing field vaporized with
  | zero =>
    by_cases hlen : 1 < field.Asteroids.length
    · simp [Vaporize.loop, hlen] at h
    · rw [loop_stop c _ field vaporized (by omega)] at h ⊢
      exact h
  | succ n ih =>
    by_cases hlen : 1 < field.Asteroids.length
    · rw [loop_step c _ field vaporized hlen] at h ⊢
      exact ih _ _ h
    · rw [loop_stop c _ field vaporized (by omega)] at h ⊢
      exact h

theorem loop_fuel_mono (c : Point) (fuel fuel' : Nat) (field : Field) (vaporized : List Point)
    (r : List Point × Field) (hle : fuel ≤ fuel')
    (h : Vaporize.loop c fuel field vaporized = some r) :
    Vaporize.loop c fuel' field vaporized = some r := by
  induction hle with
  | refl => exact h
  | step _ ih => exact loop_fuel_succ c _ field vaporized r ih

/-- With as much fuel as there are asteroids the loop stops, and what it returns is the
slice it was given followed by a `tail` that is, with the asteroids left, a rearrangement
of the asteroids it started from. -/
theorem loop_spec (c : Point) (fuel : Nat) (field : Field) (vaporized : List Point)
    (hnd : field.Asteroids.Nodup) (hfuel : field.Asteroids.length ≤ fuel) :
    ∃ tail final, Vaporize.loop c fuel field vaporized = some (vaporized ++ tail, final) ∧
      final.Width = field.Width ∧ final.Height = field.Height ∧
      final.Asteroids.length ≤ 1 ∧ c ∉ tail ∧
      (tail ++ final.Asteroids).Perm field.Asteroids ∧
      final.Asteroids = field.Asteroids.filter (fun q => decide (q ∉ tail)) := by
  induction fuel generalizing field vaporized with
  | zero =>
    refine ⟨[], field, ?_, rfl, rfl, by omega, List.not_mem_nil _, List.Perm.refl _, ?_⟩
    · rw [loop_stop c _ field vaporized (by omega), List.append_nil]
    · simp
  | succ n ih =>
    by_cases hlen : 1 < field.Asteroids.length
    · have hlt := pass_length_lt field c hnd hlen
      obtain ⟨tail, final, h1, h2, h3, h4, h5, h6, h7⟩ :=
        ih (Vaporize.pass field c).2 (vaporized ++ (Vaporize.pass field c).1)
          (pass_nodup field c hnd) (by omega)
      refine ⟨(Vaporize.pass field c).1 ++ tail, final, ?_, ?_, ?_, h4, ?_, ?_, ?_⟩
      · rw [loop_step c _ field vaporized hlen, h1, List.append_assoc]
      · rw [h2, pass_snd_Width]
      · rw [h3, pass_snd_Height]
      · intro hc
        rcases List.mem_append.mp hc with hc | hc
        · exact ((mem_pass_fst field c c).mp hc).2.1 rfl
        · exact h5 hc
      · rw [List.append_assoc]
        exact (List.Perm.append_left _ h6).trans (pass_perm field c)
      · rw [h7, pass_snd_Asteroids, List.filter_filter]
        apply List.filter_congr
        intro q _
        simp only [List.mem_append, not_or, Bool.decide_and, Bool.and_comm]
    · refine ⟨[], field, ?_, rfl, rfl, by omega, List.not_mem_nil _, List.Perm.refl _, ?_⟩
      · rw [loop_stop c _ field vaporized (by omega), List.append_nil]
      · simp

/-- The result of `Vaporize` once the fuel covers the number of asteroids. -/
theorem Vaporize_spec (field : Field) (c : Point) (hnd : field.Asteroids.Nodup) :
    ∃ seq final, (∀ fuel, field.Asteroids.length ≤ fuel →
        Vaporize fuel field c = some (seq, final)) ∧
      final.Width = field.Width ∧ final.Height = field.Height ∧
      final.Asteroids.length ≤ 1 ∧ c ∉ seq ∧
      (seq ++ final.Asteroids).Perm field.Asteroids ∧
      final.Asteroids = field.Asteroids.filter (fun q => decide (q ∉ seq)) := by
  obtain ⟨tail, final, h1, h2, h3, h4, h5, h6, h7⟩ :=
    loop_spec c field.Asteroids.length field [] hnd (le_refl _)
  refine ⟨tail, final, ?_, h2, h3, h4, h5, h6, h7⟩
  intro fuel hfuel
  rw [List.nil_append] at h1
  exact loop_fuel_mono c _ fuel field [] _ hfuel h1

/-! ## Claims on `IsVisible` and `Vaporize` -/

theorem eq_singleton_of_mem (l : List Point) (c : Point) (hlen : l.length ≤ 1)
    (hc : c ∈ l) : l = [c] := by
  match l, hlen, hc with
  | [x], _, hx =>
    have : c = x := by simpa using hx
    rw [this]

/-- C1, as amended: for every field and every two points `p1` (origin) and `p2`
(target), distinct or not, such that the coordinates of `p1`, of `p2` and of every
asteroid of the field lie between `-2^20` and `2^20`, `IsVisible field p1 p2` is true if
and only if no asteroid `p3` of the field, different from `p1` and `p2`, lies strictly
inside the segment from `p1` to `p2`: there is no such `p3` with
`cross (p2 - p1) (p3 - p1) = 0` and `0 < (p2 - p1) . (p3 - p1) < |p2 - p1|^2`. -/
theorem C1_IsVisible_iff_no_asteroid_strictly_inside (field : Field) (p1 p2 : Point)
    (hf : ∀ p ∈ field.Asteroids, inBox p) (h1 : inBox p1) (h2 : inBox p2) :
    IsVisible field p1 p2 = true ↔
      ¬ ∃ p3 ∈ field.Asteroids, p3 ≠ p1 ∧ p3 ≠ p2 ∧
        ((p2.X - p1.X) * (p3.Y - p1.Y) - (p2.Y - p1.Y) * (p3.X - p1.X) = 0 ∧
         0 < (p2.X - p1.X) * (p3.X - p1.X) + (p2.Y - p1.Y) * (p3.Y - p1.Y) ∧
         (p2.X - p1.X) * (p3.X - p1.X) + (p2.Y - p1.Y) * (p3.Y - p1.Y) <
           (p2.X - p1.X) * (p2.X - p1.X) + (p2.Y - p1.Y) * (p2.Y - p1.Y)) :=
  IsVisible_iff0 field p1 p2 hf h1 h2

/-- C2: for a field with `N` asteroids (no key twice) and an origin `c` among them,
`Vaporize field c` returns, for every fuel of at least `N`, one and the same sequence,
of length `N - 1`, without duplicates, whose elements are exactly the asteroids of the
initial field other than `c`. -/
theorem C2_Vaporize_exhausts_all_but_origin (field : Field) (c : Point)
    (hnd : field.Asteroids.Nodup) (hc : c ∈ field.Asteroids) :
    ∃ seq final, (∀ fuel, field.Asteroids.length ≤ fuel →
        Vaporize fuel field c = some (seq, final)) ∧
      seq.length = field.Asteroids.length - 1 ∧ seq.Nodup ∧
      ∀ p, p ∈ seq ↔ (p ∈ field.Asteroids ∧ p ≠ c) := by
  obtain ⟨seq, final, h1, -, -, h4, h5, h6, h7⟩ := Vaporize_spec field c hnd
  have hcf : c ∈ final.Asteroids := by
    rw [h7]
    simp [hc, h5]
  have hfin : final.Asteroids = [c] := eq_singleton_of_mem _ c h4 hcf
  rw [hfin] at h6
  refine ⟨seq, final, h1, ?_, ?_, ?_⟩
  · have := h6.length_eq
    simp only [List.length_append, List.length_singleton] at this
    omega
  · have hn : (seq ++ [c]).Nodup := h6.nodup_iff.mpr hnd
    exact (List.nodup_append.mp hn).1
  · intro p
    constructor
    · intro hp
      refine ⟨h6.mem_iff.mp (List.mem_append_left _ hp), ?_⟩
      rintro rfl
      exact h5 hp
    · rintro ⟨hp, hpc⟩
      rcases List.mem_append.mp (h6.mem_iff.mpr hp) with h | h
      · exact h
      · exact absurd (List.mem_singleton.mp h) hpc

/-- C7: for every field (no key twice) and every origin `c`, asteroid of the field or
not, the loop of `Vaporize` stops: fuel equal to the number of asteroids is enough for a
result, more fuel gives the same one, and a pass that starts with more than one
asteroid leaves a field (again without a key twice) with strictly fewer asteroids. -/
theorem C7_Vaporize_terminates (field : Field) (c : Point) (hnd : field.Asteroids.Nodup) :
    (∃ r, ∀ fuel, field.Asteroids.length ≤ fuel → Vaporize fuel field c = some r) ∧
    (1 < field.Asteroids.length →
      (Vaporize.pass field c).2.Asteroids.Nodup ∧
      (Vaporize.pass field c).2.Asteroids.length < field.Asteroids.length) := by
  obtain ⟨seq, final, h1, -⟩ := Vaporize_spec field c hnd
  exact ⟨⟨(seq, final), h1⟩, fun hlen =>
    ⟨pass_nodup field c hnd, pass_length_lt field c hnd hlen⟩⟩

/-- C8, as amended: for every field (no key twice) and every origin `c`, `Vaporize`
returns with at most one asteroid left in the field; when `c` is an asteroid of the
field, what is left is exactly `c`. -/
theorem C8_Vaporize_leaves_at_most_one (field : Field) (c : Point)
    (hnd : field.Asteroids.Nodup) :
    ∃ seq final, (∀ fuel, field.Asteroids.length ≤ fuel →
        Vaporize fuel field c = some (seq, final)) ∧
      final.Asteroids.length ≤ 1 ∧
      (c ∈ field.Asteroids → final.Asteroids = [c]) := by
  obtain ⟨seq, final, h1, -, -, h4, h5, -, h7⟩ := Vaporize_spec field c hnd
  refine ⟨seq, final, h1, h4, ?_⟩
  intro hc
  have hcf : c ∈ final.Asteroids := by
    rw [h7]
    simp [hc, h5]
  exact eq_singleton_of_mem _ c h4 hcf

/-- C9: for every field (no key twice) and every origin `c`, the sequence returned by
`Vaporize` does not contain `c`, consists of asteroids of the field, and the field is
left with `Width` and `Height` unchanged and with the asteroids of the initial field
that are not in the returned sequence, in particular with `c` if `c` was one. -/
theorem C9_Vaporize_never_removes_origin (field : Field) (c : Point)
    (hnd : field.Asteroids.Nodup) :
    ∃ seq final, (∀ fuel, field.Asteroids.length ≤ fuel →
        Vaporize fuel field c = some (seq, final)) ∧
      c ∉ seq ∧ (∀ p ∈ seq, p ∈ field.Asteroids) ∧
      (c ∈ field.Asteroids → c ∈ final.Asteroids) ∧
      final.Asteroids = field.Asteroids.filter (fun q => decide (q ∉ seq)) ∧
      final.Width = field.Width ∧ final.Height = field.Height := by
  obtain ⟨seq, final, h1, h2, h3, -, h5, h6, h7⟩ := Vaporize_spec field c hnd
  refine ⟨seq, final, h1, h5, ?_, ?_, h7, h2, h3⟩
  · intro p hp
    exact h6.mem_iff.mp (List.mem_append_left _ hp)
  · intro hc
    rw [h7]
    simp [hc, h5]

/-- C10: if the field has no asteroid, or its only asteroid is `c`, then `Vaporize`
returns the empty sequence and leaves the field as it was, whatever the fuel. -/
theorem C10_Vaporize_degenerate (field : Field) (c : Point) (fuel : Nat)
    (h : field.Asteroids = [] ∨ field.Asteroids = [c]) :
    Vaporize fuel field c = some ([], field) := by
  apply loop_stop
  rcases h with h | h <;> simp [h]

/-! ## Station selection -/

/-- The loop of `FindMonitoringStation` keeps the larger of the count it was given and
the counts it meets, and the point it returns is the one that set that count. -/
theorem FindMonitoringStation_scan_spec (field : Field) (ps : List Point) (bp : Point)
    (bc : Nat) :
    bc ≤ (FindMonitoringStation.scan field ps (bp, bc)).2 ∧
    (∀ p ∈ ps, (VisibleAsteroids field p).length ≤
      (FindMonitoringStation.scan field ps (bp, bc)).2) ∧
    (FindMonitoringStation.scan field ps (bp, bc) = (bp, bc) ∨
      ∃ p ∈ ps, FindMonitoringStation.scan field ps (bp, bc) =
        (p, (VisibleAsteroids field p).length) ∧ bc < (VisibleAsteroids field p).length) := by
  induction ps generalizing bp bc with
  | nil => exact ⟨le_refl _, fun p hp => absurd hp (List.not_mem_nil p), Or.inl rfl⟩
  | cons q rest ih =>
    by_cases hq : (VisibleAsteroids field q).length > bc
    · have e : FindMonitoringStation.scan field (q :: rest) (bp, bc) =
          FindMonitoringStation.scan field rest (q, (VisibleAsteroids field q).length) := by
        simp [FindMonitoringStation.scan, hq]
      rw [e]
      obtain ⟨h1, h2, h3⟩ := ih q (VisibleAsteroids field q).length
      refine ⟨by omega, ?_, ?_⟩
      · intro p hp
        rcases List.mem_cons.mp hp with rfl | hp
        · exact h1
        · exact h2 p hp
      · rcases h3 with h3 | ⟨p, hp, h3, h4⟩
        · exact Or.inr ⟨q, List.mem_cons_self _ _, h3, hq⟩
        · exact Or.inr ⟨p, List.mem_cons_of_mem _ hp, h3, by omega⟩
    · have e : FindMonitoringStation.scan field (q :: rest) (bp, bc) =
          FindMonitoringStation.scan field rest (bp, bc) := by
        simp [FindMonitoringStation.scan, hq]
      rw [e]
      obtain ⟨h1, h2, h3⟩ := ih bp bc
      refine ⟨h1, ?_, ?_⟩
      · intro p hp
        rcases List.mem_cons.mp hp with rfl | hp
        · omega
        · exact h2 p hp
      · rcases h3 with h3 | ⟨p, hp, h3, h4⟩
        · exact Or.inl h3
        · exact Or.inr ⟨p, List.mem_cons_of_mem _ hp, h3, h4⟩

theorem foldr_max_le (l : List Nat) (m : Nat) (h : ∀ x ∈ l, x ≤ m) : l.foldr max 0 ≤ m := by
  induction l with
  | nil => exact Nat.zero_le _
  | cons x xs ih =>
    simp only [List.foldr_cons]
    exact max_le (h x (List.mem_cons_self _ _)) (ih fun y hy => h y (List.mem_cons_of_mem _ hy))

theorem le_foldr_max (l : List Nat) (x : Nat) (h : x ∈ l) : x ≤ l.foldr max 0 := by
  induction l with
  | nil => cases h
  | cons y ys ih =>
    simp only [List.foldr_cons]
    rcases List.mem_cons.mp h with rfl | h
    · exact le_max_left _ _
    · exact le_trans (ih h) (le_max_right _ _)

theorem FindMonitoringStation_count (field : Field) :
    (FindMonitoringStation field).2 =
      (field.Asteroids.map fun p => (VisibleAsteroids field p).length).foldr max 0 := by
  obtain ⟨-, h2, h3⟩ := FindMonitoringStation_scan_spec field field.Asteroids ⟨0, 0⟩ 0
  apply le_antisymm
  · rcases h3 with h3 | ⟨p, hp, h3, -⟩
    · unfold FindMonitoringStation
      rw [h3]
      exact Nat.zero_le _
    · unfold FindMonitoringStation
      rw [h3]
      exact le_foldr_max _ _ (List.mem_map.mpr ⟨p, hp, rfl⟩)
  · apply foldr_max_le
    intro x hx
    obtain ⟨p, hp, rfl⟩ := List.mem_map.mp hx
    exact h2 p hp

/-- With at least two asteroids in the field the point returned is an asteroid, and the
count returned is the number of asteroids it sees. -/
theorem FindMonitoringStation_mem (field : Field) (hnd : field.Asteroids.Nodup)
    (hlen : 1 < field.Asteroids.length) :
    (FindMonitoringStation field).1 ∈ field.Asteroids ∧
      (FindMonitoringStation field).2 =
        (VisibleAsteroids field (FindMonitoringStation field).1).length := by
  obtain ⟨-, h2, h3⟩ := FindMonitoringStation_scan_spec field field.Asteroids ⟨0, 0⟩ 0
  rcases h3 with h3 | ⟨p, hp, h3, -⟩
  · exfalso
    obtain ⟨a, ha, -⟩ := exists_ne_of_nodup field.Asteroids ⟨0, 0⟩ hnd hlen
    obtain ⟨b, hb, hba⟩ := exists_ne_of_nodup field.Asteroids a hnd hlen
    have hne := VisibleAsteroids_ne_nil field a b hb hba
    have hle := h2 a ha
    rw [h3] at hle
    have : 0 < (VisibleAsteroids field a).length := List.length_pos.mpr hne
    omega
  · unfold FindMonitoringStation
    rw [h3]
    exact ⟨hp, rfl⟩

/-- The point that sees strictly more than every other one, and sees something, is
returned whatever the enumeration. -/
theorem FindMonitoringStation_of_unique_max (field : Field) (p0 : Point)
    (hp0 : p0 ∈ field.Asteroids) (hpos : 0 < (VisibleAsteroids field p0).length)
    (hmax : ∀ p ∈ field.Asteroids, p ≠ p0 →
      (VisibleAsteroids field p).length < (VisibleAsteroids field p0).length) :
    FindMonitoringStation field = (p0, (VisibleAsteroids field p0).length) := by
  obtain ⟨-, h2, h3⟩ := FindMonitoringStation_scan_spec field field.Asteroids ⟨0, 0⟩ 0
  unfold FindMonitoringStation
  rcases h3 with h3 | ⟨p, hp, h3, -⟩
  · have := h2 p0 hp0
    rw [h3] at this
    simp only at this
    omega
  · have hle := h2 p0 hp0
    rw [h3] at hle ⊢
    simp only at hle
    by_cases hpp : p = p0
    · rw [hpp]
    · have := hmax p hp hpp
      omega

/-! ## Independence of the enumeration order -/

theorem IsVisible_perm (f g : Field) (h : f.Asteroids.Perm g.Asteroids) (p1 p2 : Point) :
    IsVisible f p1 p2 = IsVisible g p1 p2 := by
  unfold IsVisible
  rw [Bool.eq_iff_iff, scan_eq_true_iff, scan_eq_true_iff]
  constructor
  · intro hf p3 hp3
    exact hf p3 (h.mem_iff.mpr hp3)
  · intro hg p3 hp3
    exact hg p3 (h.mem_iff.mp hp3)

theorem VisibleAsteroids_perm (f g : Field) (h : f.Asteroids.Perm g.Asteroids) (p1 : Point) :
    (VisibleAsteroids f p1).Perm (VisibleAsteroids g p1) := by
  rw [VisibleAsteroids_eq_filter, VisibleAsteroids_eq_filter]
  have : (fun p2 => decide (p2 ≠ p1) && IsVisible f p1 p2) =
      (fun p2 => decide (p2 ≠ p1) && IsVisible g p1 p2) := by
    funext p2
    rw [IsVisible_perm f g h]
  rw [this]
  exact h.filter _

/-! ## Angles and directions -/

/-- In which half turn an angle of `[0, 2π)` lies can be read off the direction
`(u, w) = (r sin φ, r cos φ)`. -/
theorem half_of_polar (φ r : ℝ) (hr : 0 < r) (h0 : 0 ≤ φ) (h2 : φ < 2 * Real.pi) :
    φ < Real.pi ↔ (0 < r * Real.sin φ ∨ (r * Real.sin φ = 0 ∧ 0 < r * Real.cos φ)) := by
  have hpi := Real.pi_pos
  constructor
  · intro hlt
    rcases eq_or_lt_of_le h0 with h | h
    · right
      rw [← h]
      simp [hr]
    · left
      exact mul_pos hr (Real.sin_pos_of_pos_of_lt_pi h hlt)
  · intro h
    by_contra hge
    have hge' : Real.pi ≤ φ := not_lt.mp hge
    have hs : Real.sin φ ≤ 0 := by
      have := Real.sin_nonpos_of_nonnpos_of_neg_pi_le (x := φ - 2 * Real.pi) (by linarith)
        (by linarith)
      rwa [Real.sin_sub_two_pi] at this
    rcases h with h | ⟨h3, h4⟩
    · have := mul_nonpos_of_nonneg_of_nonpos hr.le hs
      linarith
    · have hs0 : Real.sin φ = 0 := by
        rcases mul_eq_zero.mp h3 with h | h
        · exact absurd h hr.ne'
        · exact h
      have hφ : φ = Real.pi := by
        rcases eq_or_lt_of_le hge' with h | h
        · exact h.symm
        · exfalso
          have := Real.sin_neg_of_neg_of_neg_pi_lt (x := φ - 2 * Real.pi) (by linarith)
            (by linarith)
          rw [Real.sin_sub_two_pi] at this
          linarith
      rw [hφ, Real.cos_pi] at h4
      linarith

/-- Two angles less than a half turn apart compare as the sign of the cross product of
their directions. -/
theorem lt_iff_cross_pos (φ1 φ2 r1 r2 : ℝ) (hr1 : 0 < r1) (hr2 : 0 < r2)
    (hd1 : -Real.pi < φ2 - φ1) (hd2 : φ2 - φ1 < Real.pi) :
    φ1 < φ2 ↔
      0 < (r2 * Real.sin φ2) * (r1 * Real.cos φ1) - (r2 * Real.cos φ2) * (r1 * Real.sin φ1) := by
  have e : (r2 * Real.sin φ2) * (r1 * Real.cos φ1) - (r2 * Real.cos φ2) * (r1 * Real.sin φ1) =
      (r1 * r2) * Real.sin (φ2 - φ1) := by
    rw [Real.sin_sub]
    ring
  rw [e]
  have hrr : 0 < r1 * r2 := mul_pos hr1 hr2
  constructor
  · intro h
    exact mul_pos hrr (Real.sin_pos_of_pos_of_lt_pi (by linarith) hd2)
  · intro h
    by_contra hge
    have hle : φ2 - φ1 ≤ 0 := by linarith [not_lt.mp hge]
    have := Real.sin_nonpos_of_nonnpos_of_neg_pi_le hle hd1.le
    have := mul_nonpos_of_nonneg_of_nonpos hrr.le this
    linarith

/-- The value of `getAngle p c`, a quarter turn added, is an angle of `[0, 2π)` whose
sine and cosine give the direction `angleDir p c` up to a positive factor. -/
theorem getAngle_polar (p c : Point) :
    ∃ r : ℝ, 0 < r ∧ 0 ≤ getAngle p c + Real.pi / 2 ∧ getAngle p c + Real.pi / 2 < 2 * Real.pi ∧
      (((angleDir p c).1 : Int) : ℝ) = r * Real.sin (getAngle p c + Real.pi / 2) ∧
      (((angleDir p c).2 : Int) : ℝ) = r * Real.cos (getAngle p c + Real.pi / 2) := by
  have hpi := Real.pi_pos
  set z : ℂ := ⟨((toF64 (subInt c.X p.X) : Int) : ℝ), ((toF64 (subInt c.Y p.Y) : Int) : ℝ)⟩
    with hz
  have hmem := Complex.arg_mem_Ioc z
  have hsin : Real.sin (getAngle p c + Real.pi / 2) = - Real.cos (Complex.arg z) := by
    unfold getAngle atan2
    simp only [← hz]
    split_ifs
    · have : 2 * Real.pi + (Complex.arg z - Real.pi / 2) - Real.pi / 2 + Real.pi / 2 =
          (Complex.arg z - Real.pi / 2) + 2 * Real.pi := by ring
      rw [this, Real.sin_add_two_pi, Real.sin_sub_pi_div_two]
    · have : Complex.arg z - Real.pi / 2 - Real.pi / 2 + Real.pi / 2 =
          Complex.arg z - Real.pi / 2 := by ring
      rw [this, Real.sin_sub_pi_div_two]
  have hcos : Real.cos (getAngle p c + Real.pi / 2) = Real.sin (Complex.arg z) := by
    unfold getAngle atan2
    simp only [← hz]
    split_ifs
    · have : 2 * Real.pi + (Complex.arg z - Real.pi / 2) - Real.pi / 2 + Real.pi / 2 =
          (Complex.arg z - Real.pi / 2) + 2 * Real.pi := by ring
      rw [this, Real.cos_add_two_pi, Real.cos_sub_pi_div_two]
    · have : Complex.arg z - Real.pi / 2 - Real.pi / 2 + Real.pi / 2 =
          Complex.arg z - Real.pi / 2 := by ring
      rw [this, Real.cos_sub_pi_div_two]
  have hrange : 0 ≤ getAngle p c + Real.pi / 2 ∧ getAngle p c + Real.pi / 2 < 2 * Real.pi := by
    unfold getAngle atan2
    simp only [← hz]
    obtain ⟨h1, h2⟩ := hmem
    split_ifs with h
    · constructor <;> linarith
    · constructor <;> linarith
  by_cases hpc : toF64 (subInt c.X p.X) = 0 ∧ toF64 (subInt c.Y p.Y) = 0
  · have hz0 : z = 0 := by
      rw [hz, hpc.1, hpc.2]
      simp
      rfl
    refine ⟨1, one_pos, hrange.1, hrange.2, ?_, ?_⟩
    · rw [hsin, hz0, Complex.arg_zero, Real.cos_zero]
      simp [angleDir, hpc]
    · rw [hcos, hz0, Complex.arg_zero, Real.sin_zero]
      simp [angleDir, hpc]
  · have hz0 : z ≠ 0 := by
      intro h0
      apply hpc
      have hre : z.re = 0 := by rw [h0]; rfl
      have him : z.im = 0 := by rw [h0]; rfl
      simp only [hz, Int.cast_eq_zero] at hre him
      exact ⟨hre, him⟩
    refine ⟨Complex.abs z, Complex.abs.pos hz0, hrange.1, hrange.2, ?_, ?_⟩
    · rw [hsin, mul_neg, Complex.abs_mul_cos_arg]
      simp [angleDir, hpc, hz]
    · rw [hcos, Complex.abs_mul_sin_arg]
      simp [angleDir, hpc, hz]

theorem angleHalf_le_one (p c : Point) : angleHalf p c = 0 ∨ angleHalf p c = 1 := by
  unfold angleHalf
  split_ifs
  · exact Or.inl rfl
  · exact Or.inr rfl

theorem angleHalf_eq_zero_iff (p c : Point) :
    angleHalf p c = 0 ↔ getAngle p c + Real.pi / 2 < Real.pi := by
  obtain ⟨r, hr, h0, h2, hu, hw⟩ := getAngle_polar p c
  rw [half_of_polar _ r hr h0 h2, ← hu, ← hw]
  unfold angleHalf
  simp only [Int.cast_pos, Int.cast_eq_zero]
  split_ifs with h
  · simp [h]
  · simp [h]

/-- The executable comparison of the sort decides the comparison of the real angles:
`angleLess c p1 p2` holds exactly when `getAngle(p2, c) > getAngle(p1, c)`. -/
theorem angleLess_iff (c p1 p2 : Point) :
    angleLess c p1 p2 = true ↔ getAngle p2 c > getAngle p1 c := by
  have hpi := Real.pi_pos
  obtain ⟨r1, hr1, h01, h21, hu1, hw1⟩ := getAngle_polar p1 c
  obtain ⟨r2, hr2, h02, h22, hu2, hw2⟩ := getAngle_polar p2 c
  have hz1 := angleHalf_eq_zero_iff p1 c
  have hz2 := angleHalf_eq_zero_iff p2 c
  have hcross : ∀ (_ : -Real.pi < (getAngle p2 c + Real.pi / 2) - (getAngle p1 c + Real.pi / 2))
      (_ : (getAngle p2 c + Real.pi / 2) - (getAngle p1 c + Real.pi / 2) < Real.pi),
      (0 < (angleDir p2 c).1 * (angleDir p1 c).2 - (angleDir p2 c).2 * (angleDir p1 c).1 ↔
        getAngle p1 c < getAngle p2 c) := by
    intro hd1 hd2
    have := lt_iff_cross_pos _ _ r1 r2 hr1 hr2 hd1 hd2
    rw [← hu1, ← hw1, ← hu2, ← hw2] at this
    rw [← Int.cast_lt (R := ℝ)]
    push_cast
    rw [← this]
    constructor <;> intro h <;> linarith
  unfold angleLess
  rw [decide_eq_true_iff, gt_iff_lt]
  rcases angleHalf_le_one p1 c with e1 | e1 <;> rcases angleHalf_le_one p2 c with e2 | e2
  · have a1 := hz1.mp e1
    have a2 := hz2.mp e2
    rw [e1, e2]
    simp only [lt_self_iff_false, true_and, false_or]
    exact hcross (by linarith) (by linarith)
  · have a1 := hz1.mp e1
    have a2 : ¬ getAngle p2 c + Real.pi / 2 < Real.pi := fun h => by
      have := hz2.mpr h
      omega
    rw [e1, e2]
    simp only [zero_lt_one, true_or, true_iff]
    linarith [not_lt.mp a2]
  · have a2 := hz2.mp e2
    have a1 : ¬ getAngle p1 c + Real.pi / 2 < Real.pi := fun h => by
      have := hz1.mpr h
      omega
    rw [e1, e2]
    simp only [Nat.lt_irrefl, Nat.not_lt_zero, one_ne_zero, false_and, or_self, false_iff,
      not_lt]
    linarith [not_lt.mp a1]
  · have a1 : ¬ getAngle p1 c + Real.pi / 2 < Real.pi := fun h => by
      have := hz1.mpr h
      omega
    have a2 : ¬ getAngle p2 c + Real.pi / 2 < Real.pi := fun h => by
      have := hz2.mpr h
      omega
    rw [e1, e2]
    simp only [lt_self_iff_false, true_and, false_or]
    exact hcross (by linarith [not_lt.mp a1]) (by linarith [not_lt.mp a2])

/-! ## Claims on `FindMonitoringStation`, and the sweep on concrete fields -/

/-- C2 at a concrete input: the worked example with the station `(3, 4)`. -/
theorem C2_Vaporize_exhausts_all_but_origin_witness :
    exampleField.Asteroids.Nodup ∧ (⟨3, 4⟩ : Point) ∈ exampleField.Asteroids ∧
    ∃ seq final, (∀ fuel, exampleField.Asteroids.length ≤ fuel →
        Vaporize fuel exampleField ⟨3, 4⟩ = some (seq, final)) ∧
      seq.length = exampleField.Asteroids.length - 1 ∧ seq.Nodup ∧
      ∀ p, p ∈ seq ↔ (p ∈ exampleField.Asteroids ∧ p ≠ ⟨3, 4⟩) :=
  ⟨by decide, by decide,
    C2_Vaporize_exhausts_all_but_origin exampleField ⟨3, 4⟩ (by decide) (by decide)⟩

/-- C4: the five-row grid `.#..#`, `.....`, `#####`, `....#`, `...##` (with or without a
final newline) parses to the ten asteroids of `exampleField`, and on every field whose
asteroids are those ten, in whatever order they are enumerated,
`FindMonitoringStation` returns the point `(3, 4)` with count `8`. -/
theorem C4_example_station :
    ParseAsteroids (asciiBytes ".#..#\n.....\n#####\n....#\n...##") = exampleField ∧
    ParseAsteroids (asciiBytes ".#..#\n.....\n#####\n....#\n...##\n") = exampleField ∧
    ∀ field : Field, field.Asteroids.Perm exampleField.Asteroids →
      FindMonitoringStation field = (⟨3, 4⟩, 8) := by
  refine ⟨by decide, by decide, ?_⟩
  intro field hperm
  have hcount : ∀ p, (VisibleAsteroids field p).length =
      (VisibleAsteroids exampleField p).length :=
    fun p => (VisibleAsteroids_perm field exampleField hperm p).length_eq
  have h8 : (VisibleAsteroids exampleField ⟨3, 4⟩).length = 8 := by decide
  have hothers : ∀ p ∈ exampleField.Asteroids, p ≠ ⟨3, 4⟩ →
      (VisibleAsteroids exampleField p).length < 8 := by decide
  have := FindMonitoringStation_of_unique_max field ⟨3, 4⟩
    (hperm.mem_iff.mpr (by decide)) (by rw [hcount, h8]; decide)
    (fun p hp hne => by
      rw [hcount, hcount, h8]
      exact hothers p (hperm.mem_iff.mp hp) hne)
  rw [this, hcount, h8]

/-- C5: for every field, the count returned by `FindMonitoringStation` is the maximum,
over the asteroids `p` of the field, of the number of asteroids other than `p` visible
from `p` (the length of `VisibleAsteroids field p`, which lists the asteroids `q ≠ p`
with `IsVisible field p q`): no asteroid of the field sees more, some asteroid of a
non-empty field sees exactly that many, and the count is `0` for the empty field. -/
theorem C5_FindMonitoringStation_count_is_max (field : Field) :
    (FindMonitoringStation field).2 =
      (field.Asteroids.map fun p => (VisibleAsteroids field p).length).foldr max 0 ∧
    (∀ p, VisibleAsteroids field p =
      field.Asteroids.filter fun q => decide (q ≠ p) && IsVisible field p q) ∧
    (∀ p ∈ field.Asteroids,
      (VisibleAsteroids field p).length ≤ (FindMonitoringStation field).2) ∧
    (field.Asteroids ≠ [] → ∃ p ∈ field.Asteroids,
      (VisibleAsteroids field p).length = (FindMonitoringStation field).2) ∧
    (field.Asteroids = [] → (FindMonitoringStation field).2 = 0) := by
  obtain ⟨-, h2, h3⟩ := FindMonitoringStation_scan_spec field field.Asteroids ⟨0, 0⟩ 0
  refine ⟨FindMonitoringStation_count field, VisibleAsteroids_eq_filter field, h2, ?_, ?_⟩
  · intro hne
    rcases h3 with h3 | ⟨p, hp, h3, -⟩
    · obtain ⟨a, ha⟩ := List.exists_mem_of_ne_nil _ hne
      refine ⟨a, ha, ?_⟩
      have := h2 a ha
      unfold FindMonitoringStation
      rw [h3] at this ⊢
      simp only at this ⊢
      omega
    · refine ⟨p, hp, ?_⟩
      unfold FindMonitoringStation
      rw [h3]
  · intro hnil
    unfold FindMonitoringStation
    rw [hnil]
    rfl

/-- C6 at the failing input: the grid `..`, `.#` parses to a field whose only asteroid
is `(1, 1)`; on it `FindMonitoringStation` returns the point `(0, 0)`, which is not an
asteroid of the field, with count `0`, while one asteroid is visible from `(0, 0)`. -/
theorem C6_lone_asteroid_returns_zero_point :
    ParseAsteroids (asciiBytes "..\n.#") = loneField ∧
    FindMonitoringStation loneField = (⟨0, 0⟩, 0) ∧
    (⟨0, 0⟩ : Point) ∉ loneField.Asteroids ∧
    (VisibleAsteroids loneField ⟨0, 0⟩).length = 1 := by
  decide

/-- C7 at a concrete input: the worked example with the station `(3, 4)`. -/
theorem C7_Vaporize_terminates_witness :
    exampleField.Asteroids.Nodup ∧
    (∃ r, ∀ fuel, exampleField.Asteroids.length ≤ fuel →
      Vaporize fuel exampleField ⟨3, 4⟩ = some r) ∧
    (1 < exampleField.Asteroids.length →
      (Vaporize.pass exampleField ⟨3, 4⟩).2.Asteroids.Nodup ∧
      (Vaporize.pass exampleField ⟨3, 4⟩).2.Asteroids.length <
        exampleField.Asteroids.length) :=
  ⟨by decide, C7_Vaporize_terminates exampleField ⟨3, 4⟩ (by decide)⟩

/-- C8 fails as stated: in the field of the grid `.##` swept from the origin `(0, 0)`,
which is not an asteroid, the first pass removes `(1, 0)`, the loop stops with one
asteroid left, and that asteroid is `(2, 0)`, not the origin. -/
theorem C8_counterexample :
    ParseAsteroids (asciiBytes ".##") = rowField ∧
    (∀ fuel, rowField.Asteroids.length ≤ fuel →
      Vaporize fuel rowField ⟨0, 0⟩ = some ([⟨1, 0⟩], { rowField with Asteroids := [⟨2, 0⟩] })) ∧
    ¬ (([⟨2, 0⟩] : List Point) = [] ∨ ([⟨2, 0⟩] : List Point) = [⟨0, 0⟩]) := by
  refine ⟨by decide, ?_, by decide⟩
  intro fuel hfuel
  exact loop_fuel_mono ⟨0, 0⟩ 2 fuel rowField [] _ hfuel (by decide)

/-- C8 as amended, at a concrete input: the worked example with the station `(3, 4)`. -/
theorem C8_Vaporize_leaves_at_most_one_witness :
    exampleField.Asteroids.Nodup ∧
    ∃ seq final, (∀ fuel, exampleField.Asteroids.length ≤ fuel →
        Vaporize fuel exampleField ⟨3, 4⟩ = some (seq, final)) ∧
      final.Asteroids.length ≤ 1 ∧
      ((⟨3, 4⟩ : Point) ∈ exampleField.Asteroids → final.Asteroids = [⟨3, 4⟩]) :=
  ⟨by decide, C8_Vaporize_leaves_at_most_one exampleField ⟨3, 4⟩ (by decide)⟩

/-- C9 at a concrete input: the worked example with the station `(3, 4)`. -/
theorem C9_Vaporize_never_removes_origin_witness :
    exampleField.Asteroids.Nodup ∧
    ∃ seq final, (∀ fuel, exampleField.Asteroids.length ≤ fuel →
        Vaporize fuel exampleField ⟨3, 4⟩ = some (seq, final)) ∧
      (⟨3, 4⟩ : Point) ∉ seq ∧ (∀ p ∈ seq, p ∈ exampleField.Asteroids) ∧
      ((⟨3, 4⟩ : Point) ∈ exampleField.Asteroids → (⟨3, 4⟩ : Point) ∈ final.Asteroids) ∧
      final.Asteroids = exampleField.Asteroids.filter (fun q => decide (q ∉ seq)) ∧
      final.Width = exampleField.Width ∧ final.Height = exampleField.Height :=
  ⟨by decide, C9_Vaporize_never_removes_origin exampleField ⟨3, 4⟩ (by decide)⟩

/-- C10 at a concrete input: the field whose only asteroid is the origin `(1, 1)`. -/
theorem C10_Vaporize_degenerate_witness :
    (loneField.Asteroids = [] ∨ loneField.Asteroids = [⟨1, 1⟩]) ∧
    Vaporize 0 loneField ⟨1, 1⟩ = some ([], loneField) :=
  ⟨Or.inr rfl, C10_Vaporize_degenerate loneField ⟨1, 1⟩ 0 (Or.inr rfl)⟩

/-- An angle of `[0, 2π)` is determined by the direction it gives. -/
theorem polar_angle_unique (φ1 φ2 r1 r2 : ℝ) (hr1 : 0 < r1) (hr2 : 0 < r2)
    (h01 : 0 ≤ φ1) (h21 : φ1 < 2 * Real.pi) (h02 : 0 ≤ φ2) (h22 : φ2 < 2 * Real.pi)
    (hs : r1 * Real.sin φ1 = r2 * Real.sin φ2) (hc : r1 * Real.cos φ1 = r2 * Real.cos φ2) :
    φ1 = φ2 := by
  have hpi := Real.pi_pos
  have hh1 := half_of_polar φ1 r1 hr1 h01 h21
  have hh2 := half_of_polar φ2 r2 hr2 h02 h22
  rw [hs, hc] at hh1
  have hsame : φ1 < Real.pi ↔ φ2 < Real.pi := hh1.trans hh2.symm
  have hd : -Real.pi < φ2 - φ1 ∧ φ2 - φ1 < Real.pi := by
    by_cases h : φ1 < Real.pi
    · have := hsame.mp h
      constructor <;> linarith
    · have h' : ¬ φ2 < Real.pi := fun h2 => h (hsame.mpr h2)
      constructor <;> linarith [not_lt.mp h, not_lt.mp h']
  have a := lt_iff_cross_pos φ1 φ2 r1 r2 hr1 hr2 hd.1 hd.2
  have b := lt_iff_cross_pos φ2 φ1 r2 r1 hr2 hr1 (by linarith [hd.2]) (by linarith [hd.1])
  rw [← hs, ← hc] at a
  rw [hs, hc] at b
  have na : ¬ φ1 < φ2 := fun h => by
    have := a.mp h
    linarith
  have nb : ¬ φ2 < φ1 := fun h => by
    have := b.mp h
    linarith
  linarith [not_lt.mp na, not_lt.mp nb]

/-- The spec's angle is an angle of `[0, 2π)` whose sine gives the offset to the right and
whose cosine gives the offset upwards, up to the distance. -/
theorem clockwiseAngle_polar (c p : Point) (hpc : p ≠ c) :
    ∃ r : ℝ, 0 < r ∧ 0 ≤ clockwiseAngle c p ∧ clockwiseAngle c p < 2 * Real.pi ∧
      ((p.X - c.X : Int) : ℝ) = r * Real.sin (clockwiseAngle c p) ∧
      ((c.Y - p.Y : Int) : ℝ) = r * Real.cos (clockwiseAngle c p) := by
  have hpi := Real.pi_pos
  set z : ℂ := ⟨((c.Y - p.Y : Int) : ℝ), ((p.X - c.X : Int) : ℝ)⟩ with hz
  obtain ⟨h1, h2⟩ := Complex.arg_mem_Ioc z
  have hz0 : z ≠ 0 := by
    intro h0
    apply hpc
    have hre : z.re = 0 := by rw [h0]; rfl
    have him : z.im = 0 := by rw [h0]; rfl
    simp only [hz, Int.cast_eq_zero] at hre him
    obtain ⟨px, py⟩ := p
    obtain ⟨cx, cy⟩ := c
    simp only [Point.mk.injEq]
    simp only at hre him
    constructor <;> omega
  have hsin : Real.sin (clockwiseAngle c p) = Real.sin (Complex.arg z) := by
    unfold clockwiseAngle atan2
    simp only [← hz]
    split_ifs
    · rw [Real.sin_add_two_pi]
    · rfl
  have hcos : Real.cos (clockwiseAngle c p) = Real.cos (Complex.arg z) := by
    unfold clockwiseAngle atan2
    simp only [← hz]
    split_ifs
    · rw [Real.cos_add_two_pi]
    · rfl
  have hrange : 0 ≤ clockwiseAngle c p ∧ clockwiseAngle c p < 2 * Real.pi := by
    unfold clockwiseAngle atan2
    simp only [← hz]
    split_ifs with h
    · constructor <;> linarith
    · constructor <;> linarith
  refine ⟨Complex.abs z, Complex.abs.pos hz0, hrange.1, hrange.2, ?_, ?_⟩
  · rw [hsin, Complex.abs_mul_sin_arg]
  · rw [hcos, Complex.abs_mul_cos_arg]

/-- In the box the two arguments handed to `math.Atan2` are the exact differences. -/
theorem angle_args_of_inBox (p c : Point) (hp : inBox p) (hc : inBox c) :
    toF64 (subInt c.X p.X) = c.X - p.X ∧ toF64 (subInt c.Y p.Y) = c.Y - p.Y := by
  unfold inBox at hp hc
  unfold subInt
  rw [wrapInt_of_range (c.X - p.X) (by omega) (by omega),
    wrapInt_of_range (c.Y - p.Y) (by omega) (by omega),
    toF64_of_small _ (by omega) (by omega), toF64_of_small _ (by omega) (by omega)]
  exact ⟨rfl, rfl⟩

/-- In the box the direction measured by `getAngle p c` is the offset of `p` from `c`. -/
theorem angleDir_of_inBox (p c : Point) (hp : inBox p) (hc : inBox c) (hpc : p ≠ c) :
    angleDir p c = (p.X - c.X, c.Y - p.Y) := by
  obtain ⟨e1, e2⟩ := angle_args_of_inBox p c hp hc
  unfold angleDir
  rw [e1, e2]
  have hne : ¬ (c.X - p.X = 0 ∧ c.Y - p.Y = 0) := by
    rintro ⟨a, b⟩
    apply hpc
    obtain ⟨px, py⟩ := p
    obtain ⟨cx, cy⟩ := c
    simp only [Point.mk.injEq]
    simp only at a b
    constructor <;> omega
  rw [if_neg hne]
  simp

/-- In the box, what `getAngle` computes is the spec's angle less a quarter turn. -/
theorem getAngle_eq_clockwiseAngle (p c : Point) (hp : inBox p) (hc : inBox c)
    (hpc : p ≠ c) : getAngle p c = clockwiseAngle c p - Real.pi / 2 := by
  obtain ⟨r1, hr1, h01, h21, hu1, hw1⟩ := getAngle_polar p c
  obtain ⟨r2, hr2, h02, h22, hu2, hw2⟩ := clockwiseAngle_polar c p hpc
  have e1 : (angleDir p c).1 = p.X - c.X := by rw [angleDir_of_inBox p c hp hc hpc]
  have e2 : (angleDir p c).2 = c.Y - p.Y := by rw [angleDir_of_inBox p c hp hc hpc]
  rw [e1] at hu1
  rw [e2] at hw1
  have := polar_angle_unique _ _ r1 r2 hr1 hr2 h01 h21 h02 h22 (hu1.symm.trans hu2)
    (hw1.symm.trans hw2)
  linarith

/-! ## The sorted pass -/

theorem sortAngle_insert_sorted (c x : Point) (l : List Point)
    (h : l.Pairwise fun p q => getAngle p c ≤ getAngle q c) :
    (sortAngle.insert c x l).Pairwise fun p q => getAngle p c ≤ getAngle q c := by
  induction l with
  | nil => exact List.pairwise_singleton _ _
  | cons y ys ih =>
    obtain ⟨hy, hys⟩ := List.pairwise_cons.mp h
    unfold sortAngle.insert
    split_ifs with hless
    · have hlt : getAngle y c < getAngle x c := (angleLess_iff c y x).mp hless
      refine List.pairwise_cons.mpr ⟨?_, ih hys⟩
      intro z hz
      rcases List.mem_cons.mp ((sortAngle_insert_perm c x ys).mem_iff.mp hz) with rfl | hz
      · exact hlt.le
      · exact hy z hz
    · have hle : getAngle x c ≤ getAngle y c := by
        by_contra hlt
        exact hless ((angleLess_iff c y x).mpr (not_le.mp hlt))
      refine List.pairwise_cons.mpr ⟨?_, h⟩
      intro z hz
      rcases List.mem_cons.mp hz with rfl | hz
      · exact hle
      · exact le_trans hle (hy z hz)

theorem sortAngle_sorted (l : List Point) (c : Point) :
    (sortAngle l c).Pairwise fun p q => getAngle p c ≤ getAngle q c := by
  induction l with
  | nil => exact List.Pairwise.nil
  | cons x xs ih => exact sortAngle_insert_sorted c x _ ih

/-- Two directions on the same half turn with zero cross product point the same way. -/
theorem same_ray_arith (u1 w1 u2 w2 : Int)
    (hhalf : (0 < u1 ∨ (u1 = 0 ∧ 0 < w1)) ↔ (0 < u2 ∨ (u2 = 0 ∧ 0 < w2)))
    (hne1 : u1 ≠ 0 ∨ w1 ≠ 0) (hne2 : u2 ≠ 0 ∨ w2 ≠ 0) (hcross : u2 * w1 - w2 * u1 = 0) :
    0 < u1 * u2 + w1 * w2 := by
  have hprod : (u1 * u2) * (w1 * w2) = (u2 * w1) * (u2 * w1) := by
    linear_combination (-(u2 * w1)) * hcross
  rcases lt_trichotomy u1 0 with h1 | h1 | h1
  · have hn : ¬ (0 < u2 ∨ (u2 = 0 ∧ 0 < w2)) := fun h => by
      rcases hhalf.mpr h with h | h <;> omega
    push_neg at hn
    rcases lt_or_eq_of_le hn.1 with h2 | h2
    · have hpos : 0 < u1 * u2 := mul_pos_of_neg_of_neg h1 h2
      have : 0 ≤ w1 * w2 := by
        by_contra hneg
        nlinarith [mul_self_nonneg (u2 * w1), mul_pos hpos (neg_pos.mpr (not_le.mp hneg))]
      linarith
    · exfalso
      have hw2 : w2 < 0 := by
        have := hn.2 h2
        rcases hne2 with h | h
        · exact absurd h2 h
        · omega
      rw [h2] at hcross
      nlinarith [mul_pos_of_neg_of_neg hw2 h1]
  · have hw1 : w1 ≠ 0 := by
      rcases hne1 with h | h
      · exact absurd h1 h
      · exact h
    have hu2 : u2 = 0 := by
      rw [h1] at hcross
      have : u2 * w1 = 0 := by linarith
      rcases mul_eq_zero.mp this with h | h
      · exact h
      · exact absurd h hw1
    have hw2 : w2 ≠ 0 := by
      rcases hne2 with h | h
      · exact absurd hu2 h
      · exact h
    rw [h1, hu2]
    simp only [h1, hu2, lt_self_iff_false, true_and, false_or] at hhalf
    rcases lt_or_gt_of_ne hw1 with a | a
    · have b : w2 < 0 := by
        rcases lt_or_gt_of_ne hw2 with b | b
        · exact b
        · have := hhalf.mpr b
          omega
      nlinarith [mul_pos_of_neg_of_neg a b]
    · have b : 0 < w2 := hhalf.mp a
      nlinarith [mul_pos a b]
  · have hp : 0 < u2 ∨ (u2 = 0 ∧ 0 < w2) := hhalf.mp (Or.inl h1)
    rcases hp with h2 | ⟨h2, hw2⟩
    · have hpos : 0 < u1 * u2 := mul_pos h1 h2
      have : 0 ≤ w1 * w2 := by
        by_contra hneg
        nlinarith [mul_self_nonneg (u2 * w1), mul_pos hpos (neg_pos.mpr (not_le.mp hneg))]
      linarith
    · exfalso
      rw [h2] at hcross
      nlinarith [mul_pos hw2 h1]

/-! ## Asteroids in one direction -/

/-- In the box, two points other than `c` with the same `getAngle` around `c` lie on one
ray from `c`: the cross product of their offsets is zero and the dot product is
positive. -/
theorem same_ray_of_getAngle_eq (c p q : Point) (hcb : inBox c) (hpb : inBox p)
    (hqb : inBox q) (hp : p ≠ c) (hq : q ≠ c) (h : getAngle p c = getAngle q c) :
    (p.X - c.X) * (q.Y - c.Y) - (p.Y - c.Y) * (q.X - c.X) = 0 ∧
      0 < (p.X - c.X) * (q.X - c.X) + (p.Y - c.Y) * (q.Y - c.Y) := by
  have n1 : ¬ angleLess c p q = true := fun hl => by
    have := (angleLess_iff c p q).mp hl
    linarith
  have n2 : ¬ angleLess c q p = true := fun hl => by
    have := (angleLess_iff c q p).mp hl
    linarith
  unfold angleLess at n1 n2
  rw [decide_eq_true_iff] at n1 n2
  push_neg at n1 n2
  have hhalf : angleHalf p c = angleHalf q c := by
    have := n1.1
    have := n2.1
    omega
  have c1 := n1.2 hhalf
  have c2 := n2.2 hhalf.symm
  have e1 : angleDir p c = (p.X - c.X, c.Y - p.Y) := angleDir_of_inBox p c hpb hcb hp
  have e2 : angleDir q c = (q.X - c.X, c.Y - q.Y) := angleDir_of_inBox q c hqb hcb hq
  rw [e1, e2] at c1 c2
  simp only at c1 c2
  have hcross : (q.X - c.X) * (c.Y - p.Y) - (c.Y - q.Y) * (p.X - c.X) = 0 := by linarith
  have hne : ∀ a : Point, a ≠ c → (a.X - c.X ≠ 0 ∨ c.Y - a.Y ≠ 0) := by
    intro a ha
    by_contra hcon
    push_neg at hcon
    apply ha
    obtain ⟨ax, ay⟩ := a
    obtain ⟨cx, cy⟩ := c
    simp only [Point.mk.injEq]
    simp only at hcon
    constructor <;> omega
  have hh : (0 < p.X - c.X ∨ (p.X - c.X = 0 ∧ 0 < c.Y - p.Y)) ↔
      (0 < q.X - c.X ∨ (q.X - c.X = 0 ∧ 0 < c.Y - q.Y)) := by
    unfold angleHalf at hhalf
    rw [e1, e2] at hhalf
    simp only at hhalf
    split_ifs at hhalf with a b b
    · exact ⟨fun _ => b, fun _ => a⟩
    · exact ⟨fun x => absurd x a, fun x => absurd x b⟩
  have := same_ray_arith _ _ _ _ hh (hne p hp) (hne q hq) hcross
  constructor
  · linarith
  · linarith

theorem ray_arith (P Q D : Int) (hQ : 0 ≤ Q) (hP : 0 ≤ P) (hD : 0 < D)
    (hsq : D * D = P * Q) : (P < Q → D < Q) ∧ (P = Q → D = Q) := by
  constructor
  · intro hlt
    by_contra hge
    have hge' : Q ≤ D := not_lt.mp hge
    have hQpos : 0 < Q := lt_of_le_of_lt hP hlt
    have h1 : Q * Q ≤ D * D := mul_le_mul hge' hge' hQ hD.le
    have h2 : P * Q < Q * Q := mul_lt_mul_of_pos_right hlt hQpos
    linarith
  · intro heq
    subst heq
    have h1 : (D - P) * (D + P) = 0 := by linear_combination hsq
    rcases mul_eq_zero.mp h1 with h | h
    · linarith
    · linarith

theorem lagrange_collinear (a b x y : Int) (hcross : a * y - b * x = 0) :
    (a * x + b * y) * (a * x + b * y) = (a * a + b * b) * (x * x + y * y) := by
  linear_combination (-1) * (a * y - b * x) * hcross

/-- In the box, on one ray from `c`, an asteroid strictly nearer to `c` hides the farther
point. -/
theorem not_IsVisible_of_nearer_on_ray (field : Field) (c p q : Point)
    (hf : ∀ a ∈ field.Asteroids, inBox a) (hcb : inBox c) (hqb : inBox q)
    (hp : p ∈ field.Asteroids)
    (hcross : (p.X - c.X) * (q.Y - c.Y) - (p.Y - c.Y) * (q.X - c.X) = 0)
    (hdot : 0 < (p.X - c.X) * (q.X - c.X) + (p.Y - c.Y) * (q.Y - c.Y))
    (hlt : lineDistanceSq c p < lineDistanceSq c q) :
    IsVisible field c q = false := by
  rw [← Bool.not_eq_true, IsVisible_iff0 field c q hf hcb hqb, not_not]
  unfold lineDistanceSq at hlt
  have hsq := lagrange_collinear _ _ _ _ hcross
  have hdq := (ray_arith _ _ _
    (add_nonneg (mul_self_nonneg (q.X - c.X)) (mul_self_nonneg (q.Y - c.Y)))
    (add_nonneg (mul_self_nonneg (p.X - c.X)) (mul_self_nonneg (p.Y - c.Y))) hdot hsq).1 hlt
  refine ⟨p, hp, ?_, ?_, ?_⟩
  · rintro rfl
    simp at hdot
  · rintro rfl
    exact lt_irrefl _ hlt
  · unfold liesStrictlyInside
    refine ⟨by linarith, by linarith, by linarith⟩

/-- On one ray from `c`, two points at the same distance from `c` coincide. -/
theorem eq_of_same_ray_of_dist_eq (c p q : Point)
    (hcross : (p.X - c.X) * (q.Y - c.Y) - (p.Y - c.Y) * (q.X - c.X) = 0)
    (hdot : 0 < (p.X - c.X) * (q.X - c.X) + (p.Y - c.Y) * (q.Y - c.Y))
    (heq : lineDistanceSq c p = lineDistanceSq c q) : p = q := by
  unfold lineDistanceSq at heq
  have hsq := lagrange_collinear _ _ _ _ hcross
  have hd := (ray_arith _ _ _
    (add_nonneg (mul_self_nonneg (q.X - c.X)) (mul_self_nonneg (q.Y - c.Y)))
    (add_nonneg (mul_self_nonneg (p.X - c.X)) (mul_self_nonneg (p.Y - c.Y))) hdot hsq).2 heq
  have hz : (p.X - q.X) * (p.X - q.X) + (p.Y - q.Y) * (p.Y - q.Y) = 0 := by
    linear_combination heq - 2 * hd
  have hx : p.X - q.X = 0 := by
    nlinarith [mul_self_nonneg (p.X - q.X), mul_self_nonneg (p.Y - q.Y)]
  have hy : p.Y - q.Y = 0 := by
    nlinarith [mul_self_nonneg (p.X - q.X), mul_self_nonneg (p.Y - q.Y)]
  obtain ⟨px, py⟩ := p
  obtain ⟨qx, qy⟩ := q
  simp only [Point.mk.injEq]
  simp only at hx hy
  constructor <;> omega

/-- In the box, no two asteroids visible from `c` at the same time have the same angle. -/
theorem visible_getAngle_inj (field : Field) (c p q : Point)
    (hf : ∀ a ∈ field.Asteroids, inBox a) (hcb : inBox c)
    (hp : p ∈ VisibleAsteroids field c) (hq : q ∈ VisibleAsteroids field c)
    (h : getAngle p c = getAngle q c) : p = q := by
  obtain ⟨hp1, hp2, hp3⟩ := (mem_VisibleAsteroids field c p).mp hp
  obtain ⟨hq1, hq2, hq3⟩ := (mem_VisibleAsteroids field c q).mp hq
  obtain ⟨hcross, hdot⟩ :=
    same_ray_of_getAngle_eq c p q hcb (hf p hp1) (hf q hq1) hp2 hq2 h
  rcases lt_trichotomy (lineDistanceSq c p) (lineDistanceSq c q) with hlt | heq | hgt
  · have := not_IsVisible_of_nearer_on_ray field c p q hf hcb (hf q hq1) hp1 hcross hdot hlt
    rw [this] at hq3
    cases hq3
  · exact eq_of_same_ray_of_dist_eq c p q hcross hdot heq
  · have := not_IsVisible_of_nearer_on_ray field c q p hf hcb (hf p hp1) hq1 (by linarith)
      (by linarith) hgt
    rw [this] at hp3
    cases hp3

/-! ## The passes of the sweep, one after the other -/

/-- The slice handed to the loop is only ever extended at its end. -/
theorem loop_acc (c : Point) (fuel : Nat) (field : Field) (vaporized : List Point) :
    Vaporize.loop c fuel field vaporized =
      (Vaporize.loop c fuel field []).map fun r => (vaporized ++ r.1, r.2) := by
  induction fuel generalizing field vaporized with
  | zero =>
    by_cases hlen : 1 < field.Asteroids.length
    · simp [Vaporize.loop, hlen]
    · rw [loop_stop c _ field vaporized (by omega), loop_stop c _ field [] (by omega)]
      simp
  | succ n ih =>
    by_cases hlen : 1 < field.Asteroids.length
    · rw [loop_step c _ field vaporized hlen, loop_step c _ field [] hlen, ih,
        ih _ ([] ++ _), Option.map_map]
      congr 1
      funext r
      simp [List.append_assoc]
    · rw [loop_stop c _ field vaporized (by omega), loop_stop c _ field [] (by omega)]
      simp

/-- In the box, a pass lists what it removes in strictly ascending order of `getAngle`. -/
theorem pass_fst_strictly_sorted (field : Field) (c : Point) (hnd : field.Asteroids.Nodup)
    (hf : ∀ a ∈ field.Asteroids, inBox a) (hcb : inBox c) :
    (Vaporize.pass field c).1.Pairwise fun p q => getAngle p c < getAngle q c := by
  have hs := sortAngle_sorted (VisibleAsteroids field c) c
  have hn : (sortAngle (VisibleAsteroids field c) c).Nodup :=
    (sortAngle_perm _ c).nodup_iff.mpr (VisibleAsteroids_nodup field c hnd)
  rw [pass_fst]
  refine (hs.and hn).imp_of_mem ?_
  intro p q hp hq hpq
  refine lt_of_le_of_ne hpq.1 ?_
  intro heq
  exact hpq.2 (visible_getAngle_inj field c p q hf hcb ((mem_sortAngle _ c p).mp hp)
    ((mem_sortAngle _ c q).mp hq) heq)

/-- The same, in terms of the clockwise angle from straight up. -/
theorem pass_fst_strictly_clockwise (field : Field) (c : Point)
    (hnd : field.Asteroids.Nodup) (hf : ∀ a ∈ field.Asteroids, inBox a) (hcb : inBox c) :
    (Vaporize.pass field c).1.Pairwise fun p q => clockwiseAngle c p < clockwiseAngle c q := by
  refine (pass_fst_strictly_sorted field c hnd hf hcb).imp_of_mem ?_
  intro p q hp hq hpq
  have hp1 := (mem_pass_fst field c p).mp hp
  have hq1 := (mem_pass_fst field c q).mp hq
  rw [getAngle_eq_clockwiseAngle p c (hf p hp1.1) hcb hp1.2.1,
    getAngle_eq_clockwiseAngle q c (hf q hq1.1) hcb hq1.2.1] at hpq
  linarith

theorem pass_snd_eq (field : Field) (c : Point) :
    (Vaporize.pass field c).2 =
      { field with Asteroids :=
          field.Asteroids.filter (fun q => decide (q ∉ (Vaporize.pass field c).1)) } := by
  have h := pass_snd_Asteroids field c
  have e : (Vaporize.pass field c).2 =
      { field with Asteroids := (Vaporize.pass field c).2.Asteroids } := rfl
  rw [e, h]

/-- The result of the sweep is its first pass followed by the result of the sweep on the
field the first pass leaves. -/
theorem Vaporize_unfold (field : Field) (c : Point) (hnd : field.Asteroids.Nodup)
    (hlen : 1 < field.Asteroids.length) :
    ∃ tail final,
      (∀ fuel, field.Asteroids.length ≤ fuel →
        Vaporize fuel field c = some ((Vaporize.pass field c).1 ++ tail, final)) ∧
      (∀ fuel, field.Asteroids.length ≤ fuel →
        Vaporize fuel (Vaporize.pass field c).2 c = some (tail, final)) := by
  obtain ⟨tail, final, h1, -⟩ := Vaporize_spec (Vaporize.pass field c).2 c
    (pass_nodup field c hnd)
  have hlt := pass_length_lt field c hnd hlen
  refine ⟨tail, final, ?_, ?_⟩
  · intro fuel hfuel
    obtain ⟨n, rfl⟩ : ∃ n, fuel = n + 1 := ⟨fuel - 1, by omega⟩
    unfold Vaporize
    rw [loop_step c n field [] hlen, loop_acc]
    have := h1 n (by omega)
    unfold Vaporize at this
    rw [this]
    simp
  · intro fuel hfuel
    exact h1 fuel (by omega)

/-- C3, as amended: for every field (no key twice) whose asteroids have coordinates
between `-2^20` and `2^20` and every origin `c` that is an asteroid of it, with the angles
taken over the reals and `k` the number of asteroids visible from `c` in the initial
field, the first `k` elements of the sequence returned by `Vaporize` are exactly those
visible asteroids, in strictly ascending clockwise angle around `c` measured from straight
up through right, down and left; the remainder is what `Vaporize` returns on the field
with those `k` asteroids removed, so that the same holds for each later pass. -/
theorem C3_Vaporize_passes_in_clockwise_order (field : Field) (c : Point)
    (hnd : field.Asteroids.Nodup) (hf : ∀ a ∈ field.Asteroids, inBox a)
    (hc : c ∈ field.Asteroids) :
    ∃ seq final,
      (∀ fuel, field.Asteroids.length ≤ fuel → Vaporize fuel field c = some (seq, final)) ∧
      (seq.take (VisibleAsteroids field c).length).Perm (VisibleAsteroids field c) ∧
      (seq.take (VisibleAsteroids field c).length).Pairwise
        (fun p q => clockwiseAngle c p < clockwiseAngle c q) ∧
      (∀ fuel, field.Asteroids.length ≤ fuel →
        Vaporize fuel
          { field with
            Asteroids := field.Asteroids.filter
              (fun q => decide (q ∉ seq.take (VisibleAsteroids field c).length)) } c =
          some (seq.drop (VisibleAsteroids field c).length, final)) := by
  by_cases hlen : 1 < field.Asteroids.length
  · obtain ⟨tail, final, h1, h2⟩ := Vaporize_unfold field c hnd hlen
    have hk : (VisibleAsteroids field c).length = (Vaporize.pass field c).1.length :=
      (sortAngle_perm (VisibleAsteroids field c) c).length_eq.symm
    refine ⟨(Vaporize.pass field c).1 ++ tail, final, h1, ?_, ?_, ?_⟩
    · rw [hk, List.take_left']
      · exact sortAngle_perm _ c
      · rfl
    · rw [hk, List.take_left' rfl]
      exact pass_fst_strictly_clockwise field c hnd hf (hf c hc)
    · intro fuel hfuel
      rw [hk, List.take_left' rfl, List.drop_left' rfl, ← pass_snd_eq]
      exact h2 fuel hfuel
  · have hA : field.Asteroids = [c] := eq_singleton_of_mem _ c (by omega) hc
    have hv : VisibleAsteroids field c = [] := by
      apply List.eq_nil_iff_forall_not_mem.mpr
      intro p hp
      obtain ⟨h1, h2, -⟩ := (mem_VisibleAsteroids field c p).mp hp
      rw [hA] at h1
      exact h2 (List.mem_singleton.mp h1)
    refine ⟨[], field, ?_, ?_, ?_, ?_⟩
    · intro fuel _
      exact loop_stop c fuel field [] (by omega)
    · rw [hv]
      exact List.Perm.refl _
    · rw [hv]
      exact List.Pairwise.nil
    · intro fuel _
      have e : ({ field with
          Asteroids := field.Asteroids.filter
            (fun q => decide (q ∉ List.take (VisibleAsteroids field c).length [])) } : Field) =
          field := by
        simp
      rw [e]
      simp only [List.drop_nil]
      exact loop_stop c fuel field [] (by omega)

/-- C3 at a concrete input: the worked example with the station `(3, 4)`. -/
theorem C3_Vaporize_passes_in_clockwise_order_witness :
    exampleField.Asteroids.Nodup ∧ (∀ a ∈ exampleField.Asteroids, inBox a) ∧
    (⟨3, 4⟩ : Point) ∈ exampleField.Asteroids ∧
    ∃ seq final,
      (∀ fuel, exampleField.Asteroids.length ≤ fuel →
        Vaporize fuel exampleField ⟨3, 4⟩ = some (seq, final)) ∧
      (seq.take (VisibleAsteroids exampleField ⟨3, 4⟩).length).Perm
        (VisibleAsteroids exampleField ⟨3, 4⟩) ∧
      (seq.take (VisibleAsteroids exampleField ⟨3, 4⟩).length).Pairwise
        (fun p q => clockwiseAngle ⟨3, 4⟩ p < clockwiseAngle ⟨3, 4⟩ q) ∧
      (∀ fuel, exampleField.Asteroids.length ≤ fuel →
        Vaporize fuel
          { exampleField with
            Asteroids := exampleField.Asteroids.filter
              (fun q => decide
                (q ∉ seq.take (VisibleAsteroids exampleField ⟨3, 4⟩).length)) } ⟨3, 4⟩ =
          some (seq.drop (VisibleAsteroids exampleField ⟨3, 4⟩).length, final)) :=
  ⟨by decide, by decide, by decide,
    C3_Vaporize_passes_in_clockwise_order exampleField ⟨3, 4⟩ (by decide) (by decide)
      (by decide)⟩

/-! ## The sorted slice does not depend on the sorting algorithm -/

/-- Any arrangement of `l` in strictly ascending order of `getAngle` is the slice that
`sortAngle` returns. -/
theorem sortAngle_unique (l l' : List Point) (c : Point) (hperm : l'.Perm l)
    (hsorted : l'.Pairwise fun p q => getAngle p c < getAngle q c) :
    l' = sortAngle l c := by
  haveI : IsAntisymm Point (fun p q => getAngle p c < getAngle q c) :=
    ⟨fun a b h1 h2 => absurd h1 (not_lt.mpr h2.le)⟩
  have hp : l'.Perm (sortAngle l c) := hperm.trans (sortAngle_perm l c).symm
  have hne : (sortAngle l c).Pairwise fun p q => getAngle p c ≠ getAngle q c :=
    (hp.pairwise_iff (fun h => Ne.symm h)).mp (hsorted.imp fun h => ne_of_lt h)
  have hlt : (sortAngle l c).Pairwise fun p q => getAngle p c < getAngle q c :=
    ((sortAngle_sorted l c).and hne).imp fun h => lt_of_le_of_ne h.1 h.2
  exact List.eq_of_perm_of_sorted hp hsorted hlt

/-! ## Symmetry, general position, rays -/

theorem liesStrictlyInside_comm (p1 p2 p3 : Point) :
    liesStrictlyInside p1 p2 p3 ↔ liesStrictlyInside p2 p1 p3 := by
  unfold liesStrictlyInside
  constructor
  · rintro ⟨a, b, c⟩
    refine ⟨by linarith, by nlinarith, by nlinarith⟩
  · rintro ⟨a, b, c⟩
    refine ⟨by linarith, by nlinarith, by nlinarith⟩

theorem IsVisible_comm (field : Field) (p1 p2 : Point)
    (hf : ∀ a ∈ field.Asteroids, inBox a) (h1 : inBox p1) (h2 : inBox p2) :
    IsVisible field p1 p2 = IsVisible field p2 p1 := by
  rw [Bool.eq_iff_iff, IsVisible_iff0 field p1 p2 hf h1 h2, IsVisible_iff0 field p2 p1 hf h2 h1]
  constructor
  · rintro h ⟨p3, hp3, a, b, c⟩
    exact h ⟨p3, hp3, b, a, (liesStrictlyInside_comm p1 p2 p3).mpr c⟩
  · rintro h ⟨p3, hp3, a, b, c⟩
    exact h ⟨p3, hp3, b, a, (liesStrictlyInside_comm p1 p2 p3).mp c⟩

/-- C14, as amended: `IsVisible` is symmetric in its two points as long as the
coordinates lie between `-2^20` and `2^20`: for every field whose asteroids have such
coordinates and every two such points `p1` and `p2`,
`IsVisible field p1 p2 = IsVisible field p2 p1`. -/
theorem C14_IsVisible_symmetric (field : Field) (p1 p2 : Point)
    (hf : ∀ a ∈ field.Asteroids, inBox a) (h1 : inBox p1) (h2 : inBox p2) :
    IsVisible field p1 p2 = IsVisible field p2 p1 :=
  IsVisible_comm field p1 p2 hf h1 h2

/-- C14 at a concrete input: the first and the last asteroid of the middle row of the
worked example hide each other behind the three asteroids between them. -/
theorem C14_IsVisible_symmetric_witness :
    (∀ a ∈ exampleField.Asteroids, inBox a) ∧ inBox ⟨0, 2⟩ ∧ inBox ⟨4, 2⟩ ∧
    IsVisible exampleField ⟨0, 2⟩ ⟨4, 2⟩ = IsVisible exampleField ⟨4, 2⟩ ⟨0, 2⟩ :=
  ⟨by decide, by decide, by decide,
    C14_IsVisible_symmetric exampleField ⟨0, 2⟩ ⟨4, 2⟩ (by decide) (by decide) (by decide)⟩

/-- C14 fails as stated: in `wideField` the cross product of `(2^33, 0)` and `(1, 2^31)`
is `2^64`, which wraps to `0`, so the third asteroid counts as collinear with the other
two; seen from `(0, 0)` the dot product wraps to a negative number and `(2^33, 0)` is
hidden, seen from `(2^33, 0)` the dot product is `2^33` and `(0, 0)` is visible. -/
theorem C14_counterexample :
    crossproduct ⟨8589934592, 0⟩ ⟨1, 2147483648⟩ ⟨0, 0⟩ = 0 ∧
    dotproduct ⟨8589934592, 0⟩ ⟨1, 2147483648⟩ ⟨0, 0⟩ = -8589934592 ∧
    dotproduct ⟨0, 0⟩ ⟨1, 2147483648⟩ ⟨8589934592, 0⟩ = 8589934592 ∧
    IsVisible wideField ⟨0, 0⟩ ⟨8589934592, 0⟩ = false ∧
    IsVisible wideField ⟨8589934592, 0⟩ ⟨0, 0⟩ = true ∧
    IsVisible wideField ⟨0, 0⟩ ⟨8589934592, 0⟩ ≠ IsVisible wideField ⟨8589934592, 0⟩ ⟨0, 0⟩ := by
  decide

/-- In the box, an asteroid is visible from `c` exactly when no asteroid on its ray from
`c` is strictly nearer to `c`. -/
theorem IsVisible_iff_nearest_on_ray (field : Field) (c q : Point)
    (hf : ∀ a ∈ field.Asteroids, inBox a) (hcb : inBox c) (hqb : inBox q) :
    IsVisible field c q = true ↔
      ∀ p ∈ field.Asteroids, sameRay c p q → lineDistanceSq c q ≤ lineDistanceSq c p := by
  constructor
  · intro hv p hp hray
    by_contra hlt
    have := not_IsVisible_of_nearer_on_ray field c p q hf hcb hqb hp hray.1 hray.2
      (not_le.mp hlt)
    rw [this] at hv
    cases hv
  · intro h
    rw [IsVisible_iff0 field c q hf hcb hqb]
    rintro ⟨p3, hp3, -, -, h1, h2, h3⟩
    have hray : sameRay c p3 q := ⟨by linarith, by linarith⟩
    have hle := h p3 hp3 hray
    unfold lineDistanceSq at hle
    have hsq := lagrange_collinear _ _ _ _ hray.1
    nlinarith [mul_pos h2 (sub_pos.mpr h3)]

theorem length_filter_ne (l : List Point) (p : Point) (hnd : l.Nodup) (hp : p ∈ l) :
    (l.filter fun q => decide (q ≠ p)).length = l.length - 1 := by
  have h1 : (l.filter fun q => decide (q ≠ p)) = l.erase p := by
    rw [hnd.erase_eq_filter]
    apply List.filter_congr
    intro q _
    by_cases h : q = p <;> simp [h]
  rw [h1, List.length_erase_of_mem hp]

/-- C13, as amended: in a field with `N` asteroids (no key twice), with coordinates
between `-2^20` and `2^20`, of which no three distinct ones are collinear, every asteroid
`p` sees every other one: `VisibleAsteroids field p` lists exactly the asteroids other than
`p`, and has `N - 1` elements. -/
theorem C13_general_position_sees_all (field : Field) (hnd : field.Asteroids.Nodup)
    (hf : ∀ a ∈ field.Asteroids, inBox a)
    (hgp : ∀ a ∈ field.Asteroids, ∀ b ∈ field.Asteroids, ∀ d ∈ field.Asteroids,
      a ≠ b → a ≠ d → b ≠ d → ¬ collinear a b d)
    (p : Point) (hp : p ∈ field.Asteroids) :
    (VisibleAsteroids field p).length = field.Asteroids.length - 1 ∧
    VisibleAsteroids field p = field.Asteroids.filter (fun q => decide (q ≠ p)) ∧
    ∀ q, q ∈ VisibleAsteroids field p ↔ (q ∈ field.Asteroids ∧ q ≠ p) := by
  have hvis : ∀ q ∈ field.Asteroids, q ≠ p → IsVisible field p q = true := by
    intro q hq hqp
    rw [IsVisible_iff0 field p q hf (hf p hp) (hf q hq)]
    rintro ⟨p3, hp3, h3p, h3q, hin⟩
    exact hgp p hp q hq p3 hp3 (Ne.symm hqp) (Ne.symm h3p) (Ne.symm h3q) hin.1
  have heq : VisibleAsteroids field p = field.Asteroids.filter (fun q => decide (q ≠ p)) := by
    rw [VisibleAsteroids_eq_filter]
    apply List.filter_congr
    intro q hq
    by_cases h : q = p
    · simp [h]
    · simp [h, hvis q hq h]
  refine ⟨?_, heq, ?_⟩
  · rw [heq, length_filter_ne _ p hnd hp]
  · intro q
    rw [heq]
    simp

/-- C13 at a concrete input: the three corners `(0,0)`, `(1,0)`, `(0,1)`, seen from
`(0,0)`. -/
theorem C13_general_position_sees_all_witness :
    triangleField.Asteroids.Nodup ∧ (∀ a ∈ triangleField.Asteroids, inBox a) ∧
    (∀ a ∈ triangleField.Asteroids, ∀ b ∈ triangleField.Asteroids,
      ∀ d ∈ triangleField.Asteroids, a ≠ b → a ≠ d → b ≠ d → ¬ collinear a b d) ∧
    (⟨0, 0⟩ : Point) ∈ triangleField.Asteroids ∧
    (VisibleAsteroids triangleField ⟨0, 0⟩).length = triangleField.Asteroids.length - 1 ∧
    VisibleAsteroids triangleField ⟨0, 0⟩ =
      triangleField.Asteroids.filter (fun q => decide (q ≠ ⟨0, 0⟩)) ∧
    ∀ q, q ∈ VisibleAsteroids triangleField ⟨0, 0⟩ ↔
      (q ∈ triangleField.Asteroids ∧ q ≠ ⟨0, 0⟩) :=
  ⟨by decide, by decide, by decide, by decide,
    C13_general_position_sees_all triangleField (by decide) (by decide) (by decide) ⟨0, 0⟩
      (by decide)⟩

/-- C13 fails as stated: no three asteroids of `wideField` are collinear (the cross
product of `(2^33, 0)` and `(1, 2^31)` is `2^64`), yet the code's cross product wraps to
`0` and from `(0, 0)` only one of the two other asteroids is visible. -/
theorem C13_counterexample :
    wideField.Asteroids.Nodup ∧
    (∀ a ∈ wideField.Asteroids, ∀ b ∈ wideField.Asteroids, ∀ d ∈ wideField.Asteroids,
      a ≠ b → a ≠ d → b ≠ d → ¬ collinear a b d) ∧
    (⟨0, 0⟩ : Point) ∈ wideField.Asteroids ∧
    VisibleAsteroids wideField ⟨0, 0⟩ = [⟨1, 2147483648⟩] ∧
    (VisibleAsteroids wideField ⟨0, 0⟩).length ≠ wideField.Asteroids.length - 1 := by
  decide

/-- C17, as amended: if the field holds an asteroid other than `c`, then
`VisibleAsteroids field c` is not empty; and if the coordinates of `c` and of the asteroids
lie between `-2^20` and `2^20`, then every asteroid other than `c` at minimal distance from
`c` is in it, and an asteroid other than `c` is in it exactly when no asteroid on its ray
from `c` is strictly nearer to `c`, so that of the asteroids on one ray only the nearest is
visible. -/
theorem C17_nearest_is_visible (field : Field) (c a : Point) (ha : a ∈ field.Asteroids)
    (hac : a ≠ c) :
    VisibleAsteroids field c ≠ [] ∧
    ((∀ p ∈ field.Asteroids, inBox p) → inBox c →
    (∀ m ∈ field.Asteroids, m ≠ c →
      (∀ b ∈ field.Asteroids, b ≠ c → lineDistanceSq c m ≤ lineDistanceSq c b) →
      m ∈ VisibleAsteroids field c) ∧
    (∀ q ∈ field.Asteroids, q ≠ c →
      (q ∈ VisibleAsteroids field c ↔
        ∀ p ∈ field.Asteroids, sameRay c p q → lineDistanceSq c q ≤ lineDistanceSq c p)) ∧
    (∀ p ∈ field.Asteroids, ∀ q ∈ field.Asteroids, sameRay c p q →
      lineDistanceSq c p < lineDistanceSq c q → q ∉ VisibleAsteroids field c)) := by
  refine ⟨VisibleAsteroids_ne_nil field c a ha hac, fun hf hcb => ⟨?_, ?_, ?_⟩⟩
  · intro m hm hmc hmin
    exact (mem_VisibleAsteroids field c m).mpr
      ⟨hm, hmc, IsVisible_of_nearestSq field c m hf hcb (hf m hm) hmin⟩
  · intro q hq hqc
    rw [mem_VisibleAsteroids, ← IsVisible_iff_nearest_on_ray field c q hf hcb (hf q hq)]
    exact ⟨fun h => h.2.2, fun h => ⟨hq, hqc, h⟩⟩
  · intro p hp q hq hray hlt hmem
    have hv := ((mem_VisibleAsteroids field c q).mp hmem).2.2
    rw [not_IsVisible_of_nearer_on_ray field c p q hf hcb (hf q hq) hp hray.1 hray.2 hlt] at hv
    cases hv

/-- C17 at a concrete input: the row `.##` seen from `(0, 0)`. -/
theorem C17_nearest_is_visible_witness :
    (⟨1, 0⟩ : Point) ∈ rowField.Asteroids ∧ (⟨1, 0⟩ : Point) ≠ ⟨0, 0⟩ ∧
    (∀ p ∈ rowField.Asteroids, inBox p) ∧ inBox ⟨0, 0⟩ ∧
    VisibleAsteroids rowField ⟨0, 0⟩ ≠ [] ∧
    (∀ m ∈ rowField.Asteroids, m ≠ ⟨0, 0⟩ →
      (∀ b ∈ rowField.Asteroids, b ≠ ⟨0, 0⟩ →
        lineDistanceSq ⟨0, 0⟩ m ≤ lineDistanceSq ⟨0, 0⟩ b) →
      m ∈ VisibleAsteroids rowField ⟨0, 0⟩) ∧
    (∀ q ∈ rowField.Asteroids, q ≠ ⟨0, 0⟩ →
      (q ∈ VisibleAsteroids rowField ⟨0, 0⟩ ↔
        ∀ p ∈ rowField.Asteroids, sameRay ⟨0, 0⟩ p q →
          lineDistanceSq ⟨0, 0⟩ q ≤ lineDistanceSq ⟨0, 0⟩ p)) ∧
    (∀ p ∈ rowField.Asteroids, ∀ q ∈ rowField.Asteroids, sameRay ⟨0, 0⟩ p q →
      lineDistanceSq ⟨0, 0⟩ p < lineDistanceSq ⟨0, 0⟩ q →
      q ∉ VisibleAsteroids rowField ⟨0, 0⟩) :=
  ⟨by decide, by decide, by decide, by decide,
    (C17_nearest_is_visible rowField ⟨0, 0⟩ ⟨1, 0⟩ (by decide) (by decide)).1,
    (C17_nearest_is_visible rowField ⟨0, 0⟩ ⟨1, 0⟩ (by decide) (by decide)).2 (by decide)
      (by decide)⟩

/-- C17 fails as stated: the two asteroids `(2^53, 0)` and `(2^53 + 1, 0)` of
`farRowField` lie on one ray from `(0, 0)`, the first strictly nearer, and `float64` gives
both the distance `2^53`, so both are visible; and of the four neighbours of
`(0, 2^53)`, all at distance `1`, the upper one is hidden, because `float64` puts the
lower one at distance `0`. -/
theorem C17_counterexample :
    sameRay ⟨0, 0⟩ ⟨9007199254740992, 0⟩ ⟨9007199254740993, 0⟩ ∧
    lineDistanceSq ⟨0, 0⟩ ⟨9007199254740992, 0⟩ < lineDistanceSq ⟨0, 0⟩ ⟨9007199254740993, 0⟩ ∧
    lineDistance ⟨0, 0⟩ ⟨9007199254740992, 0⟩ = lineDistance ⟨0, 0⟩ ⟨9007199254740993, 0⟩ ∧
    VisibleAsteroids farRowField ⟨0, 0⟩ = [⟨9007199254740992, 0⟩, ⟨9007199254740993, 0⟩] ∧
    (∀ b ∈ farPlusField.Asteroids, b ≠ ⟨0, 9007199254740992⟩ →
      lineDistanceSq ⟨0, 9007199254740992⟩ ⟨0, 9007199254740991⟩ ≤
        lineDistanceSq ⟨0, 9007199254740992⟩ b) ∧
    lineDistance ⟨0, 9007199254740992⟩ ⟨0, 9007199254740993⟩ = 0 ∧
    (⟨0, 9007199254740991⟩ : Point) ∉ VisibleAsteroids farPlusField ⟨0, 9007199254740992⟩ := by
  decide

/-! ## Ties in the station selection -/

/-- The loop of `FindMonitoringStation` either keeps the pair it was given, when no
count it meets is larger, or returns the first asteroid whose count is the largest. -/
theorem FindMonitoringStation_scan_first (field : Field) (ps : List Point) (bp : Point)
    (bc : Nat) :
    (FindMonitoringStation.scan field ps (bp, bc) = (bp, bc) ∧
      ∀ q ∈ ps, (VisibleAsteroids field q).length ≤ bc) ∨
    ∃ pre p post, ps = pre ++ p :: post ∧
      FindMonitoringStation.scan field ps (bp, bc) = (p, (VisibleAsteroids field p).length) ∧
      bc < (VisibleAsteroids field p).length ∧
      (∀ q ∈ pre, (VisibleAsteroids field q).length < (VisibleAsteroids field p).length) ∧
      (∀ q ∈ post, (VisibleAsteroids field q).length ≤ (VisibleAsteroids field p).length) := by
  induction ps generalizing bp bc with
  | nil => exact Or.inl ⟨rfl, fun q hq => absurd hq (List.not_mem_nil q)⟩
  | cons x rest ih =>
    by_cases hx : (VisibleAsteroids field x).length > bc
    · have e : FindMonitoringStation.scan field (x :: rest) (bp, bc) =
          FindMonitoringStation.scan field rest (x, (VisibleAsteroids field x).length) := by
        simp [FindMonitoringStation.scan, hx]
      rw [e]
      rcases ih x (VisibleAsteroids field x).length with ⟨h1, h2⟩ | ⟨pre, p, post, h1, h2, h3, h4, h5⟩
      · exact Or.inr ⟨[], x, rest, rfl, h1, hx, fun q hq => absurd hq (List.not_mem_nil q), h2⟩
      · refine Or.inr ⟨x :: pre, p, post, by rw [h1]; rfl, h2, by omega, ?_, h5⟩
        intro q hq
        rcases List.mem_cons.mp hq with rfl | hq
        · exact h3
        · exact h4 q hq
    · have e : FindMonitoringStation.scan field (x :: rest) (bp, bc) =
          FindMonitoringStation.scan field rest (bp, bc) := by
        simp [FindMonitoringStation.scan, hx]
      rw [e]
      rcases ih bp bc with ⟨h1, h2⟩ | ⟨pre, p, post, h1, h2, h3, h4, h5⟩
      · refine Or.inl ⟨h1, ?_⟩
        intro q hq
        rcases List.mem_cons.mp hq with rfl | hq
        · omega
        · exact h2 q hq
      · refine Or.inr ⟨x :: pre, p, post, by rw [h1]; rfl, h2, h3, ?_, h5⟩
        intro q hq
        rcases List.mem_cons.mp hq with rfl | hq
        · omega
        · exact h4 q hq

/-- C18: with the asteroids enumerated in the order of `field.Asteroids` (no key twice)
and at least two of them, `FindMonitoringStation` returns the first asteroid of the
enumeration whose visible count is the maximum: every asteroid before it has a strictly
smaller count, every asteroid after it a count that is not larger. -/
theorem C18_first_maximum_wins (field : Field) (hnd : field.Asteroids.Nodup)
    (hlen : 1 < field.Asteroids.length) :
    ∃ pre post, field.Asteroids = pre ++ (FindMonitoringStation field).1 :: post ∧
      (FindMonitoringStation field).2 =
        (VisibleAsteroids field (FindMonitoringStation field).1).length ∧
      (∀ q ∈ field.Asteroids,
        (VisibleAsteroids field q).length ≤ (FindMonitoringStation field).2) ∧
      (∀ q ∈ pre, (VisibleAsteroids field q).length < (FindMonitoringStation field).2) ∧
      (∀ q ∈ post, (VisibleAsteroids field q).length ≤ (FindMonitoringStation field).2) := by
  have hall := (FindMonitoringStation_scan_spec field field.Asteroids ⟨0, 0⟩ 0).2.1
  rcases FindMonitoringStation_scan_first field field.Asteroids ⟨0, 0⟩ 0 with
    ⟨-, h2⟩ | ⟨pre, p, post, h1, h2, -, h4, h5⟩
  · exfalso
    obtain ⟨a, ha, -⟩ := exists_ne_of_nodup field.Asteroids ⟨0, 0⟩ hnd hlen
    obtain ⟨b, hb, hba⟩ := exists_ne_of_nodup field.Asteroids a hnd hlen
    have hne := VisibleAsteroids_ne_nil field a b hb hba
    have hle := h2 a ha
    have : 0 < (VisibleAsteroids field a).length := List.length_pos.mpr hne
    omega
  · have e : FindMonitoringStation field = (p, (VisibleAsteroids field p).length) := h2
    rw [e]
    refine ⟨pre, post, h1, rfl, ?_, h4, h5⟩
    intro q hq
    have := hall q hq
    rw [show FindMonitoringStation.scan field field.Asteroids (⟨0, 0⟩, 0) =
      FindMonitoringStation field from rfl, e] at this
    exact this

/-- C18 at a concrete input: in the row `.##` both asteroids see one asteroid, and the
first of the enumeration is returned. -/
theorem C18_first_maximum_wins_witness :
    rowField.Asteroids.Nodup ∧ 1 < rowField.Asteroids.length ∧
    FindMonitoringStation rowField = (⟨1, 0⟩, 1) ∧
    FindMonitoringStation { rowField with Asteroids := [⟨2, 0⟩, ⟨1, 0⟩] } = (⟨2, 0⟩, 1) ∧
    ∃ pre post, rowField.Asteroids = pre ++ (FindMonitoringStation rowField).1 :: post ∧
      (FindMonitoringStation rowField).2 =
        (VisibleAsteroids rowField (FindMonitoringStation rowField).1).length ∧
      (∀ q ∈ rowField.Asteroids,
        (VisibleAsteroids rowField q).length ≤ (FindMonitoringStation rowField).2) ∧
      (∀ q ∈ pre, (VisibleAsteroids rowField q).length < (FindMonitoringStation rowField).2) ∧
      (∀ q ∈ post, (VisibleAsteroids rowField q).length ≤ (FindMonitoringStation rowField).2) :=
  ⟨by decide, by decide, by decide, by decide,
    C18_first_maximum_wins rowField (by decide) (by decide)⟩

/-! ## The values of `getAngle` -/

/-- The value returned by `getAngle` lies in `[-π/2, 3π/2)`. -/
theorem getAngle_range (p c : Point) :
    -(Real.pi / 2) ≤ getAngle p c ∧ getAngle p c < 3 * Real.pi / 2 := by
  obtain ⟨r, -, h0, h2, -, -⟩ := getAngle_polar p c
  constructor <;> linarith

/-- When `math.Atan2` is handed `x = 0` and `y > 0`, `getAngle` is `-π/2`. -/
theorem getAngle_of_up (p c : Point) (hx : toF64 (subInt c.X p.X) = 0)
    (hy : 0 < toF64 (subInt c.Y p.Y)) : getAngle p c = -(Real.pi / 2) := by
  have harg : Complex.arg ⟨((toF64 (subInt c.X p.X) : Int) : ℝ),
      ((toF64 (subInt c.Y p.Y) : Int) : ℝ)⟩ = Real.pi / 2 := by
    rw [Complex.arg_eq_pi_div_two_iff]
    constructor
    · show ((toF64 (subInt c.X p.X) : Int) : ℝ) = 0
      rw [hx, Int.cast_zero]
    · show 0 < ((toF64 (subInt c.Y p.Y) : Int) : ℝ)
      exact_mod_cast hy
  unfold getAngle atan2
  simp only [harg, sub_self, lt_self_iff_false, if_false]
  ring

/-- When `math.Atan2` is handed `x < 0` and `y = 0`, `getAngle` is `0`. -/
theorem getAngle_of_right (p c : Point) (hx : toF64 (subInt c.X p.X) < 0)
    (hy : toF64 (subInt c.Y p.Y) = 0) : getAngle p c = 0 := by
  have hpi := Real.pi_pos
  have harg : Complex.arg ⟨((toF64 (subInt c.X p.X) : Int) : ℝ),
      ((toF64 (subInt c.Y p.Y) : Int) : ℝ)⟩ = Real.pi := by
    rw [Complex.arg_eq_pi_iff]
    constructor
    · show ((toF64 (subInt c.X p.X) : Int) : ℝ) < 0
      exact_mod_cast hx
    · show ((toF64 (subInt c.Y p.Y) : Int) : ℝ) = 0
      rw [hy, Int.cast_zero]
  unfold getAngle atan2
  simp only [harg]
  rw [if_neg (by linarith)]
  ring

/-- When `math.Atan2` is handed `x = 0` and `y < 0`, `getAngle` is `π/2`. -/
theorem getAngle_of_down (p c : Point) (hx : toF64 (subInt c.X p.X) = 0)
    (hy : toF64 (subInt c.Y p.Y) < 0) : getAngle p c = Real.pi / 2 := by
  have hpi := Real.pi_pos
  have harg : Complex.arg ⟨((toF64 (subInt c.X p.X) : Int) : ℝ),
      ((toF64 (subInt c.Y p.Y) : Int) : ℝ)⟩ = -(Real.pi / 2) := by
    rw [Complex.arg_eq_neg_pi_div_two_iff]
    constructor
    · show ((toF64 (subInt c.X p.X) : Int) : ℝ) = 0
      rw [hx, Int.cast_zero]
    · show ((toF64 (subInt c.Y p.Y) : Int) : ℝ) < 0
      exact_mod_cast hy
  unfold getAngle atan2
  simp only [harg]
  rw [if_pos (by linarith)]
  ring

/-- When `math.Atan2` is handed `x > 0` and `y = 0`, `getAngle` is `π`. -/
theorem getAngle_of_left (p c : Point) (hx : 0 < toF64 (subInt c.X p.X))
    (hy : toF64 (subInt c.Y p.Y) = 0) : getAngle p c = Real.pi := by
  have hpi := Real.pi_pos
  have harg : Complex.arg ⟨((toF64 (subInt c.X p.X) : Int) : ℝ),
      ((toF64 (subInt c.Y p.Y) : Int) : ℝ)⟩ = 0 := by
    rw [Complex.arg_eq_zero_iff]
    constructor
    · show 0 ≤ ((toF64 (subInt c.X p.X) : Int) : ℝ)
      exact_mod_cast hx.le
    · show ((toF64 (subInt c.Y p.Y) : Int) : ℝ) = 0
      rw [hy, Int.cast_zero]
  unfold getAngle atan2
  simp only [harg]
  rw [if_pos (by linarith)]
  ring

/-- In the box, straight up from `c` (same X, smaller Y) `getAngle` is `-π/2`. -/
theorem getAngle_up (p c : Point) (hp : inBox p) (hc : inBox c) (hx : p.X = c.X)
    (hy : p.Y < c.Y) : getAngle p c = -(Real.pi / 2) := by
  obtain ⟨e1, e2⟩ := angle_args_of_inBox p c hp hc
  exact getAngle_of_up p c (by rw [e1]; omega) (by rw [e2]; omega)

/-- In the box, due right of `c` (larger X, same Y) `getAngle` is `0`. -/
theorem getAngle_right (p c : Point) (hp : inBox p) (hc : inBox c) (hx : c.X < p.X)
    (hy : p.Y = c.Y) : getAngle p c = 0 := by
  obtain ⟨e1, e2⟩ := angle_args_of_inBox p c hp hc
  exact getAngle_of_right p c (by rw [e1]; omega) (by rw [e2]; omega)

/-- In the box, straight down from `c` (same X, larger Y) `getAngle` is `π/2`. -/
theorem getAngle_down (p c : Point) (hp : inBox p) (hc : inBox c) (hx : p.X = c.X)
    (hy : c.Y < p.Y) : getAngle p c = Real.pi / 2 := by
  obtain ⟨e1, e2⟩ := angle_args_of_inBox p c hp hc
  exact getAngle_of_down p c (by rw [e1]; omega) (by rw [e2]; omega)

/-- In the box, due left of `c` (smaller X, same Y) `getAngle` is `π`. -/
theorem getAngle_left (p c : Point) (hp : inBox p) (hc : inBox c) (hx : p.X < c.X)
    (hy : p.Y = c.Y) : getAngle p c = Real.pi := by
  obtain ⟨e1, e2⟩ := angle_args_of_inBox p c hp hc
  exact getAngle_of_left p c (by rw [e1]; omega) (by rw [e2]; omega)

/-- C12 fails as stated: for `p = (0, -1)`, straight up from `c = (0, 0)`, `getAngle p c`
is `-π/2`, which is neither `0` nor in `[0, 2π)`; due right it is `0`, not `π/2`, straight
down `π/2`, not `π`, due left `π`, not `3π/2`.  And for `p = (0, -2^63)`, straight up from
`c = (0, 2^63 - 1)`, the difference `c.Y - p.Y` wraps to `-1` and `getAngle p c` is `π/2`,
the value for straight down. -/
theorem C12_counterexample :
    getAngle ⟨0, -1⟩ ⟨0, 0⟩ = -(Real.pi / 2) ∧
    ¬ (0 ≤ getAngle ⟨0, -1⟩ ⟨0, 0⟩) ∧
    getAngle ⟨0, -1⟩ ⟨0, 0⟩ ≠ 0 ∧
    getAngle ⟨1, 0⟩ ⟨0, 0⟩ = 0 ∧ getAngle ⟨1, 0⟩ ⟨0, 0⟩ ≠ Real.pi / 2 ∧
    getAngle ⟨0, 1⟩ ⟨0, 0⟩ = Real.pi / 2 ∧ getAngle ⟨0, 1⟩ ⟨0, 0⟩ ≠ Real.pi ∧
    getAngle ⟨-1, 0⟩ ⟨0, 0⟩ = Real.pi ∧ getAngle ⟨-1, 0⟩ ⟨0, 0⟩ ≠ 3 * Real.pi / 2 ∧
    getAngle ⟨0, -9223372036854775808⟩ ⟨0, 9223372036854775807⟩ = Real.pi / 2 := by
  have hpi := Real.pi_pos
  have hup := getAngle_up ⟨0, -1⟩ ⟨0, 0⟩ (by decide) (by decide) rfl (by decide)
  have hright := getAngle_right ⟨1, 0⟩ ⟨0, 0⟩ (by decide) (by decide) (by decide) rfl
  have hdown := getAngle_down ⟨0, 1⟩ ⟨0, 0⟩ (by decide) (by decide) rfl (by decide)
  have hleft := getAngle_left ⟨-1, 0⟩ ⟨0, 0⟩ (by decide) (by decide) (by decide) rfl
  refine ⟨hup, ?_, ?_, hright, ?_, hdown, ?_, hleft, ?_,
    getAngle_of_down _ _ (by decide) (by decide)⟩
  · rw [hup]
    intro h
    linarith
  · rw [hup]
    intro h
    linarith
  · rw [hright]
    intro h
    linarith
  · rw [hdown]
    intro h
    linarith
  · rw [hleft]
    intro h
    linarith

/-- C12, as amended: for every two points `p` and `c` with coordinates between `-2^20` and
`2^20`, the angle `getAngle p c` (with `atan2` over the reals) lies in the half-open
interval `[-π/2, 3π/2)`; it is `-π/2` when `p` is straight up from `c` (same X, smaller Y),
`0` when `p` is due right, `π/2` when due down and `π` when due left; for `p` other than
`c` it is the clockwise angle from straight up, which lies in `[0, 2π)`, less a quarter
turn. -/
theorem C12_getAngle_values (p c : Point) (hp : inBox p) (hc : inBox c) :
    (-(Real.pi / 2) ≤ getAngle p c ∧ getAngle p c < 3 * Real.pi / 2) ∧
    (p.X = c.X → p.Y < c.Y → getAngle p c = -(Real.pi / 2)) ∧
    (c.X < p.X → p.Y = c.Y → getAngle p c = 0) ∧
    (p.X = c.X → c.Y < p.Y → getAngle p c = Real.pi / 2) ∧
    (p.X < c.X → p.Y = c.Y → getAngle p c = Real.pi) ∧
    (p ≠ c → getAngle p c = clockwiseAngle c p - Real.pi / 2 ∧
      0 ≤ clockwiseAngle c p ∧ clockwiseAngle c p < 2 * Real.pi) := by
  refine ⟨getAngle_range p c, getAngle_up p c hp hc, getAngle_right p c hp hc,
    getAngle_down p c hp hc, getAngle_left p c hp hc, ?_⟩
  intro hpc
  obtain ⟨r, -, h0, h2, -, -⟩ := clockwiseAngle_polar c p hpc
  exact ⟨getAngle_eq_clockwiseAngle p c hp hc hpc, h0, h2⟩

/-- C12 as amended, at a concrete input: the asteroid `(1, 0)` of the worked example seen
from the station `(3, 4)`. -/
theorem C12_getAngle_values_witness :
    inBox ⟨1, 0⟩ ∧ inBox ⟨3, 4⟩ ∧
    (-(Real.pi / 2) ≤ getAngle ⟨1, 0⟩ ⟨3, 4⟩ ∧ getAngle ⟨1, 0⟩ ⟨3, 4⟩ < 3 * Real.pi / 2) ∧
    ((⟨1, 0⟩ : Point) ≠ ⟨3, 4⟩ →
      getAngle ⟨1, 0⟩ ⟨3, 4⟩ = clockwiseAngle ⟨3, 4⟩ ⟨1, 0⟩ - Real.pi / 2 ∧
      0 ≤ clockwiseAngle ⟨3, 4⟩ ⟨1, 0⟩ ∧ clockwiseAngle ⟨3, 4⟩ ⟨1, 0⟩ < 2 * Real.pi) :=
  ⟨by decide, by decide,
    (C12_getAngle_values ⟨1, 0⟩ ⟨3, 4⟩ (by decide) (by decide)).1,
    (C12_getAngle_values ⟨1, 0⟩ ⟨3, 4⟩ (by decide) (by decide)).2.2.2.2.2⟩

/-! ## The four neighbours of the station -/

theorem lineDistanceSq_neighbour (c q : Point)
    (hq : q = ⟨c.X, c.Y - 1⟩ ∨ q = ⟨c.X + 1, c.Y⟩ ∨ q = ⟨c.X, c.Y + 1⟩ ∨ q = ⟨c.X - 1, c.Y⟩) :
    lineDistanceSq c q = 1 := by
  rcases hq with rfl | rfl | rfl | rfl <;> simp [lineDistanceSq]

theorem neighbour_ne (c q : Point)
    (hq : q = ⟨c.X, c.Y - 1⟩ ∨ q = ⟨c.X + 1, c.Y⟩ ∨ q = ⟨c.X, c.Y + 1⟩ ∨ q = ⟨c.X - 1, c.Y⟩) :
    q ≠ c := by
  intro h
  have := lineDistanceSq_neighbour c q hq
  rw [h] at this
  simp [lineDistanceSq] at this

theorem cross_nodup (c : Point) :
    ([c, ⟨c.X, c.Y - 1⟩, ⟨c.X + 1, c.Y⟩, ⟨c.X, c.Y + 1⟩, ⟨c.X - 1, c.Y⟩] : List Point).Nodup := by
  obtain ⟨cx, cy⟩ := c
  simp only [List.nodup_cons, List.mem_cons, Point.mk.injEq, List.mem_singleton,
    List.not_mem_nil, not_false_eq_true, List.nodup_nil, and_true, not_or, not_and]
  refine ⟨⟨?_, ?_, ?_, ?_⟩, ⟨?_, ?_, ?_⟩, ⟨?_, ?_⟩, ?_⟩ <;> intros <;> omega

/-- C11, as amended: for every point `c`, on a field whose asteroids, with coordinates
between `-2^20` and `2^20`, are exactly `c` and its four neighbours `c + (0,-1)` (up),
`c + (1,0)` (right), `c + (0,1)` (down), `c + (-1,0)` (left), in whatever order they are
enumerated, `Vaporize field c` (angles over the reals) returns exactly the sequence up,
right, down, left, and leaves `c` alone in the field. -/
theorem C11_four_neighbours_order (c : Point) (field : Field)
    (hf : ∀ a ∈ field.Asteroids, inBox a)
    (h : field.Asteroids.Perm
      [c, ⟨c.X, c.Y - 1⟩, ⟨c.X + 1, c.Y⟩, ⟨c.X, c.Y + 1⟩, ⟨c.X - 1, c.Y⟩]) :
    ∃ final, final.Asteroids = [c] ∧ ∀ fuel, 5 ≤ fuel →
      Vaporize fuel field c =
        some ([⟨c.X, c.Y - 1⟩, ⟨c.X + 1, c.Y⟩, ⟨c.X, c.Y + 1⟩, ⟨c.X - 1, c.Y⟩], final) := by
  have hpi := Real.pi_pos
  have hnd5 := cross_nodup c
  have hnd : field.Asteroids.Nodup := h.nodup_iff.mpr hnd5
  have hlen : field.Asteroids.length = 5 := h.length_eq
  have hmem : ∀ q, q ∈ field.Asteroids ↔ (q = c ∨ q = ⟨c.X, c.Y - 1⟩ ∨ q = ⟨c.X + 1, c.Y⟩ ∨
      q = ⟨c.X, c.Y + 1⟩ ∨ q = ⟨c.X - 1, c.Y⟩) := by
    intro q
    rw [h.mem_iff]
    simp
  have hcb : inBox c := hf c ((hmem c).mpr (Or.inl rfl))
  have hb1 : inBox ⟨c.X, c.Y - 1⟩ := hf _ ((hmem _).mpr (Or.inr (Or.inl rfl)))
  have hb2 : inBox ⟨c.X + 1, c.Y⟩ := hf _ ((hmem _).mpr (Or.inr (Or.inr (Or.inl rfl))))
  have hb3 : inBox ⟨c.X, c.Y + 1⟩ :=
    hf _ ((hmem _).mpr (Or.inr (Or.inr (Or.inr (Or.inl rfl)))))
  have hb4 : inBox ⟨c.X - 1, c.Y⟩ :=
    hf _ ((hmem _).mpr (Or.inr (Or.inr (Or.inr (Or.inr rfl)))))
  have hvis : ∀ q, q ∈ VisibleAsteroids field c ↔ (q = ⟨c.X, c.Y - 1⟩ ∨ q = ⟨c.X + 1, c.Y⟩ ∨
      q = ⟨c.X, c.Y + 1⟩ ∨ q = ⟨c.X - 1, c.Y⟩) := by
    intro q
    rw [mem_VisibleAsteroids, hmem]
    constructor
    · rintro ⟨h1 | h1, h2, -⟩
      · exact absurd h1 h2
      · exact h1
    · intro hq
      refine ⟨Or.inr hq, neighbour_ne c q hq,
        IsVisible_of_nearestSq field c q hf hcb (hf q ((hmem q).mpr (Or.inr hq))) ?_⟩
      intro b hb hbc
      rcases (hmem b).mp hb with h1 | h1
      · exact absurd h1 hbc
      · rw [lineDistanceSq_neighbour c q hq, lineDistanceSq_neighbour c b h1]
  have hnd4 : ([⟨c.X, c.Y - 1⟩, ⟨c.X + 1, c.Y⟩, ⟨c.X, c.Y + 1⟩, ⟨c.X - 1, c.Y⟩] :
      List Point).Nodup := (List.nodup_cons.mp hnd5).2
  have hperm : ([⟨c.X, c.Y - 1⟩, ⟨c.X + 1, c.Y⟩, ⟨c.X, c.Y + 1⟩, ⟨c.X - 1, c.Y⟩] :
      List Point).Perm (VisibleAsteroids field c) := by
    rw [List.perm_ext_iff_of_nodup hnd4 (VisibleAsteroids_nodup field c hnd)]
    intro q
    rw [hvis]
    simp
  have a1 := getAngle_up ⟨c.X, c.Y - 1⟩ c hb1 hcb rfl (by simp)
  have a2 := getAngle_right ⟨c.X + 1, c.Y⟩ c hb2 hcb (by simp) rfl
  have a3 := getAngle_down ⟨c.X, c.Y + 1⟩ c hb3 hcb rfl (by simp)
  have a4 := getAngle_left ⟨c.X - 1, c.Y⟩ c hb4 hcb (by simp) rfl
  have hsorted : ([⟨c.X, c.Y - 1⟩, ⟨c.X + 1, c.Y⟩, ⟨c.X, c.Y + 1⟩, ⟨c.X - 1, c.Y⟩] :
      List Point).Pairwise fun p q => getAngle p c < getAngle q c := by
    simp only [List.pairwise_cons, List.mem_cons, List.mem_singleton, List.not_mem_nil,
      forall_eq_or_imp, forall_eq, IsEmpty.forall_iff, implies_true, and_true,
      List.Pairwise.nil, a1, a2, a3, a4]
    refine ⟨⟨?_, ?_, ?_⟩, ⟨?_, ?_⟩, ?_⟩ <;> linarith
  have hpass : (Vaporize.pass field c).1 =
      [⟨c.X, c.Y - 1⟩, ⟨c.X + 1, c.Y⟩, ⟨c.X, c.Y + 1⟩, ⟨c.X - 1, c.Y⟩] := by
    rw [pass_fst]
    exact (sortAngle_unique _ _ c hperm hsorted).symm
  have hrest : (Vaporize.pass field c).2.Asteroids = [c] := by
    rw [← List.perm_singleton,
      List.perm_ext_iff_of_nodup (pass_nodup field c hnd) (List.nodup_singleton c)]
    intro q
    rw [pass_snd_Asteroids, hpass, List.mem_filter, hmem]
    simp only [List.mem_cons, List.mem_singleton, List.not_mem_nil, or_false,
      decide_eq_true_eq]
    constructor
    · rintro ⟨h1 | h1, h2⟩
      · exact h1
      · exact absurd h1 h2
    · intro hq
      refine ⟨Or.inl hq, ?_⟩
      intro hn
      exact neighbour_ne c q hn hq
  obtain ⟨tail, final, h1, h2⟩ := Vaporize_unfold field c hnd (by omega)
  have h3 := h2 5 (by omega)
  have h4 : Vaporize 5 (Vaporize.pass field c).2 c = some ([], (Vaporize.pass field c).2) :=
    loop_stop c 5 _ [] (by rw [hrest]; simp)
  rw [h4] at h3
  simp only [Option.some.injEq, Prod.mk.injEq] at h3
  refine ⟨(Vaporize.pass field c).2, hrest, ?_⟩
  intro fuel hfuel
  rw [h1 fuel (by omega), ← h3.1, ← h3.2, hpass, List.append_nil]

/-- C11 at a concrete input: the station `(1, 1)` with its four neighbours, enumerated
row by row (grid `.#.`, `###`, `.#.`). -/
theorem C11_four_neighbours_order_witness :
    ParseAsteroids (asciiBytes ".#.\n###\n.#.") = plusField ∧
    (∀ a ∈ plusField.Asteroids, inBox a) ∧
    plusField.Asteroids.Perm [⟨1, 1⟩, ⟨1, 1 - 1⟩, ⟨1 + 1, 1⟩, ⟨1, 1 + 1⟩, ⟨1 - 1, 1⟩] ∧
    ∃ final, final.Asteroids = [⟨1, 1⟩] ∧ ∀ fuel, 5 ≤ fuel →
      Vaporize fuel plusField ⟨1, 1⟩ =
        some ([⟨1, 1 - 1⟩, ⟨1 + 1, 1⟩, ⟨1, 1 + 1⟩, ⟨1 - 1, 1⟩], final) :=
  ⟨by decide, by decide, by decide,
    C11_four_neighbours_order ⟨1, 1⟩ plusField (by decide) (by decide)⟩

/-- C11 fails as stated: around `c = (0, 2^53)` the conversion `float64(2^53 + 1) = 2^53`
puts the lower neighbour at distance `0` from `c`, so that it hides the upper one in the
first pass, and `Vaporize` returns right, down, left, up. -/
theorem C11_counterexample :
    farPlusField.Asteroids.Perm
      [⟨0, 9007199254740992⟩, ⟨0, 9007199254740992 - 1⟩, ⟨0 + 1, 9007199254740992⟩,
        ⟨0, 9007199254740992 + 1⟩, ⟨0 - 1, 9007199254740992⟩] ∧
    toF64 9007199254740993 = 9007199254740992 ∧
    lineDistance ⟨0, 9007199254740992⟩ ⟨0, 9007199254740993⟩ = 0 ∧
    VisibleAsteroids farPlusField ⟨0, 9007199254740992⟩ =
      [⟨1, 9007199254740992⟩, ⟨0, 9007199254740993⟩, ⟨-1, 9007199254740992⟩] ∧
    (∀ fuel, farPlusField.Asteroids.length ≤ fuel →
      Vaporize fuel farPlusField ⟨0, 9007199254740992⟩ =
        some ([⟨1, 9007199254740992⟩, ⟨0, 9007199254740993⟩, ⟨-1, 9007199254740992⟩,
            ⟨0, 9007199254740991⟩],
          { farPlusField with Asteroids := [⟨0, 9007199254740992⟩] })) := by
  refine ⟨by decide, by decide, by decide, by decide, ?_⟩
  intro fuel hfuel
  exact loop_fuel_mono ⟨0, 9007199254740992⟩ 5 fuel farPlusField [] _ hfuel (by decide)

/-! ## The sweep does not depend on the enumeration order -/

/-- A pass leaves asteroids of the field it started from. -/
theorem pass_inBox (field : Field) (c : Point) (hf : ∀ a ∈ field.Asteroids, inBox a) :
    ∀ a ∈ (Vaporize.pass field c).2.Asteroids, inBox a := by
  intro a ha
  rw [pass_snd_Asteroids] at ha
  exact hf a (List.mem_filter.mp ha).1

theorem pass_fst_perm (f g : Field) (c : Point) (hnd : g.Asteroids.Nodup)
    (hg : ∀ a ∈ g.Asteroids, inBox a) (hcb : inBox c)
    (h : g.Asteroids.Perm f.Asteroids) : (Vaporize.pass g c).1 = (Vaporize.pass f c).1 := by
  rw [pass_fst f c]
  apply sortAngle_unique
  · rw [pass_fst]
    exact (sortAngle_perm _ c).trans (VisibleAsteroids_perm g f h c)
  · exact pass_fst_strictly_sorted g c hnd hg hcb

theorem pass_snd_perm (f g : Field) (c : Point) (hnd : g.Asteroids.Nodup)
    (hg : ∀ a ∈ g.Asteroids, inBox a) (hcb : inBox c)
    (h : g.Asteroids.Perm f.Asteroids) :
    (Vaporize.pass g c).2.Asteroids.Perm (Vaporize.pass f c).2.Asteroids := by
  rw [pass_snd_Asteroids, pass_snd_Asteroids, pass_fst_perm f g c hnd hg hcb h]
  exact h.filter _

theorem loop_perm (c : Point) (fuel : Nat) (f g : Field) (vaporized : List Point)
    (hnd : g.Asteroids.Nodup) (hg : ∀ a ∈ g.Asteroids, inBox a) (hcb : inBox c)
    (h : g.Asteroids.Perm f.Asteroids) :
    (Vaporize.loop c fuel g vaporized).map Prod.fst =
      (Vaporize.loop c fuel f vaporized).map Prod.fst := by
  induction fuel generalizing f g vaporized with
  | zero =>
    have hl := h.length_eq
    by_cases hlen : 1 < f.Asteroids.length
    · have hlen' : 1 < g.Asteroids.length := by omega
      simp [Vaporize.loop, hlen, hlen']
    · rw [loop_stop c _ f vaporized (by omega), loop_stop c _ g vaporized (by omega)]
      rfl
  | succ n ih =>
    have hl := h.length_eq
    by_cases hlen : 1 < f.Asteroids.length
    · rw [loop_step c n f vaporized hlen, loop_step c n g vaporized (by omega),
        pass_fst_perm f g c hnd hg hcb h]
      exact ih _ _ _ (pass_nodup g c hnd) (pass_inBox g c hg)
        (pass_snd_perm f g c hnd hg hcb h)
    · rw [loop_stop c _ f vaporized (by omega), loop_stop c _ g vaporized (by omega)]
      rfl

/-- C20, as amended: as long as the coordinates lie between `-2^20` and `2^20`, the
sequence returned by `Vaporize` does not depend on the order in which the asteroid map is
enumerated: for two enumerations `field`, `other` of one asteroid set (no key twice) with
such coordinates and every such origin `c`, `Vaporize` returns the same sequence and
leaves the same set of asteroids; the reason is that two asteroids visible from `c` at the
same time never have the same angle (over the reals), so that the keys sorted in a pass
are pairwise distinct. -/
theorem C20_Vaporize_order_independent (field other : Field) (c : Point)
    (hnd : field.Asteroids.Nodup) (hf : ∀ a ∈ field.Asteroids, inBox a) (hcb : inBox c)
    (hperm : other.Asteroids.Perm field.Asteroids) :
    (∃ seq final final', final'.Asteroids.Perm final.Asteroids ∧
      ∀ fuel, field.Asteroids.length ≤ fuel →
        Vaporize fuel field c = some (seq, final) ∧
        Vaporize fuel other c = some (seq, final')) ∧
    (∀ p ∈ VisibleAsteroids field c, ∀ q ∈ VisibleAsteroids field c,
      p ≠ q → getAngle p c ≠ getAngle q c) := by
  have hnd' : other.Asteroids.Nodup := hperm.nodup_iff.mpr hnd
  obtain ⟨seq, final, h1, -, -, -, -, -, h7⟩ := Vaporize_spec field c hnd
  obtain ⟨seq', final', h1', -, -, -, -, -, h7'⟩ := Vaporize_spec other c hnd'
  have hl := hperm.length_eq
  have hseq : seq' = seq := by
    have hf' : ∀ a ∈ other.Asteroids, inBox a := fun a ha => hf a (hperm.mem_iff.mp ha)
    have e := loop_perm c field.Asteroids.length field other [] hnd' hf' hcb hperm
    have a := h1 field.Asteroids.length (le_refl _)
    have b := h1' field.Asteroids.length (by omega)
    unfold Vaporize at a b
    rw [a, b] at e
    simpa using e
  subst hseq
  refine ⟨⟨seq', final, final', ?_, ?_⟩, ?_⟩
  · rw [h7, h7']
    exact hperm.filter _
  · intro fuel hfuel
    exact ⟨h1 fuel hfuel, h1' fuel (by omega)⟩
  · intro p hp q hq hpq heq
    exact hpq (visible_getAngle_inj field c p q hf hcb hp hq heq)

/-- C20 at a concrete input: the worked example enumerated row by row and in the reverse
order, swept from `(3, 4)`. -/
theorem C20_Vaporize_order_independent_witness :
    exampleField.Asteroids.Nodup ∧ (∀ a ∈ exampleField.Asteroids, inBox a) ∧ inBox ⟨3, 4⟩ ∧
    exampleField.Asteroids.reverse.Perm exampleField.Asteroids ∧
    (∃ seq final final', final'.Asteroids.Perm final.Asteroids ∧
      ∀ fuel, exampleField.Asteroids.length ≤ fuel →
        Vaporize fuel exampleField ⟨3, 4⟩ = some (seq, final) ∧
        Vaporize fuel { exampleField with Asteroids := exampleField.Asteroids.reverse } ⟨3, 4⟩ =
          some (seq, final')) ∧
    (∀ p ∈ VisibleAsteroids exampleField ⟨3, 4⟩, ∀ q ∈ VisibleAsteroids exampleField ⟨3, 4⟩,
      p ≠ q → getAngle p ⟨3, 4⟩ ≠ getAngle q ⟨3, 4⟩) :=
  ⟨by decide, by decide, by decide, List.reverse_perm _,
    C20_Vaporize_order_independent exampleField
      { exampleField with Asteroids := exampleField.Asteroids.reverse } ⟨3, 4⟩ (by decide)
      (by decide) (by decide) (List.reverse_perm _)⟩

/-! ## The passes of the sweep as a list -/

theorem passes_step (c : Point) (fuel : Nat) (field : Field)
    (h : 1 < field.Asteroids.length) :
    Vaporize.passes c (fuel + 1) field =
      (Vaporize.pass field c).1 :: Vaporize.passes c fuel (Vaporize.pass field c).2 := by
  simp [Vaporize.passes, h]

theorem passes_stop (c : Point) (fuel : Nat) (field : Field)
    (h : field.Asteroids.length ≤ 1) : Vaporize.passes c fuel field = [] := by
  have h' : ¬ field.Asteroids.length > 1 := by omega
  cases fuel <;> simp [Vaporize.passes, h']

/-- The slice returned by the loop is the slice it was given followed by the passes. -/
theorem loop_eq_passes (c : Point) (fuel : Nat) (field : Field) (vaporized : List Point)
    (r : List Point × Field) (h : Vaporize.loop c fuel field vaporized = some r) :
    r.1 = vaporized ++ (Vaporize.passes c fuel field).flatten := by
  induction fuel generalizing field vaporized with
  | zero =>
    by_cases hlen : 1 < field.Asteroids.length
    · simp [Vaporize.loop, hlen] at h
    · rw [loop_stop c _ field vaporized (by omega)] at h
      rw [passes_stop c _ field (by omega)]
      cases h
      simp
  | succ n ih =>
    by_cases hlen : 1 < field.Asteroids.length
    · rw [loop_step c n field vaporized hlen] at h
      rw [passes_step c n field hlen, ih _ _ h]
      simp
    · rw [loop_stop c _ field vaporized (by omega)] at h
      rw [passes_stop c _ field (by omega)]
      cases h
      simp

/-- Once the fuel covers the number of asteroids the list of passes no longer changes. -/
theorem passes_stable (c : Point) (fuel fuel' : Nat) (field : Field)
    (hnd : field.Asteroids.Nodup) (h : field.Asteroids.length ≤ fuel)
    (h' : field.Asteroids.length ≤ fuel') :
    Vaporize.passes c fuel field = Vaporize.passes c fuel' field := by
  induction fuel generalizing field fuel' with
  | zero => rw [passes_stop c 0 field (by omega), passes_stop c fuel' field (by omega)]
  | succ n ih =>
    by_cases hlen : 1 < field.Asteroids.length
    · obtain ⟨m, rfl⟩ : ∃ m, fuel' = m + 1 := ⟨fuel' - 1, by omega⟩
      have hlt := pass_length_lt field c hnd hlen
      rw [passes_step c n field hlen, passes_step c m field hlen,
        ih m _ (pass_nodup field c hnd) (by omega) (by omega)]
    · rw [passes_stop c _ field (by omega), passes_stop c fuel' field (by omega)]

/-- Every asteroid other than the station is removed in some pass. -/
theorem mem_passes_flatten (c b : Point) (fuel : Nat) (field : Field)
    (hnd : field.Asteroids.Nodup) (hfuel : field.Asteroids.length ≤ fuel)
    (hc : c ∈ field.Asteroids) (hb : b ∈ field.Asteroids) (hbc : b ≠ c) :
    b ∈ (Vaporize.passes c fuel field).flatten := by
  obtain ⟨tail, final, h1, -, -, h4, h5, h6, h7⟩ := loop_spec c fuel field [] hnd hfuel
  have hcf : c ∈ final.Asteroids := by
    rw [h7]
    simp [hc, h5]
  rw [eq_singleton_of_mem _ c h4 hcf] at h6
  have e := loop_eq_passes c fuel field [] _ h1
  simp only [List.nil_append] at e
  rw [← e]
  rcases List.mem_append.mp (h6.mem_iff.mpr hb) with h | h
  · exact h
  · exact absurd (List.mem_singleton.mp h) hbc

theorem ne_of_sameRay (c p q : Point) (h : sameRay c p q) : p ≠ c ∧ q ≠ c := by
  constructor
  · rintro rfl
    have := h.2
    simp at this
  · rintro rfl
    have := h.2
    simp at this

/-- On one ray from `c`, the nearer asteroid is removed in a pass that comes before the
pass that removes the farther one. -/
theorem passes_split_of_sameRay (c a b : Point) (fuel : Nat) (field : Field)
    (hnd : field.Asteroids.Nodup) (hf : ∀ p ∈ field.Asteroids, inBox p)
    (hfuel : field.Asteroids.length ≤ fuel)
    (hc : c ∈ field.Asteroids) (ha : a ∈ field.Asteroids) (hb : b ∈ field.Asteroids)
    (hray : sameRay c a b) (hlt : lineDistanceSq c a < lineDistanceSq c b) :
    ∃ P1 P2, Vaporize.passes c fuel field = P1 ++ P2 ∧ a ∈ P1.flatten ∧ b ∈ P2.flatten := by
  obtain ⟨hac, hbc⟩ := ne_of_sameRay c a b hray
  induction fuel generalizing field with
  | zero =>
    have : field.Asteroids.length = 0 := by omega
    rw [List.length_eq_zero] at this
    rw [this] at ha
    cases ha
  | succ n ih =>
    have hab : a ≠ b := by
      rintro rfl
      exact lt_irrefl _ hlt
    have hlen : 1 < field.Asteroids.length := by
      match hA : field.Asteroids, ha, hb with
      | [], ha, _ => cases ha
      | [x], ha, hb =>
        exact absurd ((List.mem_singleton.mp ha).trans (List.mem_singleton.mp hb).symm) hab
      | _ :: _ :: _, _, _ => simp
    have hlt' := pass_length_lt field c hnd hlen
    have hbv : b ∉ (Vaporize.pass field c).1 := by
      intro hm
      have hv := ((mem_pass_fst field c b).mp hm).2.2
      rw [not_IsVisible_of_nearer_on_ray field c a b hf (hf c hc) (hf b hb) ha hray.1 hray.2
        hlt] at hv
      cases hv
    have hcv : c ∉ (Vaporize.pass field c).1 := fun hm =>
      ((mem_pass_fst field c c).mp hm).2.1 rfl
    have hb1 : b ∈ (Vaporize.pass field c).2.Asteroids := by
      rw [pass_snd_Asteroids]
      simp [hb, hbv]
    have hc1 : c ∈ (Vaporize.pass field c).2.Asteroids := by
      rw [pass_snd_Asteroids]
      simp [hc, hcv]
    rw [passes_step c n field hlen]
    by_cases hav : a ∈ (Vaporize.pass field c).1
    · refine ⟨[(Vaporize.pass field c).1], Vaporize.passes c n (Vaporize.pass field c).2,
        rfl, by simpa using hav, ?_⟩
      exact mem_passes_flatten c b n _ (pass_nodup field c hnd) (by omega) hc1 hb1 hbc
    · have ha1 : a ∈ (Vaporize.pass field c).2.Asteroids := by
        rw [pass_snd_Asteroids]
        simp [ha, hav]
      obtain ⟨P1, P2, h1, h2, h3⟩ :=
        ih (Vaporize.pass field c).2 (pass_nodup field c hnd) (pass_inBox field c hf)
          (by omega) hc1 ha1 hb1
      refine ⟨(Vaporize.pass field c).1 :: P1, P2, by rw [h1]; rfl, ?_, h3⟩
      rw [List.flatten_cons]
      exact List.mem_append_right _ h2

/-- C19, as amended: for every field (no key twice) whose asteroids have coordinates
between `-2^20` and `2^20`, every origin `c` that is an asteroid of it, and every two
asteroids `a`, `b` on one ray from `c` (so other than `c`) with `a` strictly nearer to `c`
than `b`: in the sequence returned by `Vaporize`, `a` occurs strictly before `b`, and the
passes of the sweep split into a first run of passes, one of which removes `a`, and the
later passes, one of which removes `b`. -/
theorem C19_nearer_on_ray_goes_first (field : Field) (c a b : Point)
    (hnd : field.Asteroids.Nodup) (hf : ∀ p ∈ field.Asteroids, inBox p)
    (hc : c ∈ field.Asteroids) (ha : a ∈ field.Asteroids)
    (hb : b ∈ field.Asteroids) (hray : sameRay c a b)
    (hlt : lineDistanceSq c a < lineDistanceSq c b) :
    ∃ seq final, (∀ fuel, field.Asteroids.length ≤ fuel →
        Vaporize fuel field c = some (seq, final)) ∧
      (∃ s1 s2 s3, seq = s1 ++ a :: s2 ++ b :: s3) ∧
      ∃ P1 P2, (∀ fuel, field.Asteroids.length ≤ fuel →
          Vaporize.passes c fuel field = P1 ++ P2) ∧
        seq = (P1 ++ P2).flatten ∧ a ∈ P1.flatten ∧ b ∈ P2.flatten ∧ b ∉ P1.flatten := by
  obtain ⟨seq, final, h1, -, -, -, -, h6, -⟩ := Vaporize_spec field c hnd
  obtain ⟨P1, P2, hP, haP, hbP⟩ :=
    passes_split_of_sameRay c a b field.Asteroids.length field hnd hf (le_refl _) hc ha hb
      hray hlt
  have hseq : seq = (P1 ++ P2).flatten := by
    have e := loop_eq_passes c field.Asteroids.length field [] _ (h1 _ (le_refl _))
    simp only [List.nil_append] at e
    rw [← hP]
    exact e
  have hsnd : seq.Nodup := by
    have : (seq ++ final.Asteroids).Nodup := h6.nodup_iff.mpr hnd
    exact (List.nodup_append.mp this).1
  refine ⟨seq, final, h1, ?_, P1, P2, ?_, hseq, haP, hbP, ?_⟩
  · obtain ⟨s1, t, e1⟩ := List.append_of_mem haP
    obtain ⟨u, s3, e2⟩ := List.append_of_mem hbP
    refine ⟨s1, t ++ u, s3, ?_⟩
    rw [hseq, List.flatten_append, e1, e2]
    simp
  · intro fuel hfuel
    rw [← hP]
    exact passes_stable c fuel _ field hnd hfuel (le_refl _)
  · intro hb1
    rw [hseq, List.flatten_append] at hsnd
    exact (List.nodup_append.mp hsnd).2.2 hb1 hbP

/-- C19 at a concrete input: in the worked example seen from `(3, 4)`, the asteroid
`(2, 2)` hides `(1, 0)`. -/
theorem C19_nearer_on_ray_goes_first_witness :
    exampleField.Asteroids.Nodup ∧ (∀ p ∈ exampleField.Asteroids, inBox p) ∧
    (⟨3, 4⟩ : Point) ∈ exampleField.Asteroids ∧
    (⟨2, 2⟩ : Point) ∈ exampleField.Asteroids ∧ (⟨1, 0⟩ : Point) ∈ exampleField.Asteroids ∧
    sameRay ⟨3, 4⟩ ⟨2, 2⟩ ⟨1, 0⟩ ∧
    lineDistanceSq ⟨3, 4⟩ ⟨2, 2⟩ < lineDistanceSq ⟨3, 4⟩ ⟨1, 0⟩ ∧
    ∃ seq final, (∀ fuel, exampleField.Asteroids.length ≤ fuel →
        Vaporize fuel exampleField ⟨3, 4⟩ = some (seq, final)) ∧
      (∃ s1 s2 s3, seq = s1 ++ (⟨2, 2⟩ : Point) :: s2 ++ (⟨1, 0⟩ : Point) :: s3) ∧
      ∃ P1 P2, (∀ fuel, exampleField.Asteroids.length ≤ fuel →
          Vaporize.passes ⟨3, 4⟩ fuel exampleField = P1 ++ P2) ∧
        seq = (P1 ++ P2).flatten ∧ (⟨2, 2⟩ : Point) ∈ P1.flatten ∧
        (⟨1, 0⟩ : Point) ∈ P2.flatten ∧ (⟨1, 0⟩ : Point) ∉ P1.flatten :=
  ⟨by decide, by decide, by decide, by decide, by decide, by decide, by decide,
    C19_nearer_on_ray_goes_first exampleField ⟨3, 4⟩ ⟨2, 2⟩ ⟨1, 0⟩ (by decide) (by decide)
      (by decide) (by decide) (by decide) (by decide) (by decide)⟩

/-! ## Outside the box -/

/-- C1 fails as stated: in `wideField` no asteroid lies strictly inside the segment from
`(0, 0)` to `(2^33, 0)`, not even on the line through them, yet the cross product `2^64`
of the code wraps to `0`, the dot product to `-2^33`, and `IsVisible` returns `false`. -/
theorem C1_counterexample :
    (¬ ∃ p3 ∈ wideField.Asteroids, p3 ≠ ⟨0, 0⟩ ∧ p3 ≠ ⟨8589934592, 0⟩ ∧
      liesStrictlyInside ⟨0, 0⟩ ⟨8589934592, 0⟩ p3) ∧
    crossExact ⟨8589934592, 0⟩ ⟨1, 2147483648⟩ ⟨0, 0⟩ = 18446744073709551616 ∧
    crossproduct ⟨8589934592, 0⟩ ⟨1, 2147483648⟩ ⟨0, 0⟩ = 0 ∧
    dotproduct ⟨8589934592, 0⟩ ⟨1, 2147483648⟩ ⟨0, 0⟩ = -8589934592 ∧
    IsVisible wideField ⟨0, 0⟩ ⟨8589934592, 0⟩ = false := by
  decide

/-- C1 as amended, at a concrete input: in the worked example the asteroid `(1, 0)`, seen
from `(3, 4)`, is hidden behind `(2, 2)`. -/
theorem C1_IsVisible_iff_no_asteroid_strictly_inside_witness :
    (∀ p ∈ exampleField.Asteroids, inBox p) ∧ inBox ⟨3, 4⟩ ∧ inBox ⟨1, 0⟩ ∧
    IsVisible exampleField ⟨3, 4⟩ ⟨1, 0⟩ = false ∧
    (IsVisible exampleField ⟨3, 4⟩ ⟨1, 0⟩ = true ↔
      ¬ ∃ p3 ∈ exampleField.Asteroids, p3 ≠ ⟨3, 4⟩ ∧ p3 ≠ ⟨1, 0⟩ ∧
        ((1 - 3) * (p3.Y - 4) - (0 - 4) * (p3.X - 3) = 0 ∧
         0 < (1 - 3) * (p3.X - 3) + (0 - 4) * (p3.Y - 4) ∧
         (1 - 3) * (p3.X - 3) + (0 - 4) * (p3.Y - 4) <
           (1 - 3) * (1 - 3) + (0 - 4) * (0 - 4))) :=
  ⟨by decide, by decide, by decide, by decide,
    C1_IsVisible_iff_no_asteroid_strictly_inside exampleField ⟨3, 4⟩ ⟨1, 0⟩ (by decide)
      (by decide) (by decide)⟩

/-- Due right of `c` the clockwise angle from straight up is a quarter turn. -/
theorem clockwiseAngle_right (c p : Point) (hx : c.X < p.X) (hy : p.Y = c.Y) :
    clockwiseAngle c p = Real.pi / 2 := by
  have hpi := Real.pi_pos
  have harg : Complex.arg ⟨((c.Y - p.Y : Int) : ℝ), ((p.X - c.X : Int) : ℝ)⟩ = Real.pi / 2 := by
    rw [Complex.arg_eq_pi_div_two_iff]
    constructor
    · show ((c.Y - p.Y : Int) : ℝ) = 0
      rw [hy, sub_self, Int.cast_zero]
    · show 0 < ((p.X - c.X : Int) : ℝ)
      exact_mod_cast sub_pos.mpr hx
  unfold clockwiseAngle atan2
  simp only [harg]
  rw [if_neg (by linarith)]

/-- C3 fails as stated: from the station `(0, 0)` of `farSweepField` the two asteroids
`(2^53, 0)` and `(2^53 + 1, 0)`, one behind the other, are both visible, since `float64`
gives them the same distance; they are the two elements `Vaporize` returns, and lying in
one direction they are not in strictly ascending order of angle. -/
theorem C3_counterexample :
    farSweepField.Asteroids.Nodup ∧ (⟨0, 0⟩ : Point) ∈ farSweepField.Asteroids ∧
    VisibleAsteroids farSweepField ⟨0, 0⟩ = [⟨9007199254740992, 0⟩, ⟨9007199254740993, 0⟩] ∧
    (∀ fuel, farSweepField.Asteroids.length ≤ fuel →
      Vaporize fuel farSweepField ⟨0, 0⟩ =
        some ([⟨9007199254740992, 0⟩, ⟨9007199254740993, 0⟩],
          { farSweepField with Asteroids := [⟨0, 0⟩] })) ∧
    clockwiseAngle ⟨0, 0⟩ ⟨9007199254740992, 0⟩ = clockwiseAngle ⟨0, 0⟩ ⟨9007199254740993, 0⟩ ∧
    ¬ (([⟨9007199254740992, 0⟩, ⟨9007199254740993, 0⟩] : List Point).take
        (VisibleAsteroids farSweepField ⟨0, 0⟩).length).Pairwise
      (fun p q => clockwiseAngle ⟨0, 0⟩ p < clockwiseAngle ⟨0, 0⟩ q) := by
  have hv : VisibleAsteroids farSweepField ⟨0, 0⟩ =
      [⟨9007199254740992, 0⟩, ⟨9007199254740993, 0⟩] := by decide
  have ha := clockwiseAngle_right ⟨0, 0⟩ ⟨9007199254740992, 0⟩ (by decide) rfl
  have hb := clockwiseAngle_right ⟨0, 0⟩ ⟨9007199254740993, 0⟩ (by decide) rfl
  refine ⟨by decide, by decide, hv, ?_, by rw [ha, hb], ?_⟩
  · intro fuel hfuel
    exact loop_fuel_mono ⟨0, 0⟩ 3 fuel farSweepField [] _ hfuel (by decide)
  · rw [hv]
    simp [ha, hb]

/-- C19 fails as stated: `(2^53, 0)` and `(2^53 + 1, 0)` lie on one ray from the station
`(0, 0)` of `farSweepField`, the first strictly nearer; both are removed in the first and
only pass, and when the map is enumerated with the farther one first, the farther one
comes first in the sequence `Vaporize` returns. -/
theorem C19_counterexample :
    farSweepField.Asteroids.Nodup ∧ (⟨0, 0⟩ : Point) ∈ farSweepField.Asteroids ∧
    (⟨9007199254740992, 0⟩ : Point) ∈ farSweepField.Asteroids ∧
    (⟨9007199254740993, 0⟩ : Point) ∈ farSweepField.Asteroids ∧
    sameRay ⟨0, 0⟩ ⟨9007199254740992, 0⟩ ⟨9007199254740993, 0⟩ ∧
    lineDistanceSq ⟨0, 0⟩ ⟨9007199254740992, 0⟩ < lineDistanceSq ⟨0, 0⟩ ⟨9007199254740993, 0⟩ ∧
    (∀ fuel, farSweepField.Asteroids.length ≤ fuel →
      Vaporize.passes ⟨0, 0⟩ fuel farSweepField =
        [[⟨9007199254740992, 0⟩, ⟨9007199254740993, 0⟩]]) ∧
    (∀ fuel, 3 ≤ fuel →
      Vaporize fuel
          { farSweepField with
            Asteroids := [⟨0, 0⟩, ⟨9007199254740993, 0⟩, ⟨9007199254740992, 0⟩] } ⟨0, 0⟩ =
        some ([⟨9007199254740993, 0⟩, ⟨9007199254740992, 0⟩],
          { farSweepField with Asteroids := [⟨0, 0⟩] })) := by
  refine ⟨by decide, by decide, by decide, by decide, by decide, by decide, ?_, ?_⟩
  · intro fuel hfuel
    rw [← passes_stable ⟨0, 0⟩ 3 fuel farSweepField (by decide) (by decide) hfuel]
    decide
  · intro fuel hfuel
    exact loop_fuel_mono ⟨0, 0⟩ 3 fuel _ [] _ hfuel (by decide)

/-- C20 fails as stated: the two enumerations `(0, 0)`, `(2^53, 0)`, `(2^53 + 1, 0)` and
`(0, 0)`, `(2^53 + 1, 0)`, `(2^53, 0)` of one asteroid set give two different sequences,
because the two asteroids, visible from `(0, 0)` at the same time, have the same angle:
both differences are converted to the `float64` value `-2^53`. -/
theorem C20_counterexample :
    farSweepField.Asteroids.Nodup ∧
    ([⟨0, 0⟩, ⟨9007199254740993, 0⟩, ⟨9007199254740992, 0⟩] : List Point).Perm
      farSweepField.Asteroids ∧
    (∀ fuel, farSweepField.Asteroids.length ≤ fuel →
      Vaporize fuel farSweepField ⟨0, 0⟩ =
        some ([⟨9007199254740992, 0⟩, ⟨9007199254740993, 0⟩],
          { farSweepField with Asteroids := [⟨0, 0⟩] }) ∧
      Vaporize fuel
          { farSweepField with
            Asteroids := [⟨0, 0⟩, ⟨9007199254740993, 0⟩, ⟨9007199254740992, 0⟩] } ⟨0, 0⟩ =
        some ([⟨9007199254740993, 0⟩, ⟨9007199254740992, 0⟩],
          { farSweepField with Asteroids := [⟨0, 0⟩] })) ∧
    (⟨9007199254740992, 0⟩ : Point) ∈ VisibleAsteroids farSweepField ⟨0, 0⟩ ∧
    (⟨9007199254740993, 0⟩ : Point) ∈ VisibleAsteroids farSweepField ⟨0, 0⟩ ∧
    toF64 (subInt 0 9007199254740993) = toF64 (subInt 0 9007199254740992) ∧
    getAngle ⟨9007199254740992, 0⟩ ⟨0, 0⟩ = getAngle ⟨9007199254740993, 0⟩ ⟨0, 0⟩ := by
  refine ⟨by decide, by decide, ?_, by decide, by decide, by decide, ?_⟩
  · intro fuel hfuel
    exact ⟨loop_fuel_mono ⟨0, 0⟩ 3 fuel farSweepField [] _ hfuel (by decide),
      loop_fuel_mono ⟨0, 0⟩ 3 fuel _ [] _ hfuel (by decide)⟩
  · rw [getAngle_of_right ⟨9007199254740992, 0⟩ ⟨0, 0⟩ (by decide) (by decide),
      getAngle_of_right ⟨9007199254740993, 0⟩ ⟨0, 0⟩ (by decide) (by decide)]

/-! ## Parsing -/

theorem newlinesIn_concat (pre : List Nat) (b : Nat) :
    newlinesIn (pre ++ [b]) = newlinesIn pre + (if b = 10 then 1 else 0) := by
  unfold newlinesIn
  rw [List.count_append]
  by_cases h : b = 10
  · simp [h]
  · have : List.count 10 [b] = 0 := by
      simp [List.count_singleton, h]
    simp [h, this]

theorem cellsSinceNewline_concat_newline (pre : List Nat) :
    cellsSinceNewline (pre ++ [10]) = 0 := by
  simp [cellsSinceNewline]

theorem cellsSinceNewline_concat (pre : List Nat) (b : Nat) (h : b ≠ 10) :
    cellsSinceNewline (pre ++ [b]) =
      cellsSinceNewline pre + (if b = objectSpace ∨ b = objectAsteroid then 1 else 0) := by
  unfold cellsSinceNewline
  rw [List.reverse_append, List.reverse_singleton, List.singleton_append,
    List.takeWhile_cons_of_pos (by simpa using h), List.countP_cons]
  by_cases hb : b = objectSpace ∨ b = objectAsteroid
  · simp [hb]
  · simp [hb]

theorem concat_eq_append_cons_iff (l : List Nat) (b x : Nat) (P : List Nat → Prop) :
    (∃ pre rest, l ++ [b] = pre ++ x :: rest ∧ P pre) ↔
      ((∃ pre rest, l = pre ++ x :: rest ∧ P pre) ∨ (b = x ∧ P l)) := by
  constructor
  · rintro ⟨pre, rest, h, hP⟩
    rcases List.eq_nil_or_concat rest with rfl | ⟨rest', y, rfl⟩
    · have : l = pre ∧ [b] = [x] := List.append_inj' h rfl
      right
      refine ⟨by simpa using this.2, ?_⟩
      rw [this.1]
      exact hP
    · left
      have h' : l ++ [b] = (pre ++ x :: rest') ++ [y] := by
        rw [h]
        simp
      have := List.append_inj' h' rfl
      exact ⟨pre, rest', this.1, hP⟩
  · rintro (⟨pre, rest, h, hP⟩ | ⟨h, hP⟩)
    · exact ⟨pre, rest ++ [b], by rw [h]; simp, hP⟩
    · exact ⟨l, [], by rw [h], hP⟩

theorem mem_insertKey (l : List Point) (p q : Point) : q ∈ insertKey l p ↔ (q ∈ l ∨ q = p) := by
  unfold insertKey
  split_ifs with h
  · constructor
    · exact fun hq => Or.inl hq
    · rintro (hq | rfl)
      · exact hq
      · exact h
  · simp

theorem insertKey_nodup (l : List Point) (p : Point) (h : l.Nodup) : (insertKey l p).Nodup := by
  unfold insertKey
  split_ifs with hp
  · exact h
  · rw [List.nodup_append]
    refine ⟨h, List.nodup_singleton p, ?_⟩
    intro a ha hb
    exact hp (by rwa [List.mem_singleton.mp hb] at ha)

theorem cellsSinceNewline_nonneg (pre : List Nat) : 0 ≤ cellsSinceNewline pre := by
  unfold cellsSinceNewline
  exact Int.natCast_nonneg _

theorem newlinesIn_nonneg (pre : List Nat) : 0 ≤ newlinesIn pre := by
  unfold newlinesIn
  exact Int.natCast_nonneg _

/-- What the scanning loop of `ParseAsteroids` has established after the bytes `input`:
the cursor is at the column and row of the next byte, the keys of the map are the
positions of the `'#'` bytes read, and `maxX`, `maxY` are the largest column and row of a
key (`0` when there is none). -/
theorem parse_invariant (input : List Nat) :
    (input.foldl ParseAsteroids.step ⟨⟨0, 0⟩, 0, 0, []⟩).p =
      ⟨cellsSinceNewline input, newlinesIn input⟩ ∧
    (∀ pt, pt ∈ (input.foldl ParseAsteroids.step ⟨⟨0, 0⟩, 0, 0, []⟩).asteroids ↔
      ∃ pre rest, input = pre ++ objectAsteroid :: rest ∧
        pt = ⟨cellsSinceNewline pre, newlinesIn pre⟩) ∧
    (input.foldl ParseAsteroids.step ⟨⟨0, 0⟩, 0, 0, []⟩).asteroids.Nodup ∧
    (∀ pt ∈ (input.foldl ParseAsteroids.step ⟨⟨0, 0⟩, 0, 0, []⟩).asteroids,
      pt.X ≤ (input.foldl ParseAsteroids.step ⟨⟨0, 0⟩, 0, 0, []⟩).maxX ∧
      pt.Y ≤ (input.foldl ParseAsteroids.step ⟨⟨0, 0⟩, 0, 0, []⟩).maxY) ∧
    ((input.foldl ParseAsteroids.step ⟨⟨0, 0⟩, 0, 0, []⟩).maxX = 0 ∨
      ∃ pt ∈ (input.foldl ParseAsteroids.step ⟨⟨0, 0⟩, 0, 0, []⟩).asteroids,
        pt.X = (input.foldl ParseAsteroids.step ⟨⟨0, 0⟩, 0, 0, []⟩).maxX) ∧
    ((input.foldl ParseAsteroids.step ⟨⟨0, 0⟩, 0, 0, []⟩).maxY = 0 ∨
      ∃ pt ∈ (input.foldl ParseAsteroids.step ⟨⟨0, 0⟩, 0, 0, []⟩).asteroids,
        pt.Y = (input.foldl ParseAsteroids.step ⟨⟨0, 0⟩, 0, 0, []⟩).maxY) := by
  induction input using List.reverseRecOn with
  | nil =>
    refine ⟨rfl, ?_, List.nodup_nil, ?_, Or.inl rfl, Or.inl rfl⟩
    · intro pt
      simp
    · intro pt hpt
      cases hpt
  | append_singleton l b ih =>
    rw [List.foldl_append, List.foldl_cons, List.foldl_nil]
    generalize l.foldl ParseAsteroids.step ⟨⟨0, 0⟩, 0, 0, []⟩ = s at ih ⊢
    obtain ⟨hp, hmem, hnd, hle, hmx, hmy⟩ := ih
    have hsplit := fun pt : Point => concat_eq_append_cons_iff l b objectAsteroid
      (fun pre => pt = ⟨cellsSinceNewline pre, newlinesIn pre⟩)
    by_cases h10 : b = 10
    · subst h10
      have e : ParseAsteroids.step s 10 = { s with p := ⟨0, s.p.Y + 1⟩ } := by
        simp [ParseAsteroids.step]
      rw [e]
      refine ⟨?_, ?_, hnd, hle, hmx, hmy⟩
      · rw [cellsSinceNewline_concat_newline, newlinesIn_concat, hp]
        simp
      · intro pt
        rw [hsplit pt, ← hmem pt]
        simp [objectAsteroid]
    · by_cases h46 : b = objectSpace
      · subst h46
        have e : ParseAsteroids.step s objectSpace = { s with p := ⟨s.p.X + 1, s.p.Y⟩ } := by
          simp [ParseAsteroids.step, objectSpace]
        rw [e]
        refine ⟨?_, ?_, hnd, hle, hmx, hmy⟩
        · rw [cellsSinceNewline_concat _ _ h10, newlinesIn_concat, hp]
          simp [objectSpace]
        · intro pt
          rw [hsplit pt, ← hmem pt]
          simp [objectAsteroid, objectSpace]
      · by_cases h35 : b = objectAsteroid
        · subst h35
          have e : ParseAsteroids.step s objectAsteroid =
              { p := ⟨s.p.X + 1, s.p.Y⟩
                maxX := if s.p.X > s.maxX then s.p.X else s.maxX
                maxY := if s.p.Y > s.maxY then s.p.Y else s.maxY
                asteroids := insertKey s.asteroids s.p } := by
            simp [ParseAsteroids.step, objectSpace, objectAsteroid]
          rw [e]
          refine ⟨?_, ?_, insertKey_nodup _ _ hnd, ?_, ?_, ?_⟩
          · rw [cellsSinceNewline_concat _ _ h10, newlinesIn_concat, hp]
            simp [objectAsteroid]
          · intro pt
            show pt ∈ insertKey s.asteroids s.p ↔ _
            rw [hsplit pt, mem_insertKey, hmem pt, hp]
            simp
          · intro pt hpt
            rcases (mem_insertKey _ _ _).mp hpt with h | h
            · have := hle pt h
              constructor
              · show pt.X ≤ if s.p.X > s.maxX then s.p.X else s.maxX
                split_ifs <;> omega
              · show pt.Y ≤ if s.p.Y > s.maxY then s.p.Y else s.maxY
                split_ifs <;> omega
            · rw [h]
              constructor
              · show s.p.X ≤ if s.p.X > s.maxX then s.p.X else s.maxX
                split_ifs <;> omega
              · show s.p.Y ≤ if s.p.Y > s.maxY then s.p.Y else s.maxY
                split_ifs <;> omega
          · show (if s.p.X > s.maxX then s.p.X else s.maxX) = 0 ∨
              ∃ pt ∈ insertKey s.asteroids s.p, pt.X = if s.p.X > s.maxX then s.p.X else s.maxX
            split_ifs with hgt
            · exact Or.inr ⟨s.p, (mem_insertKey _ _ _).mpr (Or.inr rfl), rfl⟩
            · rcases hmx with h | ⟨pt, hpt, h⟩
              · exact Or.inl h
              · exact Or.inr ⟨pt, (mem_insertKey _ _ _).mpr (Or.inl hpt), h⟩
          · show (if s.p.Y > s.maxY then s.p.Y else s.maxY) = 0 ∨
              ∃ pt ∈ insertKey s.asteroids s.p, pt.Y = if s.p.Y > s.maxY then s.p.Y else s.maxY
            split_ifs with hgt
            · exact Or.inr ⟨s.p, (mem_insertKey _ _ _).mpr (Or.inr rfl), rfl⟩
            · rcases hmy with h | ⟨pt, hpt, h⟩
              · exact Or.inl h
              · exact Or.inr ⟨pt, (mem_insertKey _ _ _).mpr (Or.inl hpt), h⟩
        · have e : ParseAsteroids.step s b = s := by
            simp [ParseAsteroids.step, h10, h46, h35]
          rw [e]
          refine ⟨?_, ?_, hnd, hle, hmx, hmy⟩
          · rw [cellsSinceNewline_concat _ _ h10, newlinesIn_concat, hp]
            simp [h10, h46, h35]
          · intro pt
            rw [hsplit pt, ← hmem pt]
            simp [h35]

theorem step_of_ignored (s : ParseState) (b : Nat)
    (h : ¬ (b = 10 ∨ b = objectSpace ∨ b = objectAsteroid)) : ParseAsteroids.step s b = s := by
  have h10 : b ≠ 10 := fun e => h (Or.inl e)
  have h46 : b ≠ objectSpace := fun e => h (Or.inr (Or.inl e))
  have h35 : b ≠ objectAsteroid := fun e => h (Or.inr (Or.inr e))
  simp [ParseAsteroids.step, h10, h46, h35]

/-- Bytes other than newline, `'.'` and `'#'` leave the state of the scanning loop as it
is, so the loop over the input without them ends in the same state. -/
theorem foldl_step_filter (input : List Nat) (s : ParseState) :
    (input.filter fun b => decide (b = 10 ∨ b = objectSpace ∨ b = objectAsteroid)).foldl
      ParseAsteroids.step s = input.foldl ParseAsteroids.step s := by
  induction input generalizing s with
  | nil => rfl
  | cons b rest ih =>
    by_cases h : b = 10 ∨ b = objectSpace ∨ b = objectAsteroid
    · rw [List.filter_cons_of_pos (by simpa using h), List.foldl_cons, List.foldl_cons, ih]
    · rw [List.filter_cons_of_neg (by simpa using h), List.foldl_cons, step_of_ignored s b h, ih]

theorem ParseAsteroids_filter (input : List Nat) :
    ParseAsteroids (input.filter fun b => decide (b = 10 ∨ b = objectSpace ∨ b = objectAsteroid))
      = ParseAsteroids input := by
  unfold ParseAsteroids
  rw [foldl_step_filter]

theorem mem_ParseAsteroids (input : List Nat) (pt : Point) :
    pt ∈ (ParseAsteroids input).Asteroids ↔
      ∃ pre rest, input = pre ++ objectAsteroid :: rest ∧
        pt = ⟨cellsSinceNewline pre, newlinesIn pre⟩ :=
  (parse_invariant input).2.1 pt

theorem ParseAsteroids_nodup (input : List Nat) : (ParseAsteroids input).Asteroids.Nodup :=
  (parse_invariant input).2.2.1

/-- C16: for every input byte sequence, a point `(x, y)` is a key of the asteroid map
returned by `ParseAsteroids` exactly when some `'#'` byte of the input has `y` newline bytes
before it and `x` bytes that are `'.'` or `'#'` between the last newline before it (or the
start) and itself; no key is listed twice; and the input with every byte other than
newline, `'.'` and `'#'` deleted parses to the same field (width, height and asteroids). -/
theorem C16_ParseAsteroids_asteroids_are_the_hash_positions (input : List Nat) :
    (∀ x y : Int, (⟨x, y⟩ : Point) ∈ (ParseAsteroids input).Asteroids ↔
      ∃ pre rest, input = pre ++ objectAsteroid :: rest ∧
        newlinesIn pre = y ∧ cellsSinceNewline pre = x) ∧
    (ParseAsteroids input).Asteroids.Nodup ∧
    ParseAsteroids
      (input.filter fun b => decide (b = 10 ∨ b = objectSpace ∨ b = objectAsteroid)) =
        ParseAsteroids input := by
  refine ⟨?_, ParseAsteroids_nodup input, ParseAsteroids_filter input⟩
  intro x y
  rw [mem_ParseAsteroids]
  constructor
  · rintro ⟨pre, rest, h, hpt⟩
    injection hpt with hx hy
    exact ⟨pre, rest, h, hy.symm, hx.symm⟩
  · rintro ⟨pre, rest, h, hy, hx⟩
    exact ⟨pre, rest, h, by rw [hx, hy]⟩

theorem inputRows_ne_nil (l : List Nat) : inputRows l ≠ [] := by
  cases l with
  | nil => simp [inputRows]
  | cons b rest =>
    unfold inputRows
    split_ifs
    · simp
    · split <;> simp

theorem rowCount_eq (l : List Nat) : rowCount l = l.count 10 + 1 := by
  unfold rowCount
  induction l with
  | nil => simp [inputRows]
  | cons b rest ih =>
    unfold inputRows
    by_cases h : b = 10
    · subst h
      simp [ih]
    · rw [if_neg h]
      have hc : List.count 10 (b :: rest) = List.count 10 rest := by
        rw [List.count_cons_of_ne (Ne.symm h)]
      rw [hc, ← ih]
      split
      · rename_i e
        exact absurd e (inputRows_ne_nil rest)
      · rename_i r rs e
        rw [e]
        simp

/-- The first row of a text is its bytes up to the first newline. -/
theorem inputRows_head (l : List Nat) :
    ∃ rs, inputRows l = (l.takeWhile fun b => decide (b ≠ 10)) :: rs := by
  induction l with
  | nil => exact ⟨[], by simp [inputRows]⟩
  | cons b rest ih =>
    obtain ⟨rs, e⟩ := ih
    unfold inputRows
    by_cases h : b = 10
    · subst h
      exact ⟨inputRows rest, by simp⟩
    · rw [if_neg h, e]
      exact ⟨rs, by simp [h]⟩

theorem inputRows_cons_of_ne (x : Nat) (l r : List Nat) (rs : List (List Nat)) (h : x ≠ 10)
    (e : inputRows l = r :: rs) : inputRows (x :: l) = (x :: r) :: rs := by
  rw [inputRows, if_neg h, e]

/-- The rows of the text after a newline are rows of the whole text. -/
theorem inputRows_append_newline (a b : List Nat) :
    inputRows (a ++ 10 :: b) = inputRows a ++ inputRows b := by
  induction a with
  | nil => simp [inputRows]
  | cons x a ih =>
    by_cases h : x = 10
    · subst h
      simp [inputRows, ih]
    · obtain ⟨rs, e⟩ := inputRows_head a
      rw [List.cons_append, inputRows_cons_of_ne x a _ rs h e,
        inputRows_cons_of_ne x (a ++ 10 :: b) _ (rs ++ inputRows b) h (by rw [ih, e]; rfl)]
      rfl

theorem le_longestRow (l : List Nat) (row : List Nat) (h : row ∈ inputRows l) :
    row.length ≤ longestRow l := by
  unfold longestRow
  generalize inputRows l = rows at h
  induction rows with
  | nil => cases h
  | cons r rs ih =>
    rw [List.map_cons, List.foldr_cons]
    rcases List.mem_cons.mp h with rfl | h
    · exact le_max_left _ _
    · exact le_trans (ih h) (le_max_right _ _)

theorem dropWhile_ne_newline (l : List Nat) :
    (l.dropWhile fun b => decide (b ≠ 10)) = [] ∨
      ∃ d, (l.dropWhile fun b => decide (b ≠ 10)) = 10 :: d := by
  induction l with
  | nil => exact Or.inl rfl
  | cons x l ih =>
    by_cases h : x = 10
    · subst h
      exact Or.inr ⟨l, by simp⟩
    · rw [List.dropWhile_cons_of_pos (by simpa using h)]
      exact ih

theorem takeWhile_ne_newline (l : List Nat) :
    ∀ a ∈ (l.takeWhile fun b => decide (b ≠ 10)), a ≠ 10 := by
  induction l with
  | nil =>
    intro a ha
    cases ha
  | cons x l ih =>
    intro a ha
    by_cases h : x = 10
    · subst h
      simp at ha
    · rw [List.takeWhile_cons_of_pos (by simpa using h)] at ha
      rcases List.mem_cons.mp ha with rfl | ha
      · exact h
      · exact ih a ha

/-- Every text splits at its last newline: the bytes after it contain no newline. -/
theorem split_last_newline (pre : List Nat) :
    ∃ seg, (pre.reverse.takeWhile fun b => decide (b ≠ 10)).reverse = seg ∧
      (∀ a ∈ seg, a ≠ 10) ∧ (pre = seg ∨ ∃ d, pre = d ++ 10 :: seg) := by
  refine ⟨_, rfl, ?_, ?_⟩
  · intro a ha
    exact takeWhile_ne_newline _ a (List.mem_reverse.mp ha)
  · have hsplit : pre = (pre.reverse.dropWhile fun b => decide (b ≠ 10)).reverse ++
        (pre.reverse.takeWhile fun b => decide (b ≠ 10)).reverse := by
      rw [← List.reverse_append, List.takeWhile_append_dropWhile, List.reverse_reverse]
    rcases dropWhile_ne_newline pre.reverse with h | ⟨d, h⟩
    · left
      rw [h] at hsplit
      simpa using hsplit
    · right
      rw [h] at hsplit
      refine ⟨d.reverse, ?_⟩
      simpa using hsplit

/-- The bytes since the last newline of `pre`, followed by the bytes of `t` up to its first
newline, are one row of the text `pre ++ t`. -/
theorem row_at_cut (pre t : List Nat) :
    (pre.reverse.takeWhile fun b => decide (b ≠ 10)).reverse ++
      (t.takeWhile fun b => decide (b ≠ 10)) ∈ inputRows (pre ++ t) := by
  obtain ⟨seg, hseg, hall, hcase⟩ := split_last_newline pre
  rw [hseg]
  have hhead : seg ++ (t.takeWhile fun b => decide (b ≠ 10)) ∈ inputRows (seg ++ t) := by
    obtain ⟨rs, e⟩ := inputRows_head (seg ++ t)
    rw [e, List.takeWhile_append_of_pos (by simpa using hall)]
    exact List.mem_cons_self _ _
  rcases hcase with h | ⟨d, h⟩
  · rw [h]
    exact hhead
  · rw [h, List.append_assoc, List.cons_append, inputRows_append_newline]
    exact List.mem_append_right _ hhead

/-- A `'#'` of the text lies in a row that is longer than its column index, and in a row
whose index is less than the number of rows. -/
theorem hash_position_bounds (pre rest : List Nat) :
    cellsSinceNewline pre + 1 ≤ (longestRow (pre ++ objectAsteroid :: rest) : Int) ∧
    newlinesIn pre + 1 ≤ (rowCount (pre ++ objectAsteroid :: rest) : Int) := by
  constructor
  · have hrow := le_longestRow _ _ (row_at_cut pre (objectAsteroid :: rest))
    have htk : (List.takeWhile (fun b => decide (b ≠ 10)) (objectAsteroid :: rest)).length ≥ 1 := by
      rw [List.takeWhile_cons_of_pos (by simp [objectAsteroid])]
      simp
    have hc : (pre.reverse.takeWhile fun b => decide (b ≠ 10)).countP
        (fun b => decide (b = objectSpace ∨ b = objectAsteroid)) ≤
        (pre.reverse.takeWhile fun b => decide (b ≠ 10)).length := List.countP_le_length _
    rw [List.length_append, List.length_reverse] at hrow
    unfold cellsSinceNewline
    omega
  · rw [rowCount_eq, List.count_append]
    unfold newlinesIn
    omega

/-- C15 as stated fails: the text with the two rows `#..` and `...` has a longest row of
length 3 and 2 rows, and `ParseAsteroids` returns a field of width 1 and height 1. -/
theorem C15_counterexample :
    longestRow (asciiBytes "#..\n...") = 3 ∧ rowCount (asciiBytes "#..\n...") = 2 ∧
    (ParseAsteroids (asciiBytes "#..\n...")).Width = 1 ∧
    (ParseAsteroids (asciiBytes "#..\n...")).Height = 1 ∧
    ¬ ((ParseAsteroids (asciiBytes "#..\n...")).Width =
        (longestRow (asciiBytes "#..\n...") : Int) ∧
      (ParseAsteroids (asciiBytes "#..\n...")).Height =
        (rowCount (asciiBytes "#..\n...") : Int)) := by
  decide

/-- C15, amended: for every input text, the width of the field returned by
`ParseAsteroids` is one more than the largest column of a `'#'` of the input and its height
is one more than the largest row of a `'#'` (both are 1 when that largest index is 0, in
particular when the input has no `'#'`): every `'#'` lies in a column below the width and a
row below the height, and unless the width is 1 some `'#'` lies in column width - 1,
unless the height is 1 some `'#'` lies in row height - 1. So the width is at most the
length of the longest row (or 1) and the height at most the number of rows. -/
theorem C15_ParseAsteroids_extent_of_asteroids (input : List Nat) :
    (∀ pre rest, input = pre ++ objectAsteroid :: rest →
      cellsSinceNewline pre + 1 ≤ (ParseAsteroids input).Width ∧
      newlinesIn pre + 1 ≤ (ParseAsteroids input).Height) ∧
    ((ParseAsteroids input).Width = 1 ∨
      ∃ pre rest, input = pre ++ objectAsteroid :: rest ∧
        cellsSinceNewline pre + 1 = (ParseAsteroids input).Width) ∧
    ((ParseAsteroids input).Height = 1 ∨
      ∃ pre rest, input = pre ++ objectAsteroid :: rest ∧
        newlinesIn pre + 1 = (ParseAsteroids input).Height) ∧
    (ParseAsteroids input).Width ≤ max 1 (longestRow input : Int) ∧
    (ParseAsteroids input).Height ≤ (rowCount input : Int) := by
  obtain ⟨-, hmem, -, hle, hmx, hmy⟩ := parse_invariant input
  have hW : (ParseAsteroids input).Width =
      (input.foldl ParseAsteroids.step ⟨⟨0, 0⟩, 0, 0, []⟩).maxX + 1 := rfl
  have hH : (ParseAsteroids input).Height =
      (input.foldl ParseAsteroids.step ⟨⟨0, 0⟩, 0, 0, []⟩).maxY + 1 := rfl
  rw [hW, hH]
  generalize input.foldl ParseAsteroids.step ⟨⟨0, 0⟩, 0, 0, []⟩ = s at hmem hle hmx hmy
  have hX : s.maxX + 1 = 1 ∨ ∃ pre rest, input = pre ++ objectAsteroid :: rest ∧
      cellsSinceNewline pre + 1 = s.maxX + 1 := by
    rcases hmx with h | ⟨pt, hpt, h⟩
    · exact Or.inl (by rw [h]; rfl)
    · obtain ⟨pre, rest, e, rfl⟩ := (hmem pt).mp hpt
      exact Or.inr ⟨pre, rest, e, by rw [← h]⟩
  have hY : s.maxY + 1 = 1 ∨ ∃ pre rest, input = pre ++ objectAsteroid :: rest ∧
      newlinesIn pre + 1 = s.maxY + 1 := by
    rcases hmy with h | ⟨pt, hpt, h⟩
    · exact Or.inl (by rw [h]; rfl)
    · obtain ⟨pre, rest, e, rfl⟩ := (hmem pt).mp hpt
      exact Or.inr ⟨pre, rest, e, by rw [← h]⟩
  refine ⟨?_, hX, hY, ?_, ?_⟩
  · intro pre rest e
    have := hle ⟨cellsSinceNewline pre, newlinesIn pre⟩ ((hmem _).mpr ⟨pre, rest, e, rfl⟩)
    constructor
    · exact Int.add_le_add_right this.1 1
    · exact Int.add_le_add_right this.2 1
  · rcases hX with h | ⟨pre, rest, e, h⟩
    · rw [h]
      exact le_max_left _ _
    · rw [← h, e]
      exact le_trans (hash_position_bounds pre rest).1 (le_max_right _ _)
  · rcases hY with h | ⟨pre, rest, e, h⟩
    · rw [h, rowCount_eq]
      omega
    · rw [← h, e]
      exact (hash_position_bounds pre rest).2

end Asteroid
